import Mathlib

/-!
Verification development for the hindisearch repository.

The Python sources under scripts/ are shallowly embedded: strings are lists
of characters, Python floats are rationals, stateful loops become folds or
explicit recursion, and code that can fail or diverge returns Option.
Each section names the source file and function it embeds.
-/

namespace HindiSearch

/-! ## Python string primitives

`Str` models a Python `str` as a list of characters.  `isWS` models the
characters matched by the regex class `\s` (ASCII subset, which covers every
character appearing in the embedded code and inputs).  `pyStrip` models
`str.strip()`.
-/

abbrev Str := List Char

def isWS (c : Char) : Bool :=
  c = ' ' || c = '\t' || c = '\n' || c = '\r' || c = Char.ofNat 11 || c = Char.ofNat 12

def pyStrip (s : Str) : Str :=
  ((s.dropWhile isWS).reverse.dropWhile isWS).reverse

/-- Python `is_nullish` from scripts/utils.py restricted to strings:
true when the string strips to empty. -/
def is_nullish (s : Str) : Bool := pyStrip s = []

/-! ## scripts/_phase4/hybrid_search_api.py — /label endpoint (claim C6)

`LabelRequest` mirrors the pydantic model (lines 187-191): `article_id` is
declared `Optional[str] = None`.  `label_endpoint` embeds the `/label`
handler (lines 425-430): it raises 400 exactly when `label not in (0, 1)`,
otherwise calls `insert_label` (scripts/_phase4/db.py lines 165-177), which
performs a single INSERT into `labels`; the DDL (db.py line 67) declares
`article_id TEXT NULL`.
-/

structure LabelRequest where
  query_id : Int
  article_id : Option String
  label : Int
  note : Option String
  deriving DecidableEq

structure LabelRow where
  query_id : Int
  article_id : Option String
  label : Int
  note : Option String
  deriving DecidableEq

/-- The single row `insert_label` inserts. -/
def insert_label (query_id : Int) (article_id : Option String) (label : Int)
    (note : Option String) : LabelRow :=
  ⟨query_id, article_id, label, note⟩

structure EndpointOutcome where
  status : Nat
  inserted : List LabelRow
  deriving DecidableEq

def label_endpoint (req : LabelRequest) : EndpointOutcome :=
  if req.label = 0 ∨ req.label = 1 then
    ⟨200, [insert_label req.query_id req.article_id req.label req.note]⟩
  else
    ⟨400, []⟩

/-! ## Stable sort

Python `list.sort(key=k, reverse=True)` is a stable descending sort.  A
stable sort is extensionally unique, so we model it with a structural stable
insertion sort: `pySortBy le` keeps `x` before `y` whenever `le x y` holds,
and among elements unrelated by strict order preserves input order.
-/

def insertBy {α : Type} (le : α → α → Bool) (x : α) : List α → List α
  | [] => [x]
  | y :: ys => if le x y then x :: y :: ys else y :: insertBy le x ys

def pySortBy {α : Type} (le : α → α → Bool) : List α → List α
  | [] => []
  | x :: xs => insertBy le x (pySortBy le xs)

/-! ## scripts/_phase4/ranker_v1.py -/

def minmax_norm (values : List ℚ) : List ℚ :=
  match values with
  | [] => []
  | v :: vs =>
    let lo := vs.foldl min v
    let hi := vs.foldl max v
    if hi - lo < 1e-9 then values.map (fun _ => 0)
    else values.map (fun x => (x - lo) / (hi - lo))

def safe_overlap_count (query_tokens field_tokens : List String) : Nat :=
  if query_tokens = [] ∨ field_tokens = [] then 0
  else
    (((query_tokens.filter (fun t => t ≠ "")).dedup).filter
      (fun t => decide (t ∈ field_tokens.filter (fun u => u ≠ "")))).length

def recency_score (published_ts now_ts : Int) : ℚ :=
  if published_ts ≤ 0 ∨ now_ts ≤ 0 then 0
  else
    let age_days : ℚ := max 0 (((now_ts - published_ts : Int) : ℚ) / 86400)
    max 0 (1 - age_days / 1095)

/-- The candidate dict produced by `build_candidates`
(hybrid_search_api.py lines 281-305).  Note: the source materializes exactly
these keys; the intermediate `src_lexical` / `src_sem_article` /
`src_sem_chunk` flags are not among them. -/
structure Candidate where
  article_id : String
  url : Option String
  title : Option String
  summary : Option String
  published_date : Option String
  published_ts : Int
  primary_category : Option String
  categories : List String
  tags : List String
  location : List String
  partner_label : Option String
  contributors : List String
  categories_norm : List String
  tags_norm : List String
  locations_norm : List String
  contributors_norm : List String
  lexical_score : ℚ
  sem_article : ℚ
  sem_chunk : ℚ
  best_chunk_id : Option String
  deriving DecidableEq, Inhabited

/-- The `features` dict attached by `ranker_v1` (lines 82-98).  The three
`src_*` entries read `c.get("src_*", False)`; since `build_candidates` does
not emit those keys, the read always yields the default `False`. -/
structure Features where
  lexical_score_raw : ℚ
  sem_article_raw : ℚ
  sem_chunk_raw : ℚ
  lex_norm : ℚ
  sem_article_norm : ℚ
  sem_chunk_norm : ℚ
  tag_overlap_count : Nat
  cat_overlap_count : Nat
  loc_overlap_count : Nat
  contrib_overlap_count : Nat
  recency : ℚ
  best_chunk_id : Option String
  src_lexical : Bool
  src_sem_article : Bool
  src_sem_chunk : Bool
  deriving DecidableEq, Inhabited

/-- One element of `ranker_v1`'s output: the spread candidate dict plus
`score`, `features`, `explanation` and (after the final loop) `rank`. -/
structure RankedItem where
  cand : Candidate
  score : ℚ
  features : Features
  explanation : List (String × ℚ)
  rank : Nat
  deriving DecidableEq, Inhabited

/-- The per-candidate body of the loop in `ranker_v1` (lines 50-100), given
the already normalized signals for this index. -/
def rankerBuild (c : Candidate) (lex_ni sa_ni sc_ni : ℚ)
    (query_tokens : List String) (now_ts : Int) : RankedItem :=
  let tag_ov := safe_overlap_count query_tokens c.tags_norm
  let cat_ov := safe_overlap_count query_tokens c.categories_norm
  let loc_ov := safe_overlap_count query_tokens c.locations_norm
  let con_ov := safe_overlap_count query_tokens c.contributors_norm
  let tag_feat : ℚ := min 1 ((tag_ov : ℚ) / 2)
  let cat_feat : ℚ := min 1 ((cat_ov : ℚ) / 2)
  let loc_feat : ℚ := min 1 ((loc_ov : ℚ) / 1)
  let con_feat : ℚ := min 1 ((con_ov : ℚ) / 1)
  let recency := recency_score c.published_ts now_ts
  let score_parts : List (String × ℚ) :=
    [("lex", 1.0 * lex_ni),
     ("sem_chunk", 0.40 * sc_ni),
     ("sem_article", 0.18 * sa_ni),
     ("tag_overlap", 0.12 * tag_feat),
     ("cat_overlap", 0.10 * cat_feat),
     ("loc_overlap", 0.15 * loc_feat),
     ("contrib_overlap", 0.06 * con_feat),
     ("recency", 0.08 * recency)]
  let score := (score_parts.map Prod.snd).sum
  let explain := (pySortBy (fun a b => decide (b.2 ≤ a.2)) score_parts).take 4
  { cand := c
    score := score
    features :=
      { lexical_score_raw := c.lexical_score
        sem_article_raw := c.sem_article
        sem_chunk_raw := c.sem_chunk
        lex_norm := lex_ni
        sem_article_norm := sa_ni
        sem_chunk_norm := sc_ni
        tag_overlap_count := tag_ov
        cat_overlap_count := cat_ov
        loc_overlap_count := loc_ov
        contrib_overlap_count := con_ov
        recency := recency
        best_chunk_id := c.best_chunk_id
        src_lexical := false
        src_sem_article := false
        src_sem_chunk := false }
    explanation := explain
    rank := 0 }

/-- The `for r, item in enumerate(out, start=1): item["rank"] = r` loop. -/
def assign_ranks : Nat → List RankedItem → List RankedItem
  | _, [] => []
  | r, x :: xs => { x with rank := r } :: assign_ranks (r + 1) xs

def ranker_v1 (candidates : List Candidate) (query_tokens : List String)
    (now_ts : Int) : List RankedItem :=
  let lex := candidates.map (fun c => c.lexical_score)
  let sa := candidates.map (fun c => c.sem_article)
  let sc := candidates.map (fun c => c.sem_chunk)
  let lex_n := minmax_norm lex
  let sa_n := minmax_norm sa
  let sc_n := minmax_norm sc
  let out := (candidates.zip (lex_n.zip (sa_n.zip sc_n))).map
    (fun p => rankerBuild p.1 p.2.1 p.2.2.1 p.2.2.2 query_tokens now_ts)
  let sorted := pySortBy (fun a b => decide (b.score ≤ a.score)) out
  assign_ranks 1 sorted

/-! ## scripts/10_chunk_articles.py — tokenizer model and token windows

The tokenizer (`build_tokenizer_for_mpnet`) and `count_tokens` come from
`scripts/utils.py` functions that are not present in the source tree; the
embedding model itself is external.  `Tokenizer` models them abstractly.
`count_tokens` is modelled from the spec: the chunker budgets are measured
in tokenizer tokens, i.e. the length of `tokenizer.encode(text)`
(`add_special_tokens=False`).
-/

structure Tokenizer where
  encode : Str → List Nat
  decode : List Nat → Str

/-- Modelled from the spec: `count_tokens(tokenizer, text)` (imported in
scripts/10_chunk_articles.py from utils but absent from src) is the number
of token ids the tokenizer encodes `text` to. -/
def count_tokens (T : Tokenizer) (s : Str) : Nat := (T.encode s).length

/-- Python index clamping for a slice endpoint on a sequence of length `n`. -/
def pyIndex (n : Nat) (i : Int) : Nat :=
  if i < 0 then (max 0 ((n : Int) + i)).toNat else min i.toNat n

/-- Python `l[i:j]`. -/
def pySlice {α : Type} (l : List α) (i j : Int) : List α :=
  let a := pyIndex l.length i
  let b := pyIndex l.length j
  (l.drop a).take (b - a)

/-- `step = hard_max_tokens - max(1, overlap_tokens)` (line 59). -/
def tw_step (hard_max_tokens overlap_tokens : Nat) : Int :=
  (hard_max_tokens : Int) - (max 1 overlap_tokens : Nat)

/-- The `while i < len(ids)` loop of `token_window_split` (lines 62-67),
with explicit fuel: `none` means the fuel ran out before the loop finished
(for non-positive `step` the loop never finishes). -/
def tw_loop (T : Tokenizer) (ids : List Nat) (hard_max_tokens : Nat)
    (step : Int) : Int → Nat → Option (List Str)
  | _, 0 => none
  | i, fuel + 1 =>
    if i < (ids.length : Int) then
      match tw_loop T ids hard_max_tokens step (i + step) fuel with
      | none => none
      | some rest =>
        some (if pyStrip (T.decode (pySlice ids i (i + hard_max_tokens))) = []
          then rest
          else pyStrip (T.decode (pySlice ids i (i + hard_max_tokens))) :: rest)
    else some []

def token_window_split (T : Tokenizer) (text : Str)
    (hard_max_tokens overlap_tokens : Nat) (fuel : Nat) : Option (List Str) :=
  let ids := T.encode text
  if ids.length ≤ hard_max_tokens then
    some (if pyStrip text = [] then [] else [pyStrip text])
  else
    tw_loop T ids hard_max_tokens (tw_step hard_max_tokens overlap_tokens) 0 fuel

/-- A concrete tokenizer (one token per character) used to instantiate
theorems about the chunker on closed inputs. -/
def charTok : Tokenizer :=
  ⟨fun s => s.map Char.toNat, fun l => l.map Char.ofNat⟩

/-! ## scripts/10_chunk_articles.py — sentence-ish split and chunk assembly -/

/-- `split_long_text_sentenceish` (lines 29-51). -/
def split_long_text_sentenceish (text : Str) : List Str :=
  let t := pyStrip text
  if t = [] then []
  else
    let seps : List Char := ['।', '?', '!', '\n', ';', ':']
    let parts := seps.foldl
      (fun parts sep =>
        parts.flatMap (fun part =>
          let segs := ((part.splitOn sep).map pyStrip).filter (fun s => s ≠ [])
          if segs.length ≤ 1 then [part]
          else if sep = '।' ∨ sep = '?' ∨ sep = '!' then segs.map (fun s => s ++ [sep])
          else segs))
      [t]
    (parts.map pyStrip).filter (fun p => p ≠ [])

/-- The chunk assembly state of `chunk_paragraphs`: emitted `chunks`, the
`current` paragraph buffer and its token count. -/
structure ChunkState where
  chunks : List Str
  current : List Str
  current_tokens : Nat
  deriving DecidableEq

/-- The `flush()` closure (lines 90-97): join the buffer with blank lines,
strip, emit when non-empty. -/
def flushChunks (st : ChunkState) : ChunkState :=
  if st.current ≠ [] then
    let txt := pyStrip (List.intercalate ['\n', '\n'] st.current)
    { chunks := if txt = [] then st.chunks else st.chunks ++ [txt]
      current := []
      current_tokens := 0 }
  else { st with current := [], current_tokens := 0 }

/-- The body of the `for para in paragraphs` loop (lines 99-123). -/
def chunkPara (T : Tokenizer) (max_tokens overlap_tokens hard_max_tokens : Nat)
    (fuel : Nat) (st : ChunkState) (para : Str) : Option ChunkState :=
  let ptoks := count_tokens T para
  if ptoks > max_tokens then
    let st1 := flushChunks st
    let parts0 := split_long_text_sentenceish para
    let parts := if parts0 = [] then [para] else parts0
    parts.foldlM
      (fun st part =>
        if count_tokens T part ≤ max_tokens then
          pure (if pyStrip part ≠ []
            then { st with chunks := st.chunks ++ [pyStrip part] } else st)
        else
          match token_window_split T part hard_max_tokens overlap_tokens fuel with
          | none => none
          | some ws => pure { st with chunks := st.chunks ++ ws })
      st1
  else
    if st.current_tokens + ptoks ≤ max_tokens then
      pure { st with current := st.current ++ [para]
                     current_tokens := st.current_tokens + ptoks }
    else
      let st1 := flushChunks st
      pure { st1 with current := [para], current_tokens := ptoks }

/-- One iteration of the hard-cap post-pass (lines 129-137). -/
def hardCapStep (T : Tokenizer) (overlap_tokens hard_max_tokens : Nat)
    (fuel : Nat) (acc : List Str) (c : Str) : Option (List Str) :=
  if pyStrip c = [] then pure acc
  else if count_tokens T (pyStrip c) ≤ hard_max_tokens then pure (acc ++ [pyStrip c])
  else
    match token_window_split T (pyStrip c) hard_max_tokens overlap_tokens fuel with
    | none => none
    | some ws => pure (acc ++ ws)

/-- `chunk_paragraphs` (lines 71-139): paragraph packing, then the hard-cap
post-pass (lines 128-137), then the final empty filter (line 139).
`fuel` bounds every inner token-window loop; `none` means some window loop
did not finish within the fuel. -/
def chunk_paragraphs (T : Tokenizer) (paragraphs : List Str)
    (max_tokens overlap_tokens hard_max_tokens : Nat) (fuel : Nat) :
    Option (List Str) := do
  let st ← paragraphs.foldlM
    (chunkPara T max_tokens overlap_tokens hard_max_tokens fuel) ⟨[], [], 0⟩
  let st := flushChunks st
  let capped ← st.chunks.foldlM
    (hardCapStep T overlap_tokens hard_max_tokens fuel) []
  pure (capped.filter (fun c => pyStrip c ≠ []))

/-- A degenerate tokenizer (every text encodes to no tokens) used to
instantiate chunker theorems on closed inputs. -/
def T0 : Tokenizer := ⟨fun _ => [], fun _ => []⟩

/-! ## scripts/_phase4/hybrid_search_api.py — candidate merger (lines 249-308) -/

structure LexHit where
  article_id : String
  lexical_score : ℚ
  deriving DecidableEq, Inhabited

/-- The per-article aggregation dict entry of `build_candidates`.  Fields
are `Option`-valued to model key presence: `c.get(key, 0.0)` reads become
`.getD 0`. -/
structure CandAgg where
  lexical_score : Option ℚ
  sem_article : Option ℚ
  sem_chunk : Option ℚ
  best_chunk_id : Option String
  src_lexical : Bool
  src_sem_article : Bool
  src_sem_chunk : Bool
  deriving DecidableEq, Inhabited

def emptyAgg : CandAgg := ⟨none, none, none, none, false, false, false⟩

/-- `cand.setdefault(aid, {})` followed by in-place mutation, on an
insertion-ordered dict modelled as an association list. -/
def dictUpdate (m : List (String × CandAgg)) (aid : String)
    (f : CandAgg → CandAgg) : List (String × CandAgg) :=
  if m.any (fun p => p.1 = aid) then
    m.map (fun p => if p.1 = aid then (p.1, f p.2) else p)
  else m ++ [(aid, f emptyAgg)]

/-- The in-memory article metadata snapshot (`articles_meta`), already
defaulted the way the `m.get(...)` reads at lines 281-299 default a missing
article: all display fields empty. -/
structure ArticleMeta where
  url : Option String
  title : Option String
  summary : Option String
  published_date : Option String
  published_ts : Int
  primary_category : Option String
  categories : List String
  tags : List String
  location : List String
  partner_label : Option String
  contributors : List String
  categories_norm : List String
  tags_norm : List String
  locations_norm : List String
  contributors_norm : List String
  deriving DecidableEq, Inhabited

def emptyMeta : ArticleMeta :=
  ⟨none, none, none, none, 0, none, [], [], [], none, [], [], [], [], []⟩

/-- The output dict literal of `build_candidates` (lines 281-305).  The
`src_*` flags present in the aggregation dict are not part of this literal
and are therefore dropped from the returned candidates. -/
def mkCandidate (m : ArticleMeta) (aid : String) (c : CandAgg) : Candidate :=
  { article_id := aid
    url := m.url
    title := m.title
    summary := m.summary
    published_date := m.published_date
    published_ts := m.published_ts
    primary_category := m.primary_category
    categories := m.categories
    tags := m.tags
    location := m.location
    partner_label := m.partner_label
    contributors := m.contributors
    categories_norm := m.categories_norm
    tags_norm := m.tags_norm
    locations_norm := m.locations_norm
    contributors_norm := m.contributors_norm
    lexical_score := c.lexical_score.getD 0
    sem_article := c.sem_article.getD 0
    sem_chunk := c.sem_chunk.getD 0
    best_chunk_id := c.best_chunk_id }

/-- `build_candidates` (lines 249-308); `am` is the startup `articles_meta`
table (absent ids map to empty metadata), `cap` is `CANDIDATE_CAP`. -/
def build_candidates (am : String → ArticleMeta) (lex_hits : List LexHit)
    (sem_art : List (String × ℚ)) (sem_chk : List (String × String × ℚ))
    (cap : Nat) : List Candidate :=
  let m1 := lex_hits.foldl
    (fun m x => dictUpdate m x.article_id (fun c =>
      { c with lexical_score := some (max (c.lexical_score.getD 0) x.lexical_score)
               src_lexical := true })) []
  let m2 := sem_art.foldl
    (fun m p => dictUpdate m p.1 (fun c =>
      { c with sem_article := some (max (c.sem_article.getD 0) p.2)
               src_sem_article := true })) m1
  let m3 := sem_chk.foldl
    (fun m t => dictUpdate m t.2.1 (fun c =>
      let best := c.sem_chunk.getD 0
      if t.2.2 > best then
        { c with sem_chunk := some t.2.2
                 best_chunk_id := some t.1
                 src_sem_chunk := true }
      else { c with src_sem_chunk := true })) m2
  let out := m3.map (fun p => mkCandidate (am p.1) p.1 p.2)
  (pySortBy
    (fun a b => decide (b.lexical_score + b.sem_chunk + b.sem_article ≤
                        a.lexical_score + a.sem_chunk + a.sem_article)) out).take cap

/-! ## scripts/_phase4/hybrid_search_api.py — SearchHit (claim C3)

`SearchHit` mirrors the pydantic response model (lines 156-176).
`validate_search_hit` models pydantic construction: one `Option` argument
per declared field, in declaration order; `none` means the keyword was not
supplied, in which case a declared default applies; `rank`, `id` and
`score` have no default, so the construction fails without them.  Unknown
keywords (such as the `article_id=` actually passed at line 362) are
ignored by pydantic and so do not appear here.
-/

structure SearchHit where
  rank : Nat
  id : String
  title : Option String
  date : Option String
  summary : Option String
  url : Option String
  primary_category : Option String
  categories : List String
  tags : List String
  location : List String
  partner_label : Option String
  contributors : List String
  score : ℚ
  snippet : Option String
  features : Option Features
  explanation : Option (List (String × ℚ))
  deriving DecidableEq

def validate_search_hit (rank : Option Nat) (id : Option String)
    (title date summary url primary_category : Option (Option String))
    (categories tags location : Option (List String))
    (partner_label : Option (Option String))
    (contributors : Option (List String))
    (score : Option ℚ) (snippet : Option (Option String))
    (features : Option (Option Features))
    (expl : Option (Option (List (String × ℚ)))) : Option SearchHit :=
  match rank, id, score with
  | some rk, some i, some sc =>
    some
      { rank := rk
        id := i
        title := title.getD none
        date := date.getD none
        summary := summary.getD none
        url := url.getD none
        primary_category := primary_category.getD none
        categories := categories.getD []
        tags := tags.getD []
        location := location.getD []
        partner_label := partner_label.getD none
        contributors := contributors.getD []
        score := sc
        snippet := snippet.getD none
        features := features.getD none
        explanation := expl.getD none }
  | _, _, _ => none

/-- The `SearchHit(...)` construction in the `/search` handler
(lines 359-376).  The call supplies `rank=`, `article_id=` (not a declared
field, ignored), `title=`, `url=`, `primary_category=`, `categories=`,
`tags=`, `location=`, `partner_label=`, `contributors=`, `score=`,
`snippet=`, `features=`, `explanation=` — and never `id=`, `date=` or
`summary=`. -/
def searchHitOfItem (snippet : Option String) (explain : Bool)
    (item : RankedItem) : Option SearchHit :=
  validate_search_hit
    (some item.rank)
    none
    (some item.cand.title)
    none
    none
    (some item.cand.url)
    (some item.cand.primary_category)
    (some item.cand.categories)
    (some item.cand.tags)
    (some item.cand.location)
    (some item.cand.partner_label)
    (some item.cand.contributors)
    (some item.score)
    (some snippet)
    (some (if explain then some item.features else none))
    (some (if explain then some item.explanation else none))

/-! ## scripts/_phase4/hybrid_search_api.py — /search result slice (claim C4)

Line 358: `for item in ranked[: max(1, req.per_page)]`.  `per_page` is a
plain `int` field of the request model (default 10) with no positivity
constraint.
-/

def search_results_slice {α : Type} (ranked : List α) (per_page : Int) : List α :=
  ranked.take (max 1 per_page).toNat

/-! ## scripts/utils.py — text normalization (lines 110-133, 255-297)

`normalize_devanagari_text` is embedded stage by stage.  `ftfy.fix_text` and
`unicodedata.normalize("NFKC", ·)` are external library calls; they are
modelled as the identity, which is exact on the character repertoire used
throughout this development (ASCII, NFC/NFKC-stable Devanagari and Cyrillic
letters, and the danda U+0964).

The punctuation character class in the source (utils.py lines 130-131) is
the eight characters `р`, `е`, `д` (Cyrillic U+0440, U+0435, U+0434 — the
literal bytes present in the file, a cp866 mojibake of the danda `।`),
`,`, `;`, `:`, `!`, `?`.  `isPunctNorm` reproduces that class exactly.
-/

def isSpaceTab (c : Char) : Bool := c = ' ' || c = '\t'

def isZeroWidth (c : Char) : Bool :=
  c = Char.ofNat 0x200b || c = Char.ofNat 0x200c ||
  c = Char.ofNat 0x200d || c = Char.ofNat 0xfeff

def isPunctNorm (c : Char) : Bool :=
  c = 'р' || c = 'е' || c = 'д' || c = ',' || c = ';' || c = ':' || c = '!' || c = '?'

/-- Modelled as the identity: `ftfy.fix_text` followed by NFKC (external
libraries; identity on the characters considered here). -/
def fix_text_nfkc (s : Str) : Str := s

/-- The four zero-width replacements (line 122). -/
def removeZeroWidth (s : Str) : Str := s.filter (fun c => !(isZeroWidth c))

/-- `replace("\r\n", "\n").replace("\r", "\n")` (line 125). -/
def normNewlines : Str → Str
  | [] => []
  | [c] => if c = '\r' then ['\n'] else [c]
  | c :: d :: rest =>
    if c = '\r' then
      if d = '\n' then '\n' :: normNewlines rest
      else '\n' :: normNewlines (d :: rest)
    else c :: normNewlines (d :: rest)

/-- `re.sub(r"[ \t]+", " ", ·)` as a one-pass run collapser. -/
def collapseSpaceTabAux (inRun : Bool) : Str → Str
  | [] => []
  | c :: rest =>
    if isSpaceTab c then
      if inRun then collapseSpaceTabAux true rest
      else ' ' :: collapseSpaceTabAux true rest
    else c :: collapseSpaceTabAux false rest

def collapseSpaceTab (s : Str) : Str := collapseSpaceTabAux false s

/-- `re.sub(r"\n{3,}", "\n\n", ·)`: keep at most two newlines per run. -/
def collapseNL3Aux (run : Nat) : Str → Str
  | [] => []
  | c :: rest =>
    if c = '\n' then
      if run ≥ 2 then collapseNL3Aux (run + 1) rest
      else '\n' :: collapseNL3Aux (run + 1) rest
    else c :: collapseNL3Aux 0 rest

def collapseNL3 (s : Str) : Str := collapseNL3Aux 0 s

/-- `re.sub(r"\s+([ред,;:!?])", r"\1", ·)`: a pending whitespace run (`buf`)
is dropped when the class character follows, flushed otherwise. -/
def punctRemoveBeforeAux (buf : Str) : Str → Str
  | [] => buf
  | c :: rest =>
    if isWS c then punctRemoveBeforeAux (buf ++ [c]) rest
    else if isPunctNorm c then c :: punctRemoveBeforeAux [] rest
    else buf ++ c :: punctRemoveBeforeAux [] rest

def punctRemoveBefore (s : Str) : Str := punctRemoveBeforeAux [] s

/-- `re.sub(r"([ред,;:!?])([^\s\n])", r"\1 \2", ·)`: left-to-right,
non-overlapping, both matched characters consumed. -/
def punctInsertAfter : Str → Str
  | [] => []
  | [c] => [c]
  | c :: d :: rest =>
    if isPunctNorm c ∧ !(isWS d) then c :: ' ' :: d :: punctInsertAfter rest
    else c :: punctInsertAfter (d :: rest)

/-- Whether the string begins (possibly after leading whitespace) with a
character of the normalization punctuation class: exactly when
`punctRemoveBeforeAux` will drop its pending whitespace buffer. -/
def punctLeads : Str → Bool
  | [] => false
  | c :: rest => if isWS c then punctLeads rest else isPunctNorm c

/-- Whether the string contains three consecutive newlines, i.e. whether
`re.sub(r"\n{3,}", "\n\n", ·)` would change it. -/
def hasTripleNL : Str → Bool
  | [] => false
  | [_] => false
  | [_, _] => false
  | a :: b :: c :: rest =>
    (a = '\n' && b = '\n' && c = '\n') || hasTripleNL (b :: c :: rest)

/-- `normalize_devanagari_text` (utils.py lines 110-133). -/
def normalize_devanagari_text (s : Str) : Option Str :=
  if is_nullish s then none
  else
    some (punctInsertAfter (punctRemoveBefore (pyStrip (collapseNL3
      (collapseSpaceTab (normNewlines (removeZeroWidth (fix_text_nfkc s))))))))

/-- Count of characters matched by `\p{Devanagari}` (the Devanagari block
U+0900–U+097F, as the spec's glossary defines it). -/
def devCount (s : Str) : Nat :=
  (s.filter (fun c => 0x900 ≤ c.toNat && c.toNat ≤ 0x97F)).length

/-- `is_query_devanagari` (line 281-283): `dev_pct > 0.02`, i.e.
`dev/len > 1/50`, i.e. `50*dev > len` (also correct for the empty string). -/
def is_query_devanagari (q : Str) : Bool := 50 * devCount q > q.length

/-- Python `str.lower()` restricted to the modelled repertoire: ASCII
letters and the basic Cyrillic capitals; the identity elsewhere
(Devanagari has no case). -/
def lowerChar (c : Char) : Char :=
  if 65 ≤ c.toNat ∧ c.toNat ≤ 90 then Char.ofNat (c.toNat + 32)
  else if 0x410 ≤ c.toNat ∧ c.toNat ≤ 0x42F then Char.ofNat (c.toNat + 0x20)
  else if c.toNat = 0x401 then Char.ofNat 0x451
  else c

def isRomanAlnum (c : Char) : Bool :=
  (97 ≤ c.toNat && c.toNat ≤ 122) || (48 ≤ c.toNat && c.toNat ≤ 57)

/-- `_ROMAN_NON_ALNUM_RE = re.compile(r"[^a-z0-9\s]+")`, substituted by a
single space per run (line 263). -/
def nonAlnumToSpaceAux (inRun : Bool) : Str → Str
  | [] => []
  | c :: rest =>
    if isRomanAlnum c || isWS c then c :: nonAlnumToSpaceAux false rest
    else if inRun then nonAlnumToSpaceAux true rest
    else ' ' :: nonAlnumToSpaceAux true rest

def nonAlnumToSpace (s : Str) : Str := nonAlnumToSpaceAux false s

/-- `_ROMAN_SPACE_RE = re.compile(r"\s+")`, substituted by a single space
per run. -/
def collapseWSAux (inRun : Bool) : Str → Str
  | [] => []
  | c :: rest =>
    if isWS c then
      if inRun then collapseWSAux true rest
      else ' ' :: collapseWSAux true rest
    else c :: collapseWSAux false rest

def collapseWS (s : Str) : Str := collapseWSAux false s

/-- `re.sub(r"a{2,}", "a", ·)` and its four sibling vowel rules
(lines 267-271): every run of the vowel collapses to a single occurrence. -/
def collapseCharRunAux (v : Char) (prev : Bool) : Str → Str
  | [] => []
  | c :: rest =>
    if c = v then
      if prev then collapseCharRunAux v true rest
      else c :: collapseCharRunAux v true rest
    else c :: collapseCharRunAux v false rest

def collapseCharRun (v : Char) (s : Str) : Str := collapseCharRunAux v false s

/-- `t.replace("v", "w")` (line 274). -/
def vToW (s : Str) : Str := s.map (fun c => if c = 'v' then 'w' else c)

/-- The word substitution of `re.sub(r"\b(yojna|yojana|yojnaa)\b", "yojana", ·)`
(line 275) applied to a single `\b`-delimited word. -/
def yojanaWord (w : Str) : Str :=
  if w = "yojna".toList ∨ w = "yojana".toList ∨ w = "yojnaa".toList
  then "yojana".toList else w

/-- `re.sub(r"\b(yojna|yojana|yojnaa)\b", "yojana", ·)` (line 275).  At its
application point the string contains only `[a-z0-9 ]`, so `\b`-delimited
words are exactly the space-separated fields. -/
def yojanaFix (s : Str) : Str :=
  List.intercalate [' '] ((s.splitOn ' ').map yojanaWord)

/-- `roman_normalize_for_index` (utils.py lines 255-278). -/
def roman_normalize_for_index (s : Str) : Str :=
  if is_nullish s then []
  else
    pyStrip (collapseWS (yojanaFix (vToW (collapseCharRun 'o' (collapseCharRun 'e'
      (collapseCharRun 'u' (collapseCharRun 'i' (collapseCharRun 'a'
        (pyStrip (collapseWS (nonAlnumToSpace (pyStrip (s.map lowerChar)))))))))))))

/-- Proof-support predicate: the character repertoire of a roman-normalized
query — lowercase ASCII letters other than `v`, digits, and the space. -/
def goodRomanChar (c : Char) : Prop :=
  c = ' ' ∨ (97 ≤ c.toNat ∧ c.toNat ≤ 122 ∧ c ≠ 'v') ∨ (48 ≤ c.toNat ∧ c.toNat ≤ 57)

inductive Mode
  | dev
  | roman
  deriving DecidableEq

structure CanonResult where
  raw : Str
  mode : Mode
  q : Str
  roman_norm : Str
  deriving DecidableEq

/-- `canonicalize_query_for_search` (utils.py lines 286-297).  The dev
branch computes `normalize_devanagari_text(raw) or raw`: Python `or` falls
back to `raw` when the normalizer returns `None` or the empty string. -/
def canonicalize_query_for_search (raw_query : Str) : CanonResult :=
  let raw := if is_nullish raw_query then [] else raw_query
  if is_query_devanagari raw then
    let dev :=
      match normalize_devanagari_text raw with
      | none => raw
      | some s => if s = [] then raw else s
    ⟨raw, Mode.dev, dev, []⟩
  else
    ⟨raw, Mode.roman, roman_normalize_for_index raw, roman_normalize_for_index raw⟩

/-- The C9 counterexample query: one Devanagari letter followed by 48
commas (Devanagari ratio 1/49 > 2%). -/
def devCommaQuery : Str := 'क' :: List.replicate 48 ','

/-! ## scripts/_phase4/query_entities.py -/

/-- Python's substring test `needle in hay`. -/
def containsSub (hay needle : Str) : Bool :=
  hay.tails.any (fun t => needle.isPrefixOf t)

/-- `_norm_ws` (lines 7-10): strip, lower, collapse `\s+` to one space. -/
def norm_ws (s : Str) : Str := collapseWS ((pyStrip s).map lowerChar)

/-- Runs of `v` of length ≥ 2 collapse to exactly two occurrences
(`re.sub(r"aa+", "aa", ·)` and siblings, lines 15-19). -/
def collapseTo2Aux (v : Char) (run : Nat) : Str → Str
  | [] => []
  | c :: rest =>
    if c = v then
      if run ≥ 2 then collapseTo2Aux v (run + 1) rest
      else c :: collapseTo2Aux v (run + 1) rest
    else c :: collapseTo2Aux v 0 rest

def collapseTo2 (v : Char) (s : Str) : Str := collapseTo2Aux v 0 s

/-- `roman_norm` (query_entities.py lines 13-20). -/
def roman_norm (s : Str) : Str :=
  collapseTo2 'u' (collapseTo2 'o' (collapseTo2 'i' (collapseTo2 'e'
    (collapseTo2 'a' (norm_ws s)))))

/-- A word character for `re.split(r"[^\wऀ-ॿ]+", ·)`: ASCII
alphanumerics and underscore plus the Devanagari and Cyrillic blocks (the
repertoire used here). -/
def isTokenChar (c : Char) : Bool :=
  isRomanAlnum c || (65 ≤ c.toNat && c.toNat ≤ 90) || c = '_' ||
  (0x900 ≤ c.toNat && c.toNat ≤ 0x97F) || (0x400 ≤ c.toNat && c.toNat ≤ 0x4FF)

def tokenizeAux (cur : Str) : Str → List Str
  | [] => if cur = [] then [] else [cur]
  | c :: rest =>
    if isTokenChar c then tokenizeAux (cur ++ [c]) rest
    else if cur = [] then tokenizeAux [] rest
    else cur :: tokenizeAux [] rest

/-- `tokenize_loose` (lines 23-26): split on non-word runs, keep tokens of
length ≥ 2. -/
def tokenize_loose (q : Str) : List Str :=
  (tokenizeAux [] (norm_ws q)).filter (fun t => 2 ≤ t.length)

def btick : Char := Char.ofNat 96

/-- `_safe_ts_backtick` (lines 29-32). -/
def safe_ts_backtick (s : Str) : Str :=
  s.flatMap (fun c => if c = btick then ['\\', btick] else [c])

/-- `_build_in_filter` (lines 35-40). -/
def build_in_filter (field : Str) (values : List Str) : Option Str :=
  if values = [] then none
  else
    some (field ++ [':', '='] ++ ['['] ++
      List.intercalate [','] (values.map (fun x => btick :: (safe_ts_backtick x ++ [btick]))) ++
      [']'])

structure GazField where
  values : List Str
  values_roman_norm : List Str
  deriving DecidableEq

structure Gazetteer where
  locations_norm : GazField
  contributors_norm : GazField
  categories_norm : GazField
  tags_norm : GazField
  deriving DecidableEq

/-- The phrase-match pass of `scan` (lines 76-97): walk `values` with the
parallel `values_roman_norm` list, appending up to `max_per_field`
matches. -/
def phraseGo (mode : Mode) (q_used q_roman : Str) (maxf : Nat) :
    List Str → List Str → List Str → Nat → List Str × Nat
  | [], _, got, score => (got, score)
  | v :: vs, rs, got, score =>
    if maxf ≤ got.length then (got, score)
    else if norm_ws v = [] then phraseGo mode q_used q_roman maxf vs rs.tail got score
    else if containsSub q_used (norm_ws v) then
      phraseGo mode q_used q_roman maxf vs rs.tail (got ++ [v]) (score + 2)
    else if mode ≠ Mode.dev then
      if (rs.head?.getD (roman_norm (norm_ws v))) ≠ [] ∧
          containsSub q_roman (rs.head?.getD (roman_norm (norm_ws v))) then
        phraseGo mode q_used q_roman maxf vs rs.tail (got ++ [v]) (score + 2)
      else phraseGo mode q_used q_roman maxf vs rs.tail got score
    else phraseGo mode q_used q_roman maxf vs rs.tail got score

/-- The token-match fallback of `scan` (lines 100-111). -/
def tokenGo (q_tokens : List Str) (maxf : Nat) :
    List Str → List Str → Nat → List Str × Nat
  | [], got, score => (got, score)
  | v :: vs, got, score =>
    if maxf ≤ got.length then (got, score)
    else if tokenize_loose v = [] then tokenGo q_tokens maxf vs got score
    else if (tokenize_loose v).any (fun t => decide (t ∈ q_tokens)) then
      if v ∈ got then tokenGo q_tokens maxf vs got score
      else tokenGo q_tokens maxf vs (got ++ [v]) (score + 1)
    else tokenGo q_tokens maxf vs got score

/-- One `scan(field, allow_token)` call (lines 69-115). -/
def scanField (mode : Mode) (q_used q_roman : Str) (q_tokens : List Str)
    (gf : GazField) (allow_token : Bool) (maxf : Nat) : List Str × Nat :=
  let p := phraseGo mode q_used q_roman maxf gf.values gf.values_roman_norm [] 0
  if allow_token ∧ p.1.length < maxf then tokenGo q_tokens maxf gf.values p.1 p.2
  else p

structure EntityResult where
  loc_matches : List Str
  loc_conf : Nat
  contrib_matches : List Str
  contrib_conf : Nat
  cat_matches : List Str
  cat_conf : Nat
  tag_matches : List Str
  tag_conf : Nat
  filter_by_auto : Option Str
  deriving DecidableEq

/-- The filter emission policy of `detect_entities` (lines 126-149), given
the four `scan` results. -/
def buildFilters (lp cp catp tp : List Str × Nat) : List Str :=
  (if lp.1 ≠ [] then (build_in_filter ("locations_norm".toList) lp.1).toList else []) ++
  (if cp.1 ≠ [] ∧ 2 ≤ cp.2 then
    (build_in_filter ("contributors_norm".toList) cp.1).toList else []) ++
  (if catp.1 ≠ [] ∧ 4 ≤ catp.2 then
    (build_in_filter ("categories_norm".toList) catp.1).toList else []) ++
  (if tp.1 ≠ [] ∧ 4 ≤ tp.2 then
    (build_in_filter ("tags_norm".toList) tp.1).toList else [])

/-- `detect_entities` (query_entities.py lines 43-157).  Empty match lists
model absent `matches` keys (`conf.get(field, 0)` likewise reads 0). -/
def detect_entities (query_used : Str) (mode : Mode) (gazetteer : Gazetteer)
    (max_per_field : Nat) : EntityResult :=
  let q_used := norm_ws query_used
  let q_tokens := tokenize_loose q_used
  let q_roman := if mode ≠ Mode.dev then roman_norm q_used else []
  let lp := scanField mode q_used q_roman q_tokens gazetteer.locations_norm true max_per_field
  let cp := scanField mode q_used q_roman q_tokens gazetteer.contributors_norm false max_per_field
  let catp := scanField mode q_used q_roman q_tokens gazetteer.categories_norm true max_per_field
  let tp := scanField mode q_used q_roman q_tokens gazetteer.tags_norm true max_per_field
  let filters := buildFilters lp cp catp tp
  { loc_matches := lp.1
    loc_conf := lp.2
    contrib_matches := cp.1
    contrib_conf := cp.2
    cat_matches := catp.1
    cat_conf := catp.2
    tag_matches := tp.1
    tag_conf := tp.2
    filter_by_auto :=
      if filters = [] then none else some (List.intercalate (" && ".toList) filters) }

/-- The C8 counterexample gazetteer: three location values that each
phrase-match the query precede `"bihar"`. -/
def gaz0 : Gazetteer :=
  ⟨⟨["aasha".toList, "workers".toList, "aasha workers".toList, "bihar".toList], []⟩,
   ⟨[], []⟩, ⟨[], []⟩, ⟨[], []⟩⟩

/-- Failure of every matching rule of the roman-mode location scan for a
value `v` paired with roman form `vr`: `v` does not phrase-match the
normalized query (directly or through `vr`) and does not token-match it. -/
def failsLocMatch (q_used q_roman : Str) (q_tokens : List Str) (v vr : Str) : Prop :=
  (norm_ws v = [] ∨
    (containsSub q_used (norm_ws v) = false ∧
      (vr = [] ∨ containsSub q_roman vr = false))) ∧
  (tokenize_loose v = [] ∨
    (tokenize_loose v).any (fun t => decide (t ∈ q_tokens)) = false)

/-- A gazetteer whose only location value is `"bihar"`. -/
def gaz1 : Gazetteer :=
  ⟨⟨["bihar".toList], [[]]⟩, ⟨[], []⟩, ⟨[], []⟩, ⟨[], []⟩⟩

/-- A concrete candidate used to instantiate ranker theorems. -/
def c0 : Candidate :=
  { article_id := "a1"
    url := none
    title := none
    summary := none
    published_date := none
    published_ts := 0
    primary_category := none
    categories := []
    tags := []
    location := []
    partner_label := none
    contributors := []
    categories_norm := []
    tags_norm := []
    locations_norm := []
    contributors_norm := []
    lexical_score := 0
    sem_article := 0
    sem_chunk := 0
    best_chunk_id := none }

end HindiSearch

/-! # Claim theorems -/

open HindiSearch

/-! ## Helper lemmas (stable sort, rank assignment, min-max bounds) -/

theorem mem_insertBy {α : Type} (le : α → α → Bool) (x y : α) (l : List α) :
    y ∈ insertBy le x l ↔ y = x ∨ y ∈ l := by
  induction l with
  | nil => simp [insertBy]
  | cons z zs ih =>
    by_cases h : le x z
    · simp [insertBy, h]
    · simp only [insertBy, if_neg h, List.mem_cons, ih]
      tauto

theorem mem_pySortBy {α : Type} (le : α → α → Bool) (y : α) (l : List α) :
    y ∈ pySortBy le l ↔ y ∈ l := by
  induction l with
  | nil => simp [pySortBy]
  | cons x xs ih => simp [pySortBy, mem_insertBy, ih]

theorem insertBy_length {α : Type} (le : α → α → Bool) (x : α) (l : List α) :
    (insertBy le x l).length = l.length + 1 := by
  induction l with
  | nil => rfl
  | cons z zs ih =>
    by_cases h : le x z
    · simp [insertBy, h]
    · simp [insertBy, h, ih]

theorem pySortBy_length {α : Type} (le : α → α → Bool) (l : List α) :
    (pySortBy le l).length = l.length := by
  induction l with
  | nil => rfl
  | cons x xs ih => simp [pySortBy, insertBy_length, ih]

theorem assign_ranks_score_mem (r : Nat) (l : List RankedItem) (y : RankedItem)
    (hy : y ∈ assign_ranks r l) : ∃ x, x ∈ l ∧ y.score = x.score := by
  induction l generalizing r with
  | nil => simp [assign_ranks] at hy
  | cons x xs ih =>
    simp only [assign_ranks, List.mem_cons] at hy
    rcases hy with h | h
    · exact ⟨x, List.mem_cons_self x xs, by rw [h]⟩
    · obtain ⟨z, hz, hs⟩ := ih (r + 1) h
      exact ⟨z, List.mem_cons_of_mem x hz, hs⟩

theorem assign_ranks_length (r : Nat) (l : List RankedItem) :
    (assign_ranks r l).length = l.length := by
  induction l generalizing r with
  | nil => rfl
  | cons x xs ih => simp [assign_ranks, ih]

theorem foldl_min_le (l : List ℚ) (a : ℚ) : l.foldl min a ≤ a := by
  induction l generalizing a with
  | nil => exact le_refl a
  | cons b bs ih => exact le_trans (ih (min a b)) (min_le_left a b)

theorem foldl_min_le_mem (l : List ℚ) (a x : ℚ) (hx : x ∈ l) : l.foldl min a ≤ x := by
  induction l generalizing a with
  | nil => simp at hx
  | cons b bs ih =>
    rcases List.mem_cons.mp hx with h | h
    · subst h
      exact le_trans (foldl_min_le bs (min a x)) (min_le_right a x)
    · exact ih (min a b) h

theorem le_foldl_max (l : List ℚ) (a : ℚ) : a ≤ l.foldl max a := by
  induction l generalizing a with
  | nil => exact le_refl a
  | cons b bs ih => exact le_trans (le_max_left a b) (ih (max a b))

theorem mem_le_foldl_max (l : List ℚ) (a x : ℚ) (hx : x ∈ l) : x ≤ l.foldl max a := by
  induction l generalizing a with
  | nil => simp at hx
  | cons b bs ih =>
    rcases List.mem_cons.mp hx with h | h
    · subst h
      exact le_trans (le_max_right a x) (le_foldl_max bs (max a x))
    · exact ih (max a b) h

theorem minmax_norm_mem (l : List ℚ) (x : ℚ) (hx : x ∈ minmax_norm l) :
    0 ≤ x ∧ x ≤ 1 := by
  cases l with
  | nil => simp [minmax_norm] at hx
  | cons v vs =>
    rw [minmax_norm] at hx
    by_cases h : vs.foldl max v - vs.foldl min v < 1e-9
    · rw [if_pos h] at hx
      rcases List.mem_map.mp hx with ⟨y, _, hy⟩
      subst hy
      norm_num
    · rw [if_neg h] at hx
      have hpos : (0 : ℚ) < vs.foldl max v - vs.foldl min v := by
        have h9 : (1e-9 : ℚ) ≤ vs.foldl max v - vs.foldl min v := not_lt.mp h
        nlinarith [h9]
      rcases List.mem_map.mp hx with ⟨y, hyl, hy⟩
      subst hy
      have hlo : vs.foldl min v ≤ y := by
        rcases List.mem_cons.mp hyl with h1 | h1
        · subst h1; exact foldl_min_le vs y
        · exact foldl_min_le_mem vs v y h1
      have hhi : y ≤ vs.foldl max v := by
        rcases List.mem_cons.mp hyl with h1 | h1
        · subst h1; exact le_foldl_max vs y
        · exact mem_le_foldl_max vs v y h1
      constructor
      · exact div_nonneg (by linarith) hpos.le
      · rw [div_le_one hpos]
        linarith

theorem minmax_norm_length (l : List ℚ) : (minmax_norm l).length = l.length := by
  cases l with
  | nil => rfl
  | cons v vs =>
    rw [minmax_norm]
    by_cases h : vs.foldl max v - vs.foldl min v < 1e-9
    · rw [if_pos h, List.length_map]
    · rw [if_neg h, List.length_map]

theorem recency_score_bounds (published_ts now_ts : Int) :
    0 ≤ recency_score published_ts now_ts ∧ recency_score published_ts now_ts ≤ 1 := by
  rw [recency_score]
  by_cases h : published_ts ≤ 0 ∨ now_ts ≤ 0
  · rw [if_pos h]; norm_num
  · rw [if_neg h]
    refine ⟨le_max_left 0 _, max_le (by norm_num) ?_⟩
    have hage : (0 : ℚ) ≤ max 0 (((now_ts - published_ts : Int) : ℚ) / 86400) :=
      le_max_left 0 _
    have : (0 : ℚ) ≤ max 0 (((now_ts - published_ts : Int) : ℚ) / 86400) / 1095 := by
      positivity
    linarith

theorem min_one_bounds (x : ℚ) (hx : 0 ≤ x) : 0 ≤ min 1 x ∧ min 1 x ≤ 1 :=
  ⟨le_min zero_le_one hx, min_le_left 1 x⟩

theorem rankerBuild_score_bounds (c : Candidate) (a b d : ℚ)
    (query_tokens : List String) (now_ts : Int)
    (ha : 0 ≤ a ∧ a ≤ 1) (hb : 0 ≤ b ∧ b ≤ 1) (hd : 0 ≤ d ∧ d ≤ 1) :
    0 ≤ (rankerBuild c a b d query_tokens now_ts).score ∧
    (rankerBuild c a b d query_tokens now_ts).score ≤ 209 / 100 := by
  have htag := min_one_bounds ((safe_overlap_count query_tokens c.tags_norm : ℚ) / 2)
    (by positivity)
  have hcat := min_one_bounds ((safe_overlap_count query_tokens c.categories_norm : ℚ) / 2)
    (by positivity)
  have hloc := min_one_bounds ((safe_overlap_count query_tokens c.locations_norm : ℚ) / 1)
    (by positivity)
  have hcon := min_one_bounds ((safe_overlap_count query_tokens c.contributors_norm : ℚ) / 1)
    (by positivity)
  have hrec := recency_score_bounds c.published_ts now_ts
  simp only [rankerBuild, List.map_cons, List.map_nil, List.sum_cons, List.sum_nil]
  constructor
  · nlinarith [ha.1, hb.1, hd.1, htag.1, hcat.1, hloc.1, hcon.1, hrec.1]
  · nlinarith [ha.2, hb.2, hd.2, htag.2, hcat.2, hloc.2, hcon.2, hrec.2,
      ha.1, hb.1, hd.1, htag.1, hcat.1, hloc.1, hcon.1, hrec.1]

theorem ranker_v1_length (candidates : List Candidate) (query_tokens : List String)
    (now_ts : Int) : (ranker_v1 candidates query_tokens now_ts).length = candidates.length := by
  simp [ranker_v1, assign_ranks_length, pySortBy_length, List.length_zip,
    minmax_norm_length]

/-! ## Claim C1 -/

/-- C1: every score computed by `ranker_v1` lies in `[0, 2.09]`, the sum of
the fixed weights `1.00+0.40+0.18+0.12+0.10+0.15+0.06+0.08`. -/
theorem ranker_v1_score_bounds (candidates : List Candidate)
    (query_tokens : List String) (now_ts : Int) (r : RankedItem)
    (hr : r ∈ ranker_v1 candidates query_tokens now_ts) :
    0 ≤ r.score ∧ r.score ≤ 209 / 100 := by
  simp only [ranker_v1] at hr
  obtain ⟨x, hx, hscore⟩ := assign_ranks_score_mem _ _ _ hr
  rw [mem_pySortBy] at hx
  rcases List.mem_map.mp hx with ⟨p, hp, hpx⟩
  obtain ⟨hc, hp2⟩ := List.of_mem_zip hp
  obtain ⟨hlex, hp22⟩ := List.of_mem_zip hp2
  obtain ⟨hsa, hsc⟩ := List.of_mem_zip hp22
  have ha := minmax_norm_mem _ _ hlex
  have hb := minmax_norm_mem _ _ hsa
  have hd := minmax_norm_mem _ _ hsc
  have := rankerBuild_score_bounds p.1 p.2.1 p.2.2.1 p.2.2.2 query_tokens now_ts ha hb hd
  rw [hscore, ← hpx]
  exact this

/-- C1 witness: the bound instantiated on a concrete one-candidate input. -/
theorem ranker_v1_score_bounds_witness :
    0 ≤ ((ranker_v1 [c0] [] 0).head!).score ∧
    ((ranker_v1 [c0] [] 0).head!).score ≤ 209 / 100 :=
  ranker_v1_score_bounds [c0] [] 0 _
    (List.head!_mem_self (by
      have h : (ranker_v1 [c0] [] 0).length = 1 := by
        rw [ranker_v1_length]; rfl
      exact List.ne_nil_of_length_pos (by omega)))

/-! ## Claim C7 -/

theorem rankerBuild_src_flags (c : Candidate) (a b d : ℚ)
    (query_tokens : List String) (now_ts : Int) :
    (rankerBuild c a b d query_tokens now_ts).features.src_lexical = false ∧
    (rankerBuild c a b d query_tokens now_ts).features.src_sem_article = false ∧
    (rankerBuild c a b d query_tokens now_ts).features.src_sem_chunk = false :=
  ⟨rfl, rfl, rfl⟩

theorem assign_ranks_features_mem (r : Nat) (l : List RankedItem) (y : RankedItem)
    (hy : y ∈ assign_ranks r l) : ∃ x, x ∈ l ∧ y.features = x.features := by
  induction l generalizing r with
  | nil => simp [assign_ranks] at hy
  | cons x xs ih =>
    simp only [assign_ranks, List.mem_cons] at hy
    rcases hy with h | h
    · exact ⟨x, List.mem_cons_self x xs, by rw [h]⟩
    · obtain ⟨z, hz, hs⟩ := ih (r + 1) h
      exact ⟨z, List.mem_cons_of_mem x hz, hs⟩

/-- Every feature vector attached by `ranker_v1` reports all three `src_*`
flags as `false`: the keys are read with default `False` and the candidates
handed to the ranker never carry them. -/
theorem ranker_v1_src_flags_false (candidates : List Candidate)
    (query_tokens : List String) (now_ts : Int) (r : RankedItem)
    (hr : r ∈ ranker_v1 candidates query_tokens now_ts) :
    r.features.src_lexical = false ∧ r.features.src_sem_article = false ∧
    r.features.src_sem_chunk = false := by
  simp only [ranker_v1] at hr
  obtain ⟨x, hx, hfeat⟩ := assign_ranks_features_mem _ _ _ hr
  rw [mem_pySortBy] at hx
  rcases List.mem_map.mp hx with ⟨p, _, hpx⟩
  rw [hfeat, ← hpx]
  exact rankerBuild_src_flags p.1 p.2.1 p.2.2.1 p.2.2.2 query_tokens now_ts

/-- C7: evaluating the merger at the spec's own example — the same article
in lexical with score 12.5 and in semantic chunks with score 0.81 — shows
the max-aggregated scores and best chunk are produced, but the `src_*`
source flags are dropped from the returned candidate dict, so the ranker's
features report them as `false` rather than `true`. -/
theorem build_candidates_drops_src_flags :
    (build_candidates (fun _ => emptyMeta) [⟨"a42", 12.5⟩] []
        [("c1", "a42", 0.81)] 200).length = 1 ∧
    ((build_candidates (fun _ => emptyMeta) [⟨"a42", 12.5⟩] []
        [("c1", "a42", 0.81)] 200).head!).lexical_score = 12.5 ∧
    ((build_candidates (fun _ => emptyMeta) [⟨"a42", 12.5⟩] []
        [("c1", "a42", 0.81)] 200).head!).sem_chunk = 0.81 ∧
    ((build_candidates (fun _ => emptyMeta) [⟨"a42", 12.5⟩] []
        [("c1", "a42", 0.81)] 200).head!).best_chunk_id = some "c1" ∧
    ((ranker_v1 (build_candidates (fun _ => emptyMeta) [⟨"a42", 12.5⟩] []
        [("c1", "a42", 0.81)] 200) [] 0).head!).features.src_lexical = false ∧
    ((ranker_v1 (build_candidates (fun _ => emptyMeta) [⟨"a42", 12.5⟩] []
        [("c1", "a42", 0.81)] 200) [] 0).head!).features.src_sem_chunk = false := by
  have hb : build_candidates (fun _ => emptyMeta) [⟨"a42", 12.5⟩] []
      [("c1", "a42", 0.81)] 200 =
      [mkCandidate emptyMeta "a42"
        ⟨some (max 0 12.5), none, some 0.81, some "c1", true, false, true⟩] := by
    rw [build_candidates]
    simp only [List.foldl_cons, List.foldl_nil, dictUpdate]
    norm_num [emptyAgg, pySortBy, insertBy]
  have hlen : (ranker_v1 (build_candidates (fun _ => emptyMeta) [⟨"a42", 12.5⟩] []
      [("c1", "a42", 0.81)] 200) [] 0).length = 1 := by
    rw [ranker_v1_length, hb]
    rfl
  have hmem : (ranker_v1 (build_candidates (fun _ => emptyMeta) [⟨"a42", 12.5⟩] []
      [("c1", "a42", 0.81)] 200) [] 0).head! ∈
      ranker_v1 (build_candidates (fun _ => emptyMeta) [⟨"a42", 12.5⟩] []
      [("c1", "a42", 0.81)] 200) [] 0 :=
    List.head!_mem_self (List.ne_nil_of_length_pos (by omega))
  have hsrc := ranker_v1_src_flags_false _ [] 0 _ hmem
  refine ⟨by rw [hb]; rfl, ?_, ?_, by rw [hb]; rfl, hsrc.1, hsrc.2.2⟩
  · rw [hb]
    show (some (max (0 : ℚ) 12.5)).getD 0 = 12.5
    rw [Option.getD_some, max_eq_right (by norm_num)]
  · rw [hb]
    rfl

/-! ## Claim C3 -/

/-- C3: the `/search` handler never produces a `SearchHit` carrying the
declared `id`, `date` and `summary` fields: the construction at lines
359-376 passes `article_id=` (not a declared field) and omits the required
`id`, so pydantic validation fails for every ranked item. -/
theorem search_hit_id_missing (snippet : Option String) (explain : Bool)
    (item : RankedItem) : searchHitOfItem snippet explain item = none := rfl

/-! ## Claim C10 -/

theorem tw_loop_some (T : Tokenizer) (ids : List Nat) (hard : Nat) (step : Int)
    (h1 : 1 ≤ step) :
    ∀ (m : Nat) (i : Int), 0 ≤ i → (ids.length : Int) - i ≤ m →
      ∃ out, tw_loop T ids hard step i (m + 1) = some out := by
  intro m
  induction m with
  | zero =>
    intro i _ hle
    have hni : ¬ (i < (ids.length : Int)) := by omega
    exact ⟨[], by simp [tw_loop, hni]⟩
  | succ m ih =>
    intro i hi hle
    by_cases hlt : i < (ids.length : Int)
    · obtain ⟨out, hout⟩ := ih (i + step) (by omega) (by omega)
      rw [tw_loop, if_pos hlt, hout]
      exact ⟨_, rfl⟩
    · exact ⟨[], by simp [tw_loop, hlt]⟩

theorem tw_loop_none (T : Tokenizer) (ids : List Nat) (hard : Nat) (step : Int)
    (hstep : step ≤ 0) (hlen : 0 < ids.length) :
    ∀ (fuel : Nat) (i : Int), i ≤ 0 → tw_loop T ids hard step i fuel = none := by
  intro fuel
  induction fuel with
  | zero => intro i _; rfl
  | succ fuel ih =>
    intro i hi
    have hlt : i < (ids.length : Int) := by
      have : (0 : Int) < (ids.length : Int) := by exact_mod_cast hlen
      omega
    rw [tw_loop, if_pos hlt, ih (i + step) (by omega)]

/-- C10 counterexample: the claim asserts that `overlap_tokens <
hard_max_tokens` makes the loop step `hard_max_tokens - max(1,
overlap_tokens)` at least 1; at `hard_max_tokens = 1`, `overlap_tokens = 0`
the step is `0` and the window loop over a 2-token input never finishes
(here: not within 100 fuel). -/
theorem token_window_step_zero_counterexample :
    (0 : Nat) < 1 ∧ tw_step 1 0 = 0 ∧
    token_window_split charTok ['a', 'b'] 1 0 100 = none := by
  refine ⟨by decide, by decide, by decide⟩

/-- C10 amended: `token_window_split` terminates (with fuel `len(ids) + 1`)
whenever `max(1, overlap_tokens) < hard_max_tokens`, and this is necessary:
when `max(1, overlap_tokens) ≥ hard_max_tokens` and the input is longer
than `hard_max_tokens` tokens, the sliding-window loop never advances past
index 0 and no amount of fuel completes it. -/
theorem token_window_split_termination_iff (T : Tokenizer) (text : Str)
    (hard_max_tokens overlap_tokens : Nat) :
    (max 1 overlap_tokens < hard_max_tokens →
      ∃ out, token_window_split T text hard_max_tokens overlap_tokens
        ((T.encode text).length + 1) = some out) ∧
    (hard_max_tokens ≤ max 1 overlap_tokens →
      hard_max_tokens < (T.encode text).length →
      ∀ fuel, token_window_split T text hard_max_tokens overlap_tokens fuel = none) := by
  constructor
  · intro h
    rw [token_window_split]
    by_cases hle : (T.encode text).length ≤ hard_max_tokens
    · rw [if_pos hle]
      exact ⟨_, rfl⟩
    · rw [if_neg hle]
      have h1 : 1 ≤ tw_step hard_max_tokens overlap_tokens := by
        rw [tw_step]
        omega
      exact tw_loop_some T _ _ _ h1 (T.encode text).length 0 (by omega) (by omega)
  · intro h hlong fuel
    rw [token_window_split]
    have hle : ¬ ((T.encode text).length ≤ hard_max_tokens) := by omega
    rw [if_neg hle]
    have hstep : tw_step hard_max_tokens overlap_tokens ≤ 0 := by
      rw [tw_step]
      omega
    exact tw_loop_none T _ _ _ hstep (by omega) fuel 0 (by omega)

/-- C10 witness: the amended termination theorem applied at a concrete
tokenizer and input. -/
theorem token_window_split_termination_iff_witness :
    ∃ out, token_window_split charTok ['a', 'b', 'c'] 2 0
      ((charTok.encode ['a', 'b', 'c']).length + 1) = some out :=
  (token_window_split_termination_iff charTok ['a', 'b', 'c'] 2 0).1 (by decide)

/-! ## Claim C2 -/

theorem dropWhile_head_not (p : Char → Bool) (l : Str) (c : Char)
    (h : (l.dropWhile p).head? = some c) : p c = false := by
  induction l with
  | nil => simp at h
  | cons x xs ih =>
    by_cases hp : p x
    · rw [List.dropWhile_cons, if_pos hp] at h
      exact ih h
    · rw [List.dropWhile_cons, if_neg hp] at h
      have : c = x := by simpa using h.symm
      subst this
      exact Bool.eq_false_iff.mpr hp

theorem dropWhile_eq_self_of_head (p : Char → Bool) (l : Str)
    (h : ∀ c, l.head? = some c → p c = false) : l.dropWhile p = l := by
  cases l with
  | nil => rfl
  | cons x xs =>
    rw [List.dropWhile_cons, if_neg]
    simp [h x rfl]

theorem getLast?_dropWhile (p : Char → Bool) (l : Str) :
    l.dropWhile p = [] ∨ (l.dropWhile p).getLast? = l.getLast? := by
  induction l with
  | nil => exact Or.inl rfl
  | cons x xs ih =>
    by_cases hp : p x
    · rw [List.dropWhile_cons, if_pos hp]
      rcases ih with h | h
      · exact Or.inl h
      · rcases List.eq_nil_or_concat xs with rfl | ⟨ys, y, rfl⟩
        · exact Or.inl (by simpa using h)
        · right
          rw [h, List.concat_eq_append, ← List.cons_append,
            List.getLast?_append_cons, List.getLast?_append_cons]
    · right
      rw [List.dropWhile_cons, if_neg hp]

theorem pyStrip_head (s : Str) (c : Char) (h : (pyStrip s).head? = some c) :
    isWS c = false := by
  rw [pyStrip, List.head?_reverse] at h
  rcases getLast?_dropWhile isWS (s.dropWhile isWS).reverse with he | he
  · rw [he] at h
    simp at h
  · rw [he, List.getLast?_reverse] at h
    exact dropWhile_head_not isWS s c h

theorem pyStrip_rev_head (s : Str) (c : Char)
    (h : (pyStrip s).reverse.head? = some c) : isWS c = false := by
  rw [pyStrip, List.reverse_reverse] at h
  exact dropWhile_head_not isWS _ c h

theorem pyStrip_idem (s : Str) : pyStrip (pyStrip s) = pyStrip s := by
  show (((pyStrip s).dropWhile isWS).reverse.dropWhile isWS).reverse = pyStrip s
  rw [dropWhile_eq_self_of_head isWS (pyStrip s) (fun c hc => pyStrip_head s c hc),
    dropWhile_eq_self_of_head isWS (pyStrip s).reverse
      (fun c hc => pyStrip_rev_head s c hc),
    List.reverse_reverse]

theorem pySlice_length_le {α : Type} (l : List α) (i : Int) (h : Nat) :
    (pySlice l i (i + h)).length ≤ h := by
  simp only [pySlice, pyIndex, List.length_take, List.length_drop]
  split_ifs <;> omega

theorem tw_loop_mem (T : Tokenizer) (ids : List Nat) (hard : Nat) (step : Int) :
    ∀ (fuel : Nat) (i : Int) (out : List Str),
    tw_loop T ids hard step i fuel = some out →
    ∀ c ∈ out, ∃ w : List Nat, w.length ≤ hard ∧ c = pyStrip (T.decode w) := by
  intro fuel
  induction fuel with
  | zero => intro i out h; simp [tw_loop] at h
  | succ fuel ih =>
    intro i out h
    rw [tw_loop] at h
    by_cases hlt : i < (ids.length : Int)
    · rw [if_pos hlt] at h
      rcases hrec : tw_loop T ids hard step (i + step) fuel with _ | rest
      · rw [hrec] at h
        simp at h
      · rw [hrec] at h
        simp only [Option.some.injEq] at h
        intro c hc
        rw [← h] at hc
        by_cases htxt : pyStrip (T.decode (pySlice ids i (i + hard))) = []
        · rw [if_pos htxt] at hc
          exact ih (i + step) rest hrec c hc
        · rw [if_neg htxt] at hc
          rcases List.mem_cons.mp hc with hceq | hcm
          · exact ⟨pySlice ids i (i + hard), pySlice_length_le ids i hard, hceq⟩
          · exact ih (i + step) rest hrec c hcm
    · rw [if_neg hlt] at h
      simp only [Option.some.injEq] at h
      intro c hc
      rw [← h] at hc
      simp at hc

theorem token_window_split_mem (T : Tokenizer) (text : Str) (hard ov fuel : Nat)
    (out : List Str)
    (h : token_window_split T text hard ov fuel = some out) :
    ∀ c ∈ out, (∃ w : List Nat, w.length ≤ hard ∧ c = pyStrip (T.decode w)) ∨
      (c = pyStrip text ∧ (T.encode text).length ≤ hard) := by
  rw [token_window_split] at h
  by_cases hle : (T.encode text).length ≤ hard
  · rw [if_pos hle] at h
    simp only [Option.some.injEq] at h
    intro c hc
    rw [← h] at hc
    by_cases hstrip : pyStrip text = []
    · rw [if_pos hstrip] at hc
      simp at hc
    · rw [if_neg hstrip] at hc
      right
      exact ⟨List.mem_singleton.mp hc, hle⟩
  · rw [if_neg hle] at h
    intro c hc
    exact Or.inl (tw_loop_mem T _ hard _ fuel 0 out h c hc)

theorem hardCapStep_bound (T : Tokenizer) (ov hard fuel : Nat)
    (hT : ∀ w : List Nat, (T.encode (pyStrip (T.decode w))).length ≤ w.length)
    (acc : List Str) (c : Str) (res : List Str)
    (hacc : ∀ x ∈ acc, count_tokens T x ≤ hard)
    (h : hardCapStep T ov hard fuel acc c = some res) :
    ∀ x ∈ res, count_tokens T x ≤ hard := by
  rw [hardCapStep] at h
  by_cases h1 : pyStrip c = []
  · rw [if_pos h1] at h
    have : acc = res := by simpa using h
    rw [← this]
    exact hacc
  · rw [if_neg h1] at h
    by_cases h2 : count_tokens T (pyStrip c) ≤ hard
    · rw [if_pos h2] at h
      have : acc ++ [pyStrip c] = res := by simpa using h
      rw [← this]
      intro x hx
      rcases List.mem_append.mp hx with hx | hx
      · exact hacc x hx
      · rw [List.mem_singleton.mp hx]
        exact h2
    · rw [if_neg h2] at h
      rcases hw : token_window_split T (pyStrip c) hard ov fuel with _ | ws
      · rw [hw] at h
        simp at h
      · rw [hw] at h
        have : acc ++ ws = res := by simpa using h
        rw [← this]
        intro x hx
        rcases List.mem_append.mp hx with hx | hx
        · exact hacc x hx
        · rcases token_window_split_mem T (pyStrip c) hard ov fuel ws hw x hx with
            ⟨w, hwlen, hxeq⟩ | ⟨hxeq, hcnt⟩
          · rw [hxeq]
            exact le_trans (hT w) hwlen
          · rw [hxeq, pyStrip_idem]
            exact absurd hcnt h2

theorem postpass_bound (T : Tokenizer) (ov hard fuel : Nat)
    (hT : ∀ w : List Nat, (T.encode (pyStrip (T.decode w))).length ≤ w.length) :
    ∀ (chunks acc capped : List Str),
    (∀ x ∈ acc, count_tokens T x ≤ hard) →
    chunks.foldlM (hardCapStep T ov hard fuel) acc = some capped →
    ∀ x ∈ capped, count_tokens T x ≤ hard := by
  intro chunks
  induction chunks with
  | nil =>
    intro acc capped hacc h
    have : acc = capped := by simpa [List.foldlM_nil] using h
    rw [← this]
    exact hacc
  | cons c cs ih =>
    intro acc capped hacc h
    rw [List.foldlM_cons] at h
    rcases hstep : hardCapStep T ov hard fuel acc c with _ | mid
    · rw [hstep] at h
      simp at h
    · rw [hstep] at h
      exact ih mid capped (hardCapStep_bound T ov hard fuel hT acc c mid hacc hstep)
        (by simpa using h)

/-- C2: under the tokenizer round-trip bound (decoding a token window and
re-encoding its stripped text yields at most as many tokens — the external
tokenizer contract the hard cap relies on), every chunk that
`chunk_paragraphs` emits has token count at most `hard_max_tokens`:
the post-pass re-checks every assembled chunk and re-splits any over-long
one into windows of at most `hard_max_tokens` ids. -/
theorem chunk_hard_cap (T : Tokenizer)
    (hT : ∀ w : List Nat, (T.encode (pyStrip (T.decode w))).length ≤ w.length)
    (paragraphs : List Str) (max_tokens overlap_tokens hard_max_tokens fuel : Nat)
    (hmax : max_tokens ≤ hard_max_tokens) (h512 : hard_max_tokens ≤ 512)
    (out : List Str)
    (hout : chunk_paragraphs T paragraphs max_tokens overlap_tokens hard_max_tokens
      fuel = some out) :
    ∀ c ∈ out, count_tokens T c ≤ hard_max_tokens := by
  rw [chunk_paragraphs] at hout
  simp only [bind, Option.bind_eq_some] at hout
  obtain ⟨st, hst, capped, hcap, hpure⟩ := hout
  have hfilter : capped.filter (fun c => pyStrip c ≠ []) = out := by
    simpa using hpure
  intro c hc
  rw [← hfilter] at hc
  exact postpass_bound T overlap_tokens hard_max_tokens fuel hT
    (flushChunks st).chunks [] capped (by simp) hcap c (List.mem_filter.mp hc).1

/-- C2 witness: the hard cap instantiated at a concrete tokenizer (the
degenerate zero-token tokenizer trivially satisfies the round-trip bound)
and a concrete article. -/
theorem chunk_hard_cap_witness : count_tokens T0 ['h', 'i'] ≤ 480 :=
  chunk_hard_cap T0 (fun _ => Nat.zero_le _) [['h', 'i']] 240 40 480 1
    (by decide) (by decide) [['h', 'i']] (by decide) ['h', 'i'] (by decide)

/-- C4 counterexample: the claim states `len(results) ≤ per_page` for every
`per_page`, but with `per_page = 0` and one ranked candidate the slice
`ranked[: max(1, 0)]` still returns one result, and `1 ≤ 0` is false. -/
theorem results_len_per_page_zero_counterexample :
    (search_results_slice [(0 : Nat)] 0).length = 1 ∧ ¬ ((1 : Int) ≤ 0) := by
  decide

/-- C4 amended: the number of results returned by the `/search` slice is at
most `max 1 per_page`; in particular when `per_page ≥ 1` it is at most
`per_page`. -/
theorem results_len_le_max_one_per_page {α : Type} (ranked : List α) (per_page : Int) :
    ((search_results_slice ranked per_page).length ≤ (max 1 per_page).toNat) ∧
    (1 ≤ per_page → ((search_results_slice ranked per_page).length : Int) ≤ per_page) := by
  constructor
  · exact List.length_take_le _ _
  · intro h
    have hlen : (search_results_slice ranked per_page).length ≤ (max 1 per_page).toNat :=
      List.length_take_le _ _
    have hmax : max 1 per_page = per_page := max_eq_right h
    have : ((max 1 per_page).toNat : Int) = per_page := by
      rw [hmax]
      exact Int.toNat_of_nonneg (le_trans (by norm_num) h)
    omega

/-- C4 witness: instantiating the amended theorem at a concrete ranked list
and `per_page = 2`. -/
theorem results_len_le_max_one_per_page_witness :
    ((search_results_slice [(10 : Nat), 20, 30] 2).length : Int) ≤ 2 :=
  (results_len_le_max_one_per_page [(10 : Nat), 20, 30] 2).2 (by decide)

/-! ## Claim C5 -/

/-- C5: the punctuation-spacing rules never fire for the danda `।`
(U+0964): the character class in the source contains the Cyrillic letters
`р`, `е`, `д` (a cp866 mojibake of the danda's UTF-8 bytes) instead of
`।`.  Evaluating the normalizer shows: whitespace before `।` survives
(claim says it is removed), while the rules do fire for `,` — and even for
the Cyrillic letter `р`, which is not punctuation at all. -/
theorem normalize_danda_unhandled :
    normalize_devanagari_text ['क', ' ', '।'] = some ['क', ' ', '।'] ∧
    normalize_devanagari_text ['क', ' ', ','] = some ['क', ','] ∧
    normalize_devanagari_text ['x', ' ', 'р'] = some ['x', 'р'] := by
  decide

/-! ## Claim C8 -/

/-- C8 counterexample: `gaz0.locations_norm` contains `"bihar"`, yet
`detect_entities("aasha workers bihar", roman)` does not match it — three
other values phrase-match first and the per-field cap `max_per_field = 3`
cuts the scan — and `filter_by_auto` does not contain the clause
``locations_norm:=[`bihar`]``. -/
theorem detect_entities_bihar_capped_counterexample :
    "bihar".toList ∈ gaz0.locations_norm.values ∧
    "bihar".toList ∉
      (detect_entities ("aasha workers bihar".toList) Mode.roman gaz0 3).loc_matches ∧
    containsSub
      ((detect_entities ("aasha workers bihar".toList) Mode.roman gaz0 3).filter_by_auto.getD [])
      ((build_in_filter ("locations_norm".toList) ["bihar".toList]).getD []) = false := by
  decide

theorem phraseGo_stop (mode : Mode) (qu qr : Str) (maxf : Nat) (vs rs got : List Str)
    (score : Nat) (h : maxf ≤ got.length) :
    phraseGo mode qu qr maxf vs rs got score = (got, score) := by
  cases vs with
  | nil => rfl
  | cons v vs => simp only [phraseGo, if_pos h]

theorem tokenGo_stop (qt : List Str) (maxf : Nat) (vs got : List Str) (score : Nat)
    (h : maxf ≤ got.length) :
    tokenGo qt maxf vs got score = (got, score) := by
  cases vs with
  | nil => rfl
  | cons v vs => simp only [tokenGo, if_pos h]

theorem phraseGo_skip (qu qr : Str) (maxf : Nat) :
    ∀ (ls rs more mrs got : List Str) (score : Nat),
    ls.length = rs.length →
    (∀ p ∈ ls.zip rs,
      norm_ws p.1 = [] ∨
        (containsSub qu (norm_ws p.1) = false ∧
          (p.2 = [] ∨ containsSub qr p.2 = false))) →
    phraseGo Mode.roman qu qr maxf (ls ++ more) (rs ++ mrs) got score =
      phraseGo Mode.roman qu qr maxf more mrs got score := by
  intro ls
  induction ls with
  | nil =>
    intro rs more mrs got score hlen _
    cases rs with
    | nil => rfl
    | cons r rs => simp at hlen
  | cons v ls ih =>
    intro rs more mrs got score hlen hf
    cases rs with
    | nil => simp at hlen
    | cons r rs =>
      by_cases hstop : maxf ≤ got.length
      · rw [phraseGo_stop _ _ _ _ _ _ _ _ hstop, phraseGo_stop _ _ _ _ _ _ _ _ hstop]
      · have hlen2 : ls.length = rs.length := by simpa using hlen
        have hp := hf (v, r) (by simp)
        have hrest : ∀ p ∈ ls.zip rs,
            norm_ws p.1 = [] ∨
              (containsSub qu (norm_ws p.1) = false ∧
                (p.2 = [] ∨ containsSub qr p.2 = false)) := by
          intro p hpm
          exact hf p (by simp [hpm])
        rw [List.cons_append, List.cons_append]
        by_cases hnw : norm_ws v = []
        · rw [phraseGo, if_neg hstop, if_pos hnw, List.tail_cons]
          exact ih rs more mrs got score hlen2 hrest
        · rcases hp with hnw2 | ⟨hc, hvr⟩
          · exact absurd hnw2 hnw
          · have hc2 : containsSub qu (norm_ws v) = false := hc
            have hvr2 : r = [] ∨ containsSub qr r = false := hvr
            rw [phraseGo, if_neg hstop, if_neg hnw, if_neg (by simp [hc2]),
              if_pos (by decide : Mode.roman ≠ Mode.dev)]
            simp only [List.cons_append, List.head?_cons, Option.getD_some,
              List.tail_cons]
            rw [if_neg (by
              rcases hvr2 with h | h
              · simp [h]
              · simp [h])]
            exact ih rs more mrs got score hlen2 hrest

theorem tokenGo_skip (qt : List Str) (maxf : Nat) :
    ∀ (ls more got : List Str) (score : Nat),
    (∀ v ∈ ls, tokenize_loose v = [] ∨
      (tokenize_loose v).any (fun t => decide (t ∈ qt)) = false ∨ v ∈ got) →
    tokenGo qt maxf (ls ++ more) got score = tokenGo qt maxf more got score := by
  intro ls
  induction ls with
  | nil => intro more got score _; rfl
  | cons v ls ih =>
    intro more got score hf
    by_cases hstop : maxf ≤ got.length
    · rw [tokenGo_stop _ _ _ _ _ hstop, tokenGo_stop _ _ _ _ _ hstop]
    · have hv := hf v (by simp)
      have hrest : ∀ u ∈ ls, tokenize_loose u = [] ∨
          (tokenize_loose u).any (fun t => decide (t ∈ qt)) = false ∨ u ∈ got := by
        intro u hu
        exact hf u (by simp [hu])
      rw [List.cons_append]
      by_cases htz : tokenize_loose v = []
      · rw [tokenGo, if_neg hstop, if_pos htz]
        exact ih more got score hrest
      · rcases hv with hv | hv | hv
        · exact absurd hv htz
        · rw [tokenGo, if_neg hstop, if_neg htz, if_neg (by simp [hv])]
          exact ih more got score hrest
        · rw [tokenGo, if_neg hstop, if_neg htz]
          by_cases hany : (tokenize_loose v).any (fun t => decide (t ∈ qt)) = true
          · rw [if_pos hany, if_pos hv]
            exact ih more got score hrest
          · rw [if_neg hany]
            exact ih more got score hrest

theorem containsSub_of_append (a t : Str) : containsSub (a ++ t) a = true := by
  rw [containsSub, List.any_eq_true]
  exact ⟨a ++ t, by simp [List.mem_tails], by simp [List.isPrefixOf_iff_prefix]⟩

theorem intercalate_cons_head (sep a : Str) (l : List Str) :
    ∃ t, List.intercalate sep (a :: l) = a ++ t := by
  cases l with
  | nil => exact ⟨[], by simp [List.intercalate]⟩
  | cons b l => exact ⟨sep ++ List.intercalate sep (b :: l), by
      simp [List.intercalate, List.intersperse]⟩

/-- C8 amended: `detect_entities("aasha workers bihar", roman)` matches
`"bihar"` and emits the clause ``locations_norm:=[`bihar`]`` in
`filter_by_auto` provided no other `locations_norm` entry (with its paired
roman form) phrase- or token-matches the query; without that proviso the
per-field cap `max_per_field = 3` can evict `"bihar"` (see the
counterexample). -/
theorem exists_mem_zip_left {α β : Type} (l : List α) (r : List β)
    (h : l.length = r.length) (v : α) (hv : v ∈ l) : ∃ u, (v, u) ∈ l.zip r := by
  induction l generalizing r with
  | nil => simp at hv
  | cons x xs ih =>
    cases r with
    | nil => simp at h
    | cons y ys =>
      rcases List.mem_cons.mp hv with rfl | hv2
      · exact ⟨y, by simp⟩
      · obtain ⟨u, hu⟩ := ih ys (by simpa using h) hv2
        exact ⟨u, List.mem_cons_of_mem _ hu⟩

theorem buildFilters_loc (cp catp tp : List Str × Nat) :
    ∃ rest, buildFilters (["bihar".toList], 2) cp catp tp =
      ((build_in_filter ("locations_norm".toList) ["bihar".toList]).getD []) :: rest := by
  obtain ⟨cl, hcl⟩ : ∃ cl,
      build_in_filter ("locations_norm".toList) ["bihar".toList] = some cl :=
    ⟨_, by rw [build_in_filter, if_neg (by decide)]⟩
  refine ⟨(if cp.1 ≠ [] ∧ 2 ≤ cp.2 then
      (build_in_filter ("contributors_norm".toList) cp.1).toList else []) ++
    (if catp.1 ≠ [] ∧ 4 ≤ catp.2 then
      (build_in_filter ("categories_norm".toList) catp.1).toList else []) ++
    (if tp.1 ≠ [] ∧ 4 ≤ tp.2 then
      (build_in_filter ("tags_norm".toList) tp.1).toList else []), ?_⟩
  rw [buildFilters, if_pos (by decide : ((["bihar".toList], 2).1 : List Str) ≠ []), hcl]
  simp only [Option.toList_some, Option.getD_some, List.cons_append,
    List.singleton_append, List.append_assoc, List.nil_append]

theorem detect_entities_bihar_filter (gaz : Gazetteer) (l₁ l₂ r₁ r₂ : List Str)
    (rb : Str)
    (hv : gaz.locations_norm.values = l₁ ++ "bihar".toList :: l₂)
    (hr : gaz.locations_norm.values_roman_norm = r₁ ++ rb :: r₂)
    (hl1 : r₁.length = l₁.length) (hl2 : r₂.length = l₂.length)
    (hfail : ∀ p ∈ l₁.zip r₁ ++ l₂.zip r₂,
      failsLocMatch (norm_ws ("aasha workers bihar".toList))
        (roman_norm (norm_ws ("aasha workers bihar".toList)))
        (tokenize_loose (norm_ws ("aasha workers bihar".toList))) p.1 p.2) :
    (detect_entities ("aasha workers bihar".toList) Mode.roman gaz 3).loc_matches =
      ["bihar".toList] ∧
    ∃ f, (detect_entities ("aasha workers bihar".toList) Mode.roman gaz 3).filter_by_auto
        = some f ∧
      containsSub f ((build_in_filter ("locations_norm".toList)
        ["bihar".toList]).getD []) = true := by
  have hfail1 : ∀ p ∈ l₁.zip r₁,
      failsLocMatch (norm_ws ("aasha workers bihar".toList))
        (roman_norm (norm_ws ("aasha workers bihar".toList)))
        (tokenize_loose (norm_ws ("aasha workers bihar".toList))) p.1 p.2 :=
    fun p hp => hfail p (List.mem_append_left _ hp)
  have hfail2 : ∀ p ∈ l₂.zip r₂,
      failsLocMatch (norm_ws ("aasha workers bihar".toList))
        (roman_norm (norm_ws ("aasha workers bihar".toList)))
        (tokenize_loose (norm_ws ("aasha workers bihar".toList))) p.1 p.2 :=
    fun p hp => hfail p (List.mem_append_right _ hp)
  have hphrase : phraseGo Mode.roman (norm_ws ("aasha workers bihar".toList))
      (roman_norm (norm_ws ("aasha workers bihar".toList))) 3
      gaz.locations_norm.values gaz.locations_norm.values_roman_norm [] 0 =
      (["bihar".toList], 2) := by
    rw [hv, hr]
    rw [phraseGo_skip _ _ 3 l₁ r₁ _ _ [] 0 hl1.symm
      (fun p hp => ((hfail1 p hp).1))]
    rw [phraseGo, if_neg (by decide : ¬ (3 ≤ ([] : List Str).length)),
      if_neg (by decide : ¬ (norm_ws ("bihar".toList) = [])),
      if_pos (by decide : containsSub (norm_ws ("aasha workers bihar".toList))
        (norm_ws ("bihar".toList)) = true),
      List.tail_cons, List.nil_append]
    have h2 := phraseGo_skip (norm_ws ("aasha workers bihar".toList))
      (roman_norm (norm_ws ("aasha workers bihar".toList))) 3 l₂ r₂ [] []
      ["bihar".toList] 2 hl2.symm (fun p hp => ((hfail2 p hp).1))
    simp only [List.append_nil] at h2
    rw [h2]
    rfl
  have hskip1 : ∀ v ∈ l₁, tokenize_loose v = [] ∨
      (tokenize_loose v).any
        (fun t => decide (t ∈ tokenize_loose (norm_ws ("aasha workers bihar".toList)))) =
          false ∨ v ∈ (["bihar".toList] : List Str) := by
    intro v hvm
    obtain ⟨u, hu⟩ := exists_mem_zip_left l₁ r₁ hl1.symm v hvm
    rcases (hfail1 (v, u) hu).2 with h | h
    · exact Or.inl h
    · exact Or.inr (Or.inl h)
  have hskip2 : ∀ v ∈ l₂, tokenize_loose v = [] ∨
      (tokenize_loose v).any
        (fun t => decide (t ∈ tokenize_loose (norm_ws ("aasha workers bihar".toList)))) =
          false ∨ v ∈ (["bihar".toList] : List Str) := by
    intro v hvm
    obtain ⟨u, hu⟩ := exists_mem_zip_left l₂ r₂ hl2.symm v hvm
    rcases (hfail2 (v, u) hu).2 with h | h
    · exact Or.inl h
    · exact Or.inr (Or.inl h)
  have hscan : scanField Mode.roman (norm_ws ("aasha workers bihar".toList))
      (roman_norm (norm_ws ("aasha workers bihar".toList)))
      (tokenize_loose (norm_ws ("aasha workers bihar".toList)))
      gaz.locations_norm true 3 = (["bihar".toList], 2) := by
    simp only [scanField]
    rw [hphrase]
    have hcond : (True ∧ ((["bihar".toList], 2).1 : List Str).length < 3) :=
      ⟨trivial, by decide⟩
    rw [if_pos hcond]
    show tokenGo (tokenize_loose (norm_ws ("aasha workers bihar".toList))) 3
      gaz.locations_norm.values ["bihar".toList] 2 = (["bihar".toList], 2)
    rw [hv]
    rw [tokenGo_skip _ 3 l₁ _ _ 2 hskip1]
    rw [tokenGo, if_neg (by decide : ¬ (3 ≤ (["bihar".toList] : List Str).length)),
      if_neg (by decide : ¬ (tokenize_loose ("bihar".toList) = [])),
      if_pos (by decide : (tokenize_loose ("bihar".toList)).any
        (fun t => decide (t ∈ tokenize_loose (norm_ws ("aasha workers bihar".toList)))) =
          true),
      if_pos (by decide : "bihar".toList ∈ (["bihar".toList] : List Str))]
    have h2 := tokenGo_skip
      (tokenize_loose (norm_ws ("aasha workers bihar".toList))) 3 l₂ []
      ["bihar".toList] 2 hskip2
    simp only [List.append_nil] at h2
    rw [h2]
    rfl
  constructor
  · simp only [detect_entities]
    rw [if_pos (by decide : Mode.roman ≠ Mode.dev), hscan]
  · simp only [detect_entities]
    rw [if_pos (by decide : Mode.roman ≠ Mode.dev), hscan]
    obtain ⟨rest, hrest⟩ := buildFilters_loc
      (scanField Mode.roman (norm_ws ("aasha workers bihar".toList))
        (roman_norm (norm_ws ("aasha workers bihar".toList)))
        (tokenize_loose (norm_ws ("aasha workers bihar".toList)))
        gaz.contributors_norm false 3)
      (scanField Mode.roman (norm_ws ("aasha workers bihar".toList))
        (roman_norm (norm_ws ("aasha workers bihar".toList)))
        (tokenize_loose (norm_ws ("aasha workers bihar".toList)))
        gaz.categories_norm true 3)
      (scanField Mode.roman (norm_ws ("aasha workers bihar".toList))
        (roman_norm (norm_ws ("aasha workers bihar".toList)))
        (tokenize_loose (norm_ws ("aasha workers bihar".toList)))
        gaz.tags_norm true 3)
    rw [hrest, if_neg (by simp : ¬ (((build_in_filter ("locations_norm".toList)
      ["bihar".toList]).getD []) :: rest = []))]
    obtain ⟨t, ht⟩ := intercalate_cons_head (" && ".toList)
      ((build_in_filter ("locations_norm".toList) ["bihar".toList]).getD []) rest
    exact ⟨_, rfl, by rw [ht]; exact containsSub_of_append _ _⟩

/-- C8 witness: the amended theorem applied to the one-entry gazetteer. -/
theorem detect_entities_bihar_filter_witness :
    (detect_entities ("aasha workers bihar".toList) Mode.roman gaz1 3).loc_matches =
      ["bihar".toList] :=
  (detect_entities_bihar_filter gaz1 [] [] [] [] [] rfl rfl rfl rfl (by simp)).1

/-- C9 counterexample: canonicalization is not idempotent on its lexical
query.  `devCommaQuery` (`क` + 48 commas) is detected as Devanagari
(ratio 1/49 > 2%); normalization inserts 24 spaces after commas, dropping
the ratio to 1/73 ≤ 2%, so re-canonicalizing the produced query flips to
roman mode and strips it to the empty string. -/
theorem canonicalize_not_idempotent_counterexample :
    (canonicalize_query_for_search
        ((canonicalize_query_for_search devCommaQuery).q)).q ≠
      (canonicalize_query_for_search devCommaQuery).q ∧
    (canonicalize_query_for_search devCommaQuery).mode = Mode.dev ∧
    (canonicalize_query_for_search
        ((canonicalize_query_for_search devCommaQuery).q)).mode = Mode.roman := by
  decide

/-- C6 counterexample: the claim says a `/label` request with
`article_id = null` is rejected rather than inserted, but the handler only
validates `label`; with `label = 1` and `article_id = none` it returns 200
and inserts exactly one row whose `article_id` is null. -/
theorem label_null_inserted_counterexample :
    (label_endpoint ⟨7, none, 1, none⟩).status ≠ 400 ∧
    (label_endpoint ⟨7, none, 1, none⟩).inserted = [⟨7, none, 1, none⟩] := by
  decide

/-- C6 amended: `/label` returns 400 and inserts nothing exactly when
`label ∉ {0, 1}`; for `label ∈ {0, 1}` it returns 200 and inserts exactly one
labels row carrying the request's `query_id`, `article_id` (null allowed) and
`label`. -/
theorem label_endpoint_behavior (req : LabelRequest) :
    ((label_endpoint req).status = 400 ∧ (label_endpoint req).inserted = [] ↔
      ¬ (req.label = 0 ∨ req.label = 1)) ∧
    (req.label = 0 ∨ req.label = 1 →
      (label_endpoint req).status = 200 ∧
      (label_endpoint req).inserted =
        [insert_label req.query_id req.article_id req.label req.note]) := by
  unfold label_endpoint
  by_cases h : req.label = 0 ∨ req.label = 1
  · simp [h]
  · simp [h]

/-- C6 witness: the amended theorem applied to a concrete allowed request. -/
theorem label_endpoint_behavior_witness :
    (label_endpoint ⟨7, some "a42", 1, none⟩).status = 200 ∧
    (label_endpoint ⟨7, some "a42", 1, none⟩).inserted = [⟨7, some "a42", 1, none⟩] :=
  (label_endpoint_behavior ⟨7, some "a42", 1, none⟩).2 (Or.inr rfl)

/-! ## Claim C9 — helper lemmas: character classes -/

theorem char_toNat_eq (c d : Char) (h : c.toNat = d.toNat) : c = d :=
  Char.ext (UInt32.toNat.inj h)

theorem isWS_toNat (c : Char) (h : isWS c = true) :
    c.toNat = 32 ∨ c.toNat = 9 ∨ c.toNat = 10 ∨ c.toNat = 13 ∨
    c.toNat = 11 ∨ c.toNat = 12 := by
  simp only [isWS, Bool.or_eq_true, decide_eq_true_eq] at h
  rcases h with ((((h | h) | h) | h) | h) | h <;> subst h <;> decide

theorem alnum_not_ws (c : Char) (h : isRomanAlnum c = true) : isWS c = false := by
  by_contra hc
  have hws := isWS_toNat c (by simpa using hc)
  simp only [isRomanAlnum, Bool.or_eq_true, Bool.and_eq_true,
    decide_eq_true_eq] at h
  omega

theorem goodRomanChar_ws (c : Char) (hg : goodRomanChar c) (h : isWS c = true) :
    c = ' ' := by
  rcases hg with rfl | ⟨h1, h2, _⟩ | ⟨h1, h2⟩
  · rfl
  · have := isWS_toNat c h
    omega
  · have := isWS_toNat c h
    omega

theorem goodRomanChar_toNat (c : Char) (hg : goodRomanChar c) :
    c.toNat = 32 ∨ (97 ≤ c.toNat ∧ c.toNat ≤ 122) ∨
    (48 ≤ c.toNat ∧ c.toNat ≤ 57) := by
  rcases hg with rfl | ⟨h1, h2, _⟩ | ⟨h1, h2⟩
  · left; decide
  · right; left; exact ⟨h1, h2⟩
  · right; right; exact ⟨h1, h2⟩

theorem lowerChar_id (c : Char) (hg : goodRomanChar c) : lowerChar c = c := by
  have htn := goodRomanChar_toNat c hg
  have hn : ¬(65 ≤ c.toNat ∧ c.toNat ≤ 90) := by omega
  have hn2 : ¬(0x410 ≤ c.toNat ∧ c.toNat ≤ 0x42F) := by omega
  have hn3 : ¬(c.toNat = 0x401) := by omega
  rw [lowerChar, if_neg hn, if_neg hn2, if_neg hn3]

theorem map_lowerChar_id (l : Str) (hg : ∀ c ∈ l, goodRomanChar c) :
    l.map lowerChar = l := by
  rw [List.map_congr_left (fun c hc => lowerChar_id c (hg c hc))]
  simp

/-! ## Claim C9 — helper lemmas: stage identity on canonical strings -/

theorem nonAlnumToSpaceAux_id (l : Str)
    (h : ∀ c ∈ l, (isRomanAlnum c || isWS c) = true) :
    ∀ b, nonAlnumToSpaceAux b l = l := by
  induction l with
  | nil => intro b; rfl
  | cons c rest ih =>
    intro b
    rw [nonAlnumToSpaceAux, if_pos (h c (List.mem_cons_self c rest))]
    rw [ih (fun d hd => h d (List.mem_cons_of_mem c hd))]

theorem collapseWSAux_skip (l : Str)
    (h : ∀ c, l.head? = some c → isWS c = false) :
    collapseWSAux true l = collapseWSAux false l := by
  cases l with
  | nil => rfl
  | cons c rest =>
    have hc : isWS c = false := h c rfl
    rw [collapseWSAux, collapseWSAux, if_neg (by simp [hc]), if_neg (by simp [hc])]

theorem collapseWSAux_id (l : Str)
    (hsp : ∀ c ∈ l, isWS c = true → c = ' ')
    (hch : List.Chain' (fun a b => ¬(isWS a = true ∧ isWS b = true)) l) :
    collapseWSAux false l = l := by
  induction l with
  | nil => rfl
  | cons c rest ih =>
    by_cases hc : isWS c = true
    · have hcs : c = ' ' := hsp c (List.mem_cons_self c rest) hc
      rw [collapseWSAux, if_pos hc, if_neg (by decide)]
      have hrest : ∀ d, rest.head? = some d → isWS d = false := by
        intro d hd
        cases rest with
        | nil => simp at hd
        | cons e rest2 =>
          have he : e = d := by simpa using hd
          subst he
          have := (List.chain'_cons'.mp hch).1 e rfl
          by_contra hdd
          exact this ⟨hc, by simpa using hdd⟩
      rw [collapseWSAux_skip rest hrest,
        ih (fun d hd hdw => hsp d (List.mem_cons_of_mem c hd) hdw)
          (List.Chain'.tail hch), hcs]
    · rw [collapseWSAux, if_neg hc,
        ih (fun d hd hdw => hsp d (List.mem_cons_of_mem c hd) hdw)
          (List.Chain'.tail hch)]

theorem collapseCharRunAux_skip (v : Char) (l : Str)
    (h : ∀ c, l.head? = some c → c ≠ v) :
    collapseCharRunAux v true l = collapseCharRunAux v false l := by
  cases l with
  | nil => rfl
  | cons c rest =>
    have hc : c ≠ v := h c rfl
    rw [collapseCharRunAux, collapseCharRunAux, if_neg hc, if_neg hc]

theorem collapseCharRunAux_id (v : Char) (l : Str)
    (hch : List.Chain' (fun a b => ¬(a = v ∧ b = v)) l) :
    collapseCharRunAux v false l = l := by
  induction l with
  | nil => rfl
  | cons c rest ih =>
    by_cases hc : c = v
    · subst hc
      rw [collapseCharRunAux, if_pos rfl, if_neg (by decide)]
      have hrest : ∀ d, rest.head? = some d → d ≠ c := by
        intro d hd
        cases rest with
        | nil => simp at hd
        | cons e rest2 =>
          have he : e = d := by simpa using hd
          subst he
          have := (List.chain'_cons'.mp hch).1 e rfl
          intro hdc
          exact this ⟨rfl, hdc⟩
      rw [collapseCharRunAux_skip c rest hrest, ih (List.Chain'.tail hch)]
    · rw [collapseCharRunAux, if_neg hc, ih (List.Chain'.tail hch)]

theorem vToW_id (l : Str) (h : ∀ c ∈ l, c ≠ 'v') : vToW l = l := by
  rw [vToW, List.map_congr_left (fun c hc => if_neg (h c hc))]
  simp

theorem pyStrip_eq_self (l : Str)
    (h1 : ∀ c, l.head? = some c → isWS c = false)
    (h2 : ∀ c, l.getLast? = some c → isWS c = false) : pyStrip l = l := by
  rw [pyStrip, dropWhile_eq_self_of_head isWS l h1,
    dropWhile_eq_self_of_head isWS l.reverse
      (fun c hc => h2 c (by rwa [List.head?_reverse] at hc)),
    List.reverse_reverse]

theorem pyStrip_last (s : Str) (c : Char)
    (h : (pyStrip s).getLast? = some c) : isWS c = false := by
  rw [pyStrip, List.getLast?_reverse] at h
  exact dropWhile_head_not isWS _ c h

/-! ## Claim C9 — helper lemmas: membership, heads and chains of the stages -/

theorem nonAlnumToSpaceAux_mem (l : Str) :
    ∀ b c, c ∈ nonAlnumToSpaceAux b l →
      (c ∈ l ∧ (isRomanAlnum c || isWS c) = true) ∨ c = ' ' := by
  induction l with
  | nil => intro b c hc; simp [nonAlnumToSpaceAux] at hc
  | cons d rest ih =>
    intro b c hc
    rw [nonAlnumToSpaceAux] at hc
    by_cases hd : (isRomanAlnum d || isWS d) = true
    · rw [if_pos hd] at hc
      rcases List.mem_cons.mp hc with rfl | hc2
      · exact Or.inl ⟨List.mem_cons_self c rest, hd⟩
      · rcases ih false c hc2 with ⟨h1, h2⟩ | h
        · exact Or.inl ⟨List.mem_cons_of_mem d h1, h2⟩
        · exact Or.inr h
    · rw [if_neg hd] at hc
      cases b with
      | true =>
        rcases ih true c hc with ⟨h1, h2⟩ | h
        · exact Or.inl ⟨List.mem_cons_of_mem d h1, h2⟩
        · exact Or.inr h
      | false =>
        simp only [if_neg, Bool.false_eq_true, if_false] at hc
        rcases List.mem_cons.mp hc with rfl | hc2
        · exact Or.inr rfl
        · rcases ih true c hc2 with ⟨h1, h2⟩ | h
          · exact Or.inl ⟨List.mem_cons_of_mem d h1, h2⟩
          · exact Or.inr h

theorem collapseWSAux_mem (l : Str) :
    ∀ b c, c ∈ collapseWSAux b l → (c ∈ l ∧ isWS c = false) ∨ c = ' ' := by
  induction l with
  | nil => intro b c hc; simp [collapseWSAux] at hc
  | cons d rest ih =>
    intro b c hc
    rw [collapseWSAux] at hc
    by_cases hd : isWS d = true
    · rw [if_pos hd] at hc
      cases b with
      | true =>
        rcases ih true c hc with ⟨h1, h2⟩ | h
        · exact Or.inl ⟨List.mem_cons_of_mem d h1, h2⟩
        · exact Or.inr h
      | false =>
        simp only [Bool.false_eq_true, if_false] at hc
        rcases List.mem_cons.mp hc with rfl | hc2
        · exact Or.inr rfl
        · rcases ih true c hc2 with ⟨h1, h2⟩ | h
          · exact Or.inl ⟨List.mem_cons_of_mem d h1, h2⟩
          · exact Or.inr h
    · rw [if_neg hd] at hc
      rcases List.mem_cons.mp hc with rfl | hc2
      · exact Or.inl ⟨List.mem_cons_self c rest, Bool.not_eq_true _ ▸ hd⟩
      · rcases ih false c hc2 with ⟨h1, h2⟩ | h
        · exact Or.inl ⟨List.mem_cons_of_mem d h1, h2⟩
        · exact Or.inr h

theorem collapseCharRunAux_mem (v : Char) (l : Str) :
    ∀ b c, c ∈ collapseCharRunAux v b l → c ∈ l := by
  induction l with
  | nil => intro b c hc; simp [collapseCharRunAux] at hc
  | cons d rest ih =>
    intro b c hc
    rw [collapseCharRunAux] at hc
    by_cases hd : d = v
    · rw [if_pos hd] at hc
      cases b with
      | true =>
        exact List.mem_cons_of_mem d (ih true c hc)
      | false =>
        simp only [Bool.false_eq_true, if_false] at hc
        rcases List.mem_cons.mp hc with rfl | hc2
        · exact List.mem_cons_self c rest
        · exact List.mem_cons_of_mem d (ih true c hc2)
    · rw [if_neg hd] at hc
      rcases List.mem_cons.mp hc with rfl | hc2
      · exact List.mem_cons_self c rest
      · exact List.mem_cons_of_mem d (ih false c hc2)

theorem pyStrip_within (s : Str) : pyStrip s <:+: s := by
  have h1 : s.dropWhile isWS <:+ s := List.dropWhile_suffix isWS
  have h2 : (s.dropWhile isWS).reverse.dropWhile isWS <:+
      (s.dropWhile isWS).reverse := List.dropWhile_suffix isWS
  have h3 : pyStrip s <+: s.dropWhile isWS := by
    rw [pyStrip]
    have := List.reverse_prefix.mpr h2
    rwa [List.reverse_reverse] at this
  exact h3.isInfix.trans h1.isInfix

theorem pyStrip_mem (s : Str) (c : Char) (hc : c ∈ pyStrip s) : c ∈ s :=
  (pyStrip_within s).subset hc

theorem chain'_of_left {P : Char → Char → Prop} (Q : Char → Prop) (l : Str)
    (hq : ∀ c ∈ l, Q c) (himp : ∀ a b, Q a → P a b) : List.Chain' P l := by
  induction l with
  | nil => exact List.chain'_nil
  | cons c rest ih =>
    exact List.chain'_cons'.mpr
      ⟨fun y _ => himp c y (hq c (List.mem_cons_self c rest)),
       ih (fun d hd => hq d (List.mem_cons_of_mem c hd))⟩

theorem collapseWSAux_head_true (l : Str) :
    ∀ c, (collapseWSAux true l).head? = some c → isWS c = false := by
  induction l with
  | nil => intro c hc; simp [collapseWSAux] at hc
  | cons d rest ih =>
    intro c hc
    rw [collapseWSAux] at hc
    by_cases hd : isWS d = true
    · rw [if_pos hd, if_pos rfl] at hc
      exact ih c hc
    · rw [if_neg hd] at hc
      have : d = c := by simpa using hc
      subst this
      exact Bool.not_eq_true _ ▸ hd

theorem collapseWSAux_chain (l : Str) :
    ∀ b, List.Chain' (fun a b => ¬(isWS a = true ∧ isWS b = true))
      (collapseWSAux b l) := by
  induction l with
  | nil => intro b; rw [collapseWSAux]; exact List.chain'_nil
  | cons d rest ih =>
    intro b
    rw [collapseWSAux]
    by_cases hd : isWS d = true
    · rw [if_pos hd]
      cases b with
      | true => exact ih true
      | false =>
        simp only [Bool.false_eq_true, if_false]
        exact List.chain'_cons'.mpr
          ⟨fun y hy => fun ⟨_, hy2⟩ => by
              rw [collapseWSAux_head_true rest y hy] at hy2; exact absurd hy2 (by simp),
           ih true⟩
    · rw [if_neg hd]
      exact List.chain'_cons'.mpr
        ⟨fun y _ => fun ⟨hd2, _⟩ => hd hd2, ih false⟩

theorem collapseCharRunAux_head (v : Char) (l : Str) :
    (collapseCharRunAux v false l).head? = l.head? := by
  cases l with
  | nil => rfl
  | cons d rest =>
    rw [collapseCharRunAux]
    by_cases hd : d = v
    · rw [if_pos hd, if_neg (by decide)]; rfl
    · rw [if_neg hd]; rfl

theorem collapseCharRunAux_head_true (v : Char) (l : Str) :
    ∀ c, (collapseCharRunAux v true l).head? = some c → c ≠ v := by
  induction l with
  | nil => intro c hc; simp [collapseCharRunAux] at hc
  | cons d rest ih =>
    intro c hc
    rw [collapseCharRunAux] at hc
    by_cases hd : d = v
    · rw [if_pos hd, if_pos rfl] at hc
      exact ih c hc
    · rw [if_neg hd] at hc
      have : d = c := by simpa using hc
      subst this
      exact hd

theorem collapseCharRunAux_chain (v : Char) (l : Str) :
    ∀ b, List.Chain' (fun a b => ¬(a = v ∧ b = v))
      (collapseCharRunAux v b l) := by
  induction l with
  | nil => intro b; rw [collapseCharRunAux]; exact List.chain'_nil
  | cons d rest ih =>
    intro b
    rw [collapseCharRunAux]
    by_cases hd : d = v
    · rw [if_pos hd]
      cases b with
      | true => exact ih true
      | false =>
        simp only [Bool.false_eq_true, if_false]
        exact List.chain'_cons'.mpr
          ⟨fun y hy => fun ⟨_, hy2⟩ =>
              collapseCharRunAux_head_true v rest y hy hy2,
           ih true⟩
    · rw [if_neg hd]
      exact List.chain'_cons'.mpr
        ⟨fun y _ => fun ⟨hd2, _⟩ => hd hd2, ih false⟩

theorem collapseCharRunAux_chain_preserve {P : Char → Char → Prop} (v : Char)
    (hP : ∀ x, P v x) (l : Str) (hch : List.Chain' P l) :
    ∀ b, List.Chain' P (collapseCharRunAux v b l) := by
  induction l with
  | nil => intro b; rw [collapseCharRunAux]; exact List.chain'_nil
  | cons d rest ih =>
    intro b
    rw [collapseCharRunAux]
    by_cases hd : d = v
    · rw [if_pos hd]
      cases b with
      | true => exact ih (List.Chain'.tail hch) true
      | false =>
        simp only [Bool.false_eq_true, if_false]
        subst hd
        exact List.chain'_cons'.mpr ⟨fun y _ => hP y, ih (List.Chain'.tail hch) true⟩
    · rw [if_neg hd]
      refine List.chain'_cons'.mpr ⟨?_, ih (List.Chain'.tail hch) false⟩
      intro y hy
      rw [collapseCharRunAux_head v rest] at hy
      exact (List.chain'_cons'.mp hch).1 y hy

theorem collapseCharRunAux_getLast (v : Char) (l : Str) :
    ∀ b c, (collapseCharRunAux v b l).getLast? = some c →
      c = v ∨ l.getLast? = some c := by
  induction l with
  | nil => intro b c hc; simp [collapseCharRunAux] at hc
  | cons d rest ih =>
    intro b c hc
    rw [collapseCharRunAux] at hc
    by_cases hd : d = v
    · rw [if_pos hd] at hc
      cases b with
      | true =>
        rcases ih true c hc with h | h
        · exact Or.inl h
        · cases rest with
          | nil => simp at h
          | cons e rest2 => exact Or.inr (by rw [List.getLast?_cons_cons]; exact h)
      | false =>
        simp only [Bool.false_eq_true, if_false] at hc
        rcases hX : collapseCharRunAux v true rest with _ | ⟨e, X⟩
        · rw [hX] at hc
          have hdc : d = c := by simpa using hc
          exact Or.inl (hdc ▸ hd)
        · rw [hX, List.getLast?_cons_cons] at hc
          rcases ih true c (hX ▸ hc) with h | h
          · exact Or.inl h
          · cases rest with
            | nil => simp at h
            | cons e2 rest2 => exact Or.inr (by rw [List.getLast?_cons_cons]; exact h)
    · rw [if_neg hd] at hc
      rcases hX : collapseCharRunAux v false rest with _ | ⟨e, X⟩
      · rw [hX] at hc
        have hcd : d = c := by simpa using hc
        subst hcd
        have : rest = [] := by
          cases rest with
          | nil => rfl
          | cons e2 rest2 =>
            rw [collapseCharRunAux] at hX
            by_cases he2 : e2 = v
            · rw [if_pos he2, if_neg (by decide)] at hX
              exact absurd hX (by simp)
            · rw [if_neg he2] at hX
              exact absurd hX (by simp)
        subst this
        exact Or.inr rfl
      · rw [hX, List.getLast?_cons_cons] at hc
        rcases ih false c (hX ▸ hc) with h | h
        · exact Or.inl h
        · cases rest with
          | nil => simp at h
          | cons e2 rest2 => exact Or.inr (by rw [List.getLast?_cons_cons]; exact h)

theorem collapseCharRunAux_ne_nil (v : Char) (l : Str) (hl : l ≠ []) :
    collapseCharRunAux v false l ≠ [] := by
  cases l with
  | nil => exact absurd rfl hl
  | cons d rest =>
    rw [collapseCharRunAux]
    by_cases hd : d = v
    · rw [if_pos hd, if_neg (by decide)]; simp
    · rw [if_neg hd]; simp

/-! ## Claim C9 — helper lemmas: `splitOn` word structure -/

theorem splitOnP_not_mem (p : Char → Bool) (l : Str) :
    ∀ w ∈ l.splitOnP p, ∀ c ∈ w, p c = false := by
  induction l with
  | nil =>
    intro w hw c hc
    rw [List.splitOnP_nil] at hw
    have : w = [] := by simpa using hw
    subst this
    simp at hc
  | cons d rest ih =>
    intro w hw c hc
    rw [List.splitOnP_cons] at hw
    by_cases hd : p d
    · rw [if_pos hd] at hw
      rcases List.mem_cons.mp hw with rfl | hw2
      · simp at hc
      · exact ih w hw2 c hc
    · rw [if_neg hd] at hw
      rcases hsp : rest.splitOnP p with _ | ⟨h, t⟩
      · exact absurd hsp (List.splitOnP_ne_nil p rest)
      · rw [hsp] at hw
        rcases List.mem_cons.mp hw with rfl | hw2
        · rcases List.mem_cons.mp hc with rfl | hc2
          · exact Bool.not_eq_true _ ▸ hd
          · exact ih h (hsp ▸ List.mem_cons_self h t) c hc2
        · exact ih w (hsp ▸ List.mem_cons_of_mem h hw2) c hc

theorem splitOnP_struct (p : Char → Bool) (l : Str) :
    (∀ w ∈ l.splitOnP p, w <:+: l) ∧
    (∀ w, (l.splitOnP p).head? = some w → w <+: l) := by
  induction l with
  | nil =>
    constructor
    · intro w hw
      rw [List.splitOnP_nil] at hw
      have : w = [] := by simpa using hw
      subst this
      exact List.nil_infix
    · intro w hw
      rw [List.splitOnP_nil] at hw
      have : w = [] := by simpa using hw
      subst this
      exact List.nil_prefix
  | cons d rest ih =>
    by_cases hd : p d
    · constructor
      · intro w hw
        rw [List.splitOnP_cons, if_pos hd] at hw
        rcases List.mem_cons.mp hw with rfl | hw2
        · exact List.nil_infix
        · exact (ih.1 w hw2).trans (List.infix_cons (List.infix_refl rest))
      · intro w hw
        rw [List.splitOnP_cons, if_pos hd] at hw
        have : w = [] := by simpa using hw
        subst this
        exact List.nil_prefix
    · rcases hsp : rest.splitOnP p with _ | ⟨h, t⟩
      · exact absurd hsp (List.splitOnP_ne_nil p rest)
      · have hpre : d :: h <+: d :: rest := by
          refine (List.cons_prefix_cons).mpr ⟨rfl, ?_⟩
          exact ih.2 h (by rw [hsp]; rfl)
        constructor
        · intro w hw
          rw [List.splitOnP_cons, if_neg hd, hsp] at hw
          rcases List.mem_cons.mp hw with rfl | hw2
          · exact hpre.isInfix
          · exact (ih.1 w (hsp ▸ List.mem_cons_of_mem h hw2)).trans
              (List.infix_cons (List.infix_refl rest))
        · intro w hw
          rw [List.splitOnP_cons, if_neg hd, hsp] at hw
          have : d :: h = w := by simpa using hw
          subst this
          exact hpre

theorem splitOnP_words_ne_nil (p : Char → Bool) :
    ∀ n l, l.length ≤ n →
      (∀ c, l.head? = some c → p c = false) →
      (∀ c, l.getLast? = some c → p c = false) →
      List.Chain' (fun a b => ¬(p a = true ∧ p b = true)) l →
      l ≠ [] →
      ∀ w ∈ l.splitOnP p, w ≠ [] := by
  intro n
  induction n with
  | zero =>
    intro l hn _ _ _ hne
    cases l with
    | nil => exact absurd rfl hne
    | cons d rest => simp at hn
  | succ n ihn =>
    intro l hn hhead hlast hch hne w hw
    cases l with
    | nil => exact absurd rfl hne
    | cons d rest =>
      have hd : p d = false := hhead d rfl
      rw [List.splitOnP_cons, if_neg (by simp [hd])] at hw
      rcases hsp : rest.splitOnP p with _ | ⟨h, t⟩
      · exact absurd hsp (List.splitOnP_ne_nil p rest)
      · rw [hsp] at hw
        rcases List.mem_cons.mp hw with rfl | hw2
        · simp
        · cases rest with
          | nil =>
            rw [List.splitOnP_nil] at hsp
            have ht : t = [] := by
              have := hsp.symm
              simp only [List.cons.injEq] at this
              exact this.2
            rw [ht] at hw2
            simp at hw2
          | cons e rest2 =>
            by_cases he : p e
            · have ht : t = rest2.splitOnP p := by
                rw [List.splitOnP_cons, if_pos he] at hsp
                simp only [List.cons.injEq] at hsp
                exact hsp.2.symm
              cases rest2 with
              | nil =>
                have : p e = false := hlast e (by rfl)
                rw [he] at this
                exact absurd this (by simp)
              | cons f rest3 =>
                have hhead2 : ∀ c, (f :: rest3).head? = some c → p c = false := by
                  intro c hc
                  have hf : f = c := by simpa using hc
                  subst hf
                  have := (List.chain'_cons'.mp (List.Chain'.tail hch)).1 f rfl
                  by_contra hpf
                  exact this ⟨he, by simpa using hpf⟩
                have hlast2 : ∀ c, (f :: rest3).getLast? = some c → p c = false := by
                  intro c hc
                  refine hlast c ?_
                  rw [List.getLast?_cons_cons, List.getLast?_cons_cons]
                  exact hc
                refine ihn (f :: rest3) (by simp at hn ⊢; omega) hhead2 hlast2
                  (List.Chain'.tail (List.Chain'.tail hch)) (by simp) w ?_
                rw [← ht]
                exact hw2
            · have hhead2 : ∀ c, (e :: rest2).head? = some c → p c = false := by
                intro c hc
                have hec : e = c := by simpa using hc
                subst hec
                simpa using he
              have hlast2 : ∀ c, (e :: rest2).getLast? = some c → p c = false := by
                intro c hc
                refine hlast c ?_
                rw [List.getLast?_cons_cons]
                exact hc
              refine ihn (e :: rest2) (by simp at hn ⊢; omega) hhead2 hlast2
                (List.Chain'.tail hch) (by simp) w ?_
              rw [hsp]
              exact List.mem_cons_of_mem h hw2

/-! ## Claim C9 — helper lemmas: `intercalate` structure -/

theorem intercalate_cons₂ (sep a b : Str) (l : List Str) :
    List.intercalate sep (a :: b :: l) =
      a ++ (sep ++ List.intercalate sep (b :: l)) := by
  simp [List.intercalate, List.intersperse]

theorem intercalate_ne_nil (w : Str) (l : List Str) (hw : w ≠ []) :
    List.intercalate [' '] (w :: l) ≠ [] := by
  obtain ⟨t, ht⟩ := intercalate_cons_head [' '] w l
  rw [ht]
  intro hcontra
  exact hw (List.append_eq_nil.mp hcontra).1

theorem mem_intercalate_space (ws : List Str) (c : Char)
    (hc : c ∈ List.intercalate [' '] ws) : c = ' ' ∨ ∃ w ∈ ws, c ∈ w := by
  induction ws with
  | nil => simp [List.intercalate] at hc
  | cons w rest ih =>
    cases rest with
    | nil =>
      have : List.intercalate [' '] [w] = w := by simp [List.intercalate]
      rw [this] at hc
      exact Or.inr ⟨w, List.mem_cons_self w [], hc⟩
    | cons w2 rest2 =>
      rw [intercalate_cons₂] at hc
      rcases List.mem_append.mp hc with h | h
      · exact Or.inr ⟨w, List.mem_cons_self w _, h⟩
      · rcases List.mem_cons.mp h with rfl | h2
        · exact Or.inl rfl
        · rcases ih h2 with h3 | ⟨u, hu, hcu⟩
          · exact Or.inl h3
          · exact Or.inr ⟨u, List.mem_cons_of_mem w hu, hcu⟩

theorem head?_intercalate (w : Str) (l : List Str) (hw : w ≠ []) :
    (List.intercalate [' '] (w :: l)).head? = w.head? := by
  obtain ⟨t, ht⟩ := intercalate_cons_head [' '] w l
  rw [ht]
  cases w with
  | nil => exact absurd rfl hw
  | cons c w' => rfl

theorem intercalate_getLast_not_ws (ws : List Str)
    (hne : ∀ u ∈ ws, u ≠ [])
    (hnw : ∀ u ∈ ws, ∀ c ∈ u, isWS c = false) :
    ∀ c, (List.intercalate [' '] ws).getLast? = some c → isWS c = false := by
  induction ws with
  | nil => intro c hc; simp [List.intercalate] at hc
  | cons w rest ih =>
    intro c hc
    cases rest with
    | nil =>
      have : List.intercalate [' '] [w] = w := by simp [List.intercalate]
      rw [this] at hc
      exact hnw w (List.mem_cons_self w []) c (List.mem_of_getLast?_eq_some hc)
    | cons w2 rest2 =>
      rw [intercalate_cons₂] at hc
      have hX : List.intercalate [' '] (w2 :: rest2) ≠ [] :=
        intercalate_ne_nil w2 rest2 (hne w2 (List.mem_cons_of_mem w (List.mem_cons_self w2 rest2)))
      have h1 : (w ++ ([' '] ++ List.intercalate [' '] (w2 :: rest2))).getLast? =
          (List.intercalate [' '] (w2 :: rest2)).getLast? := by
        rw [List.getLast?_append, List.getLast?_append]
        rcases hX2 : (List.intercalate [' '] (w2 :: rest2)).getLast? with _ | e
        · exact absurd (List.getLast?_eq_none_iff.mp hX2) hX
        · simp
      rw [h1] at hc
      exact ih (fun u hu => hne u (List.mem_cons_of_mem w hu))
        (fun u hu => hnw u (List.mem_cons_of_mem w hu)) c hc

theorem intercalate_head_not_ws (ws : List Str)
    (hne : ∀ u ∈ ws, u ≠ [])
    (hnw : ∀ u ∈ ws, ∀ c ∈ u, isWS c = false) :
    ∀ c, (List.intercalate [' '] ws).head? = some c → isWS c = false := by
  intro c hc
  cases ws with
  | nil => simp [List.intercalate] at hc
  | cons w rest =>
    rw [head?_intercalate w rest (hne w (List.mem_cons_self w rest))] at hc
    exact hnw w (List.mem_cons_self w rest) c (List.mem_of_mem_head? hc)

theorem chain'_intercalate {P : Char → Char → Prop} (ws : List Str)
    (h : ∀ w ∈ ws, w ≠ [] ∧ List.Chain' P w ∧
      (∀ c, w.head? = some c → P ' ' c) ∧
      (∀ c, w.getLast? = some c → P c ' ')) :
    List.Chain' P (List.intercalate [' '] ws) := by
  induction ws with
  | nil => simp [List.intercalate]
  | cons w rest ih =>
    cases rest with
    | nil =>
      have : List.intercalate [' '] [w] = w := by simp [List.intercalate]
      rw [this]
      exact (h w (List.mem_cons_self w [])).2.1
    | cons w2 rest2 =>
      rw [intercalate_cons₂]
      have hw := h w (List.mem_cons_self w _)
      have hw2 := h w2 (List.mem_cons_of_mem w (List.mem_cons_self w2 rest2))
      refine List.Chain'.append hw.2.1 ?_ ?_
      · refine List.chain'_cons'.mpr ⟨?_, ih (fun u hu => h u (List.mem_cons_of_mem w hu))⟩
        intro y hy
        have hy' : y ∈ (List.intercalate [' '] (w2 :: rest2)).head? := hy
        rw [head?_intercalate w2 rest2 hw2.1] at hy'
        exact hw2.2.2.1 y hy'
      · intro x hx y hy
        have hy' : y ∈ some ' ' := hy
        have hy2 : ' ' = y := by simpa using hy'
        subst hy2
        exact hw.2.2.2 x hx

/-! ## Claim C9 — helper lemmas: the `yojana` word rule and clean strings -/

theorem yojanaWord_cases (w : Str) :
    yojanaWord w = w ∨ yojanaWord w = "yojana".toList := by
  rw [yojanaWord]
  by_cases h : w = "yojna".toList ∨ w = "yojana".toList ∨ w = "yojnaa".toList
  · rw [if_pos h]; exact Or.inr rfl
  · rw [if_neg h]; exact Or.inl rfl

theorem yojanaWord_idem (w : Str) :
    yojanaWord (yojanaWord w) = yojanaWord w := by
  rcases yojanaWord_cases w with h | h <;> rw [h]
  · exact h
  · decide

theorem yojanaWord_ne_nil (w : Str) (hw : w ≠ []) : yojanaWord w ≠ [] := by
  rcases yojanaWord_cases w with h | h <;> rw [h]
  · exact hw
  · decide

theorem goodRomanChar_ne_ws (c : Char) (hg : goodRomanChar c) (hne : c ≠ ' ') :
    isWS c = false := by
  by_contra h
  exact hne (goodRomanChar_ws c hg (by simpa using h))

theorem goodRomanChar_alnum_or_ws (c : Char) (hg : goodRomanChar c) :
    (isRomanAlnum c || isWS c) = true := by
  rcases hg with rfl | ⟨h1, h2, _⟩ | ⟨h1, h2⟩
  · decide
  · simp only [isRomanAlnum, Bool.or_eq_true, Bool.and_eq_true, decide_eq_true_eq]
    left; left; omega
  · simp only [isRomanAlnum, Bool.or_eq_true, Bool.and_eq_true, decide_eq_true_eq]
    left; right; omega

theorem clean_intercalate (ws1 : List Str)
    (W1ne : ∀ w ∈ ws1, w ≠ [])
    (W1noWS : ∀ w ∈ ws1, ∀ c ∈ w, isWS c = false) :
    collapseWS (List.intercalate [' '] ws1) = List.intercalate [' '] ws1 ∧
    pyStrip (List.intercalate [' '] ws1) = List.intercalate [' '] ws1 := by
  constructor
  · rw [collapseWS]
    refine collapseWSAux_id (List.intercalate [' '] ws1) ?_ ?_
    · intro c hc hws
      rcases mem_intercalate_space ws1 c hc with rfl | ⟨w, hw, hcw⟩
      · rfl
      · exact absurd (W1noWS w hw c hcw) (by simp [hws])
    · refine chain'_intercalate ws1 ?_
      intro w hw
      refine ⟨W1ne w hw, ?_, ?_, ?_⟩
      · refine chain'_of_left (fun c => isWS c = false) w (W1noWS w hw) ?_
        intro a b ha ⟨h1, _⟩
        rw [ha] at h1
        exact absurd h1 (by simp)
      · intro c hch ⟨_, h2⟩
        rw [W1noWS w hw c (List.mem_of_mem_head? hch)] at h2
        exact absurd h2 (by simp)
      · intro c hcl ⟨h1, _⟩
        rw [W1noWS w hw c (List.mem_of_getLast?_eq_some hcl)] at h1
        exact absurd h1 (by simp)
  · exact pyStrip_eq_self _ (intercalate_head_not_ws ws1 W1ne W1noWS)
      (intercalate_getLast_not_ws ws1 W1ne W1noWS)

/-- A space-separated list of clean roman words (nonempty, lowercase
alphanumeric without `v` or spaces, no vowel runs, fixed by the yojana word
rule) is a fixed point of `roman_normalize_for_index`. -/
theorem roman_normalize_eq_self (ws1 : List Str)
    (W1ne : ∀ w ∈ ws1, w ≠ [])
    (W1chars : ∀ w ∈ ws1, ∀ c ∈ w, goodRomanChar c)
    (W1sep : ∀ w ∈ ws1, ∀ c ∈ w, c ≠ ' ')
    (W1noV : ∀ w ∈ ws1, ∀ c ∈ w, c ≠ 'v')
    (W1chains : ∀ v ∈ ['a', 'i', 'u', 'e', 'o'], ∀ w ∈ ws1,
      List.Chain' (fun a b => ¬(a = v ∧ b = v)) w)
    (W1fix : ws1.map yojanaWord = ws1)
    (hws1 : ws1 ≠ []) :
    roman_normalize_for_index (List.intercalate [' '] ws1) =
      List.intercalate [' '] ws1 := by
  have W1noWS : ∀ w ∈ ws1, ∀ c ∈ w, isWS c = false := fun w hw c hc =>
    goodRomanChar_ne_ws c (W1chars w hw c hc) (W1sep w hw c hc)
  have hclean := clean_intercalate ws1 W1ne W1noWS
  have hYne : List.intercalate [' '] ws1 ≠ [] := by
    cases ws1 with
    | nil => exact absurd rfl hws1
    | cons w rest => exact intercalate_ne_nil w rest (W1ne w (List.mem_cons_self w rest))
  have hnull : is_nullish (List.intercalate [' '] ws1) = false := by
    rw [is_nullish]
    simp only [hclean.2]
    simpa using hYne
  have Qchars : ∀ c ∈ List.intercalate [' '] ws1, goodRomanChar c := by
    intro c hc
    rcases mem_intercalate_space ws1 c hc with rfl | ⟨w, hw, hcw⟩
    · exact Or.inl rfl
    · exact W1chars w hw c hcw
  have Qchain : ∀ v, v ≠ ' ' → (∀ w ∈ ws1, List.Chain' (fun a b => ¬(a = v ∧ b = v)) w) →
      List.Chain' (fun a b => ¬(a = v ∧ b = v)) (List.intercalate [' '] ws1) := by
    intro v hv hw
    refine chain'_intercalate ws1 ?_
    intro w hwm
    refine ⟨W1ne w hwm, hw w hwm, ?_, ?_⟩
    · intro c _ ⟨h1, _⟩
      exact hv h1.symm
    · intro c _ ⟨_, h2⟩
      exact hv h2.symm
  have QnoV : ∀ c ∈ List.intercalate [' '] ws1, c ≠ 'v' := by
    intro c hc
    rcases mem_intercalate_space ws1 c hc with rfl | ⟨w, hw, hcw⟩
    · decide
    · exact W1noV w hw c hcw
  have hsplit : (List.intercalate [' '] ws1).splitOn ' ' = ws1 :=
    List.splitOn_intercalate ws1 ' ' (fun l hl hmem => W1sep l hl ' ' hmem rfl) hws1
  have idY : yojanaFix (List.intercalate [' '] ws1) = List.intercalate [' '] ws1 := by
    rw [yojanaFix, hsplit, W1fix]
  have idRun : ∀ v, v ≠ ' ' →
      (∀ w ∈ ws1, List.Chain' (fun a b => ¬(a = v ∧ b = v)) w) →
      collapseCharRun v (List.intercalate [' '] ws1) = List.intercalate [' '] ws1 := by
    intro v hv hw
    rw [collapseCharRun]
    exact collapseCharRunAux_id v _ (Qchain v hv hw)
  rw [roman_normalize_for_index, if_neg (by simp [hnull])]
  rw [map_lowerChar_id _ Qchars, hclean.2]
  rw [nonAlnumToSpace,
    nonAlnumToSpaceAux_id _ (fun c hc => goodRomanChar_alnum_or_ws c (Qchars c hc)) false]
  rw [hclean.1, hclean.2]
  rw [idRun 'a' (by decide) (W1chains 'a' (by decide)),
    idRun 'i' (by decide) (W1chains 'i' (by decide)),
    idRun 'u' (by decide) (W1chains 'u' (by decide)),
    idRun 'e' (by decide) (W1chains 'e' (by decide)),
    idRun 'o' (by decide) (W1chains 'o' (by decide))]
  rw [vToW_id _ QnoV, idY, hclean.1, hclean.2]

/-! ## Claim C9 — helper lemmas: transporting invariants through the stages -/

theorem run_preserve_other (v u : Char) (hvu : v ≠ u) (l : Str)
    (hch : List.Chain' (fun a b => ¬(a = u ∧ b = u)) l) :
    List.Chain' (fun a b => ¬(a = u ∧ b = u)) (collapseCharRun v l) := by
  rw [collapseCharRun]
  exact collapseCharRunAux_chain_preserve v (fun x ⟨h1, _⟩ => hvu h1) l hch false

theorem run_stage (v : Char) (hv : isWS v = false) (l : Str)
    (hm : ∀ c ∈ l, (isRomanAlnum c = true ∧ isWS c = false) ∨ c = ' ')
    (hws : List.Chain' (fun a b => ¬(isWS a = true ∧ isWS b = true)) l)
    (hh : ∀ c, l.head? = some c → isWS c = false)
    (hl : ∀ c, l.getLast? = some c → isWS c = false)
    (hne : l ≠ []) :
    (∀ c ∈ collapseCharRun v l,
      (isRomanAlnum c = true ∧ isWS c = false) ∨ c = ' ') ∧
    List.Chain' (fun a b => ¬(isWS a = true ∧ isWS b = true))
      (collapseCharRun v l) ∧
    (∀ c, (collapseCharRun v l).head? = some c → isWS c = false) ∧
    (∀ c, (collapseCharRun v l).getLast? = some c → isWS c = false) ∧
    collapseCharRun v l ≠ [] ∧
    List.Chain' (fun a b => ¬(a = v ∧ b = v)) (collapseCharRun v l) := by
  rw [collapseCharRun]
  refine ⟨fun c hc => hm c (collapseCharRunAux_mem v l false c hc), ?_, ?_, ?_, ?_, ?_⟩
  · exact collapseCharRunAux_chain_preserve v
      (fun x ⟨h1, _⟩ => by rw [hv] at h1; exact absurd h1 (by simp)) l hws false
  · intro c hc
    rw [collapseCharRunAux_head v l] at hc
    exact hh c hc
  · intro c hc
    rcases collapseCharRunAux_getLast v l false c hc with rfl | h
    · exact hv
    · exact hl c h
  · exact collapseCharRunAux_ne_nil v l hne
  · exact collapseCharRunAux_chain v l false

theorem vToW_good (l : Str)
    (hm : ∀ c ∈ l, (isRomanAlnum c = true ∧ isWS c = false) ∨ c = ' ') :
    (∀ c ∈ vToW l, goodRomanChar c) ∧ (∀ c ∈ vToW l, c ≠ 'v') := by
  constructor <;> intro c hc <;>
    (rw [vToW] at hc; obtain ⟨d, hd, rfl⟩ := List.mem_map.mp hc)
  · by_cases hdv : d = 'v'
    · rw [if_pos hdv]
      unfold goodRomanChar
      decide
    · rw [if_neg hdv]
      rcases hm d hd with ⟨ha, _⟩ | rfl
      · simp only [isRomanAlnum, Bool.or_eq_true, Bool.and_eq_true,
          decide_eq_true_eq] at ha
        rcases ha with ⟨h1, h2⟩ | ⟨h1, h2⟩
        · exact Or.inr (Or.inl ⟨h1, h2, hdv⟩)
        · exact Or.inr (Or.inr ⟨h1, h2⟩)
      · exact Or.inl rfl
  · by_cases hdv : d = 'v'
    · rw [if_pos hdv]; decide
    · rw [if_neg hdv]; exact hdv

theorem vToW_ws_char (c : Char) : isWS (if c = 'v' then 'w' else c) = isWS c := by
  by_cases h : c = 'v'
  · rw [if_pos h, h]; decide
  · rw [if_neg h]

theorem vToW_eq_v (c v : Char) (hw : v ≠ 'w')
    (h : (if c = 'v' then 'w' else c) = v) : c = v := by
  by_cases hc : c = 'v'
  · rw [if_pos hc] at h
    exact absurd h.symm hw
  · rwa [if_neg hc] at h

theorem vToW_chainWS (l : Str)
    (h : List.Chain' (fun a b => ¬(isWS a = true ∧ isWS b = true)) l) :
    List.Chain' (fun a b => ¬(isWS a = true ∧ isWS b = true)) (vToW l) := by
  rw [vToW, List.chain'_map]
  refine h.imp ?_
  intro a b hab ⟨h1, h2⟩
  rw [vToW_ws_char] at h1 h2
  exact hab ⟨h1, h2⟩

theorem vToW_chainV (v : Char) (hw : v ≠ 'w') (l : Str)
    (h : List.Chain' (fun a b => ¬(a = v ∧ b = v)) l) :
    List.Chain' (fun a b => ¬(a = v ∧ b = v)) (vToW l) := by
  rw [vToW, List.chain'_map]
  refine h.imp ?_
  intro a b hab ⟨h1, h2⟩
  exact hab ⟨vToW_eq_v a v hw h1, vToW_eq_v b v hw h2⟩

theorem vToW_head (l : Str) (hh : ∀ c, l.head? = some c → isWS c = false) :
    ∀ c, (vToW l).head? = some c → isWS c = false := by
  intro c hc
  rw [vToW, List.head?_map] at hc
  cases hl : l.head? with
  | none => rw [hl] at hc; simp at hc
  | some d =>
    rw [hl] at hc
    have : (if d = 'v' then 'w' else d) = c := by simpa using hc
    rw [← this, vToW_ws_char]
    exact hh d hl

theorem vToW_last (l : Str) (hl : ∀ c, l.getLast? = some c → isWS c = false) :
    ∀ c, (vToW l).getLast? = some c → isWS c = false := by
  intro c hc
  rw [vToW, List.getLast?_map] at hc
  cases hgl : l.getLast? with
  | none => rw [hgl] at hc; simp at hc
  | some d =>
    rw [hgl] at hc
    have : (if d = 'v' then 'w' else d) = c := by simpa using hc
    rw [← this, vToW_ws_char]
    exact hl d hgl

theorem vToW_ne_nil (l : Str) (h : l ≠ []) : vToW l ≠ [] := by
  rw [vToW]
  simpa using h

theorem not_space_beq (c : Char) (h : isWS c = false) : (c == ' ') = false := by
  refine beq_eq_false_iff_ne.mpr ?_
  intro hc
  subst hc
  exact absurd h (by decide)

theorem yojana_chars : ∀ c ∈ "yojana".toList, goodRomanChar c := by
  have he : "yojana".toList = ['y', 'o', 'j', 'a', 'n', 'a'] := rfl
  rw [he]
  intro c hc
  unfold goodRomanChar
  rcases List.mem_cons.mp hc with rfl | hc
  · decide
  rcases List.mem_cons.mp hc with rfl | hc
  · decide
  rcases List.mem_cons.mp hc with rfl | hc
  · decide
  rcases List.mem_cons.mp hc with rfl | hc
  · decide
  rcases List.mem_cons.mp hc with rfl | hc
  · decide
  rcases List.mem_cons.mp hc with rfl | hc
  · decide
  simp at hc

/-- `roman_normalize_for_index` is idempotent. -/
theorem roman_normalize_idem (s : Str) :
    roman_normalize_for_index (roman_normalize_for_index s) =
      roman_normalize_for_index s := by
  by_cases hq : roman_normalize_for_index s = []
  · rw [hq]
    decide
  by_cases hs : is_nullish s = true
  · exact absurd (by rw [roman_normalize_for_index, if_pos hs]) hq
  obtain ⟨w0, hw0⟩ :
      ∃ w0, w0 = pyStrip (collapseWS (nonAlnumToSpace (pyStrip (s.map lowerChar)))) :=
    ⟨_, rfl⟩
  obtain ⟨X, hX⟩ :
      ∃ X, X = vToW (collapseCharRun 'o' (collapseCharRun 'e' (collapseCharRun 'u'
        (collapseCharRun 'i' (collapseCharRun 'a' w0))))) := ⟨_, rfl⟩
  have hq1 : roman_normalize_for_index s = pyStrip (collapseWS (yojanaFix X)) := by
    rw [roman_normalize_for_index, if_neg (by simp [hs]), hX, hw0]
  have A0 : ∀ c ∈ w0, (isRomanAlnum c = true ∧ isWS c = false) ∨ c = ' ' := by
    intro c hc
    rw [hw0] at hc
    have hc2 := pyStrip_mem _ c hc
    rw [collapseWS] at hc2
    rcases collapseWSAux_mem _ false c hc2 with ⟨hc3, hnw⟩ | hsp
    · rw [nonAlnumToSpace] at hc3
      rcases nonAlnumToSpaceAux_mem _ false c hc3 with ⟨_, hcls⟩ | hsp
      · rcases (by simpa using hcls : isRomanAlnum c = true ∨ isWS c = true) with h | h
        · exact Or.inl ⟨h, hnw⟩
        · rw [h] at hnw
          exact absurd hnw (by simp)
      · exact Or.inr hsp
    · exact Or.inr hsp
  have HWS0 : List.Chain' (fun a b => ¬(isWS a = true ∧ isWS b = true)) w0 := by
    rw [hw0]
    refine List.Chain'.infix ?_ (pyStrip_within _)
    rw [collapseWS]
    exact collapseWSAux_chain _ false
  have Hh0 : ∀ c, w0.head? = some c → isWS c = false := by
    intro c hc
    rw [hw0] at hc
    exact pyStrip_head _ c hc
  have Hl0 : ∀ c, w0.getLast? = some c → isWS c = false := by
    intro c hc
    rw [hw0] at hc
    exact pyStrip_last _ c hc
  have hne0 : w0 ≠ [] := by
    intro h
    apply hq
    rw [hq1, hX, h]
    decide
  have S1 := run_stage 'a' (by decide) w0 A0 HWS0 Hh0 Hl0 hne0
  have S2 := run_stage 'i' (by decide) _ S1.1 S1.2.1 S1.2.2.1 S1.2.2.2.1 S1.2.2.2.2.1
  have S3 := run_stage 'u' (by decide) _ S2.1 S2.2.1 S2.2.2.1 S2.2.2.2.1 S2.2.2.2.2.1
  have S4 := run_stage 'e' (by decide) _ S3.1 S3.2.1 S3.2.2.1 S3.2.2.2.1 S3.2.2.2.2.1
  have S5 := run_stage 'o' (by decide) _ S4.1 S4.2.1 S4.2.2.1 S4.2.2.2.1 S4.2.2.2.2.1
  have Ca : List.Chain' (fun a b => ¬(a = 'a' ∧ b = 'a'))
      (collapseCharRun 'o' (collapseCharRun 'e' (collapseCharRun 'u'
        (collapseCharRun 'i' (collapseCharRun 'a' w0))))) :=
    run_preserve_other 'o' 'a' (by decide) _ (run_preserve_other 'e' 'a' (by decide) _
      (run_preserve_other 'u' 'a' (by decide) _
        (run_preserve_other 'i' 'a' (by decide) _ S1.2.2.2.2.2)))
  have Ci : List.Chain' (fun a b => ¬(a = 'i' ∧ b = 'i'))
      (collapseCharRun 'o' (collapseCharRun 'e' (collapseCharRun 'u'
        (collapseCharRun 'i' (collapseCharRun 'a' w0))))) :=
    run_preserve_other 'o' 'i' (by decide) _ (run_preserve_other 'e' 'i' (by decide) _
      (run_preserve_other 'u' 'i' (by decide) _ S2.2.2.2.2.2))
  have Cu : List.Chain' (fun a b => ¬(a = 'u' ∧ b = 'u'))
      (collapseCharRun 'o' (collapseCharRun 'e' (collapseCharRun 'u'
        (collapseCharRun 'i' (collapseCharRun 'a' w0))))) :=
    run_preserve_other 'o' 'u' (by decide) _
      (run_preserve_other 'e' 'u' (by decide) _ S3.2.2.2.2.2)
  have Ce : List.Chain' (fun a b => ¬(a = 'e' ∧ b = 'e'))
      (collapseCharRun 'o' (collapseCharRun 'e' (collapseCharRun 'u'
        (collapseCharRun 'i' (collapseCharRun 'a' w0))))) :=
    run_preserve_other 'o' 'e' (by decide) _ S4.2.2.2.2.2
  have V := vToW_good _ S5.1
  have GX : ∀ c ∈ X, goodRomanChar c := by
    rw [hX]
    exact V.1
  have NOV : ∀ c ∈ X, c ≠ 'v' := by
    rw [hX]
    exact V.2
  have XWS : List.Chain' (fun a b => ¬(isWS a = true ∧ isWS b = true)) X := by
    rw [hX]
    exact vToW_chainWS _ S5.2.1
  have Xch : ∀ v ∈ ['a', 'i', 'u', 'e', 'o'],
      List.Chain' (fun a b => ¬(a = v ∧ b = v)) X := by
    intro v hv
    rw [hX]
    rcases List.mem_cons.mp hv with rfl | hv
    · exact vToW_chainV _ (by decide) _ Ca
    rcases List.mem_cons.mp hv with rfl | hv
    · exact vToW_chainV _ (by decide) _ Ci
    rcases List.mem_cons.mp hv with rfl | hv
    · exact vToW_chainV _ (by decide) _ Cu
    rcases List.mem_cons.mp hv with rfl | hv
    · exact vToW_chainV _ (by decide) _ Ce
    rcases List.mem_cons.mp hv with rfl | hv
    · exact vToW_chainV _ (by decide) _ S5.2.2.2.2.2
    simp at hv
  have Xh : ∀ c, X.head? = some c → isWS c = false := by
    rw [hX]
    exact vToW_head _ S5.2.2.1
  have Xl : ∀ c, X.getLast? = some c → isWS c = false := by
    rw [hX]
    exact vToW_last _ S5.2.2.2.1
  have Xne : X ≠ [] := by
    rw [hX]
    exact vToW_ne_nil _ S5.2.2.2.2.1
  have Wne : ∀ w ∈ X.splitOn ' ', w ≠ [] := by
    intro w hw
    refine splitOnP_words_ne_nil (fun c => c == ' ') X.length X (le_refl _) ?_ ?_ ?_ Xne w hw
    · intro c hc
      exact not_space_beq c (Xh c hc)
    · intro c hc
      exact not_space_beq c (Xl c hc)
    · refine XWS.imp ?_
      intro a b hab ⟨h1, h2⟩
      rw [beq_iff_eq] at h1 h2
      subst h1
      subst h2
      exact hab ⟨by decide, by decide⟩
  have Wsep : ∀ w ∈ X.splitOn ' ', ∀ c ∈ w, c ≠ ' ' := by
    intro w hw c hc h
    have hb := splitOnP_not_mem (fun c => c == ' ') X w hw c hc
    rw [h] at hb
    exact absurd hb (by decide)
  have Wwithin : ∀ w ∈ X.splitOn ' ', w <:+: X :=
    fun w hw => (splitOnP_struct (fun c => c == ' ') X).1 w hw
  have Wchars : ∀ w ∈ X.splitOn ' ', ∀ c ∈ w, goodRomanChar c :=
    fun w hw c hc => GX c ((Wwithin w hw).subset hc)
  have WnoV : ∀ w ∈ X.splitOn ' ', ∀ c ∈ w, c ≠ 'v' :=
    fun w hw c hc => NOV c ((Wwithin w hw).subset hc)
  have Wchain : ∀ v ∈ ['a', 'i', 'u', 'e', 'o'], ∀ w ∈ X.splitOn ' ',
      List.Chain' (fun a b => ¬(a = v ∧ b = v)) w :=
    fun v hv w hw => List.Chain'.infix (Xch v hv) (Wwithin w hw)
  obtain ⟨ws1, hws1def⟩ : ∃ ws1, ws1 = (X.splitOn ' ').map yojanaWord := ⟨_, rfl⟩
  have W1ne : ∀ w ∈ ws1, w ≠ [] := by
    intro w hw
    rw [hws1def] at hw
    obtain ⟨u, hu, rfl⟩ := List.mem_map.mp hw
    exact yojanaWord_ne_nil u (Wne u hu)
  have W1chars : ∀ w ∈ ws1, ∀ c ∈ w, goodRomanChar c := by
    intro w hw
    rw [hws1def] at hw
    obtain ⟨u, hu, rfl⟩ := List.mem_map.mp hw
    rcases yojanaWord_cases u with h | h <;> rw [h]
    · exact Wchars u hu
    · exact yojana_chars
  have W1sep : ∀ w ∈ ws1, ∀ c ∈ w, c ≠ ' ' := by
    intro w hw
    rw [hws1def] at hw
    obtain ⟨u, hu, rfl⟩ := List.mem_map.mp hw
    rcases yojanaWord_cases u with h | h <;> rw [h]
    · exact Wsep u hu
    · intro c hc
      have he : "yojana".toList = ['y', 'o', 'j', 'a', 'n', 'a'] := rfl
      rw [he] at hc
      intro hcsp
      subst hcsp
      simp at hc
  have W1noV : ∀ w ∈ ws1, ∀ c ∈ w, c ≠ 'v' := by
    intro w hw
    rw [hws1def] at hw
    obtain ⟨u, hu, rfl⟩ := List.mem_map.mp hw
    rcases yojanaWord_cases u with h | h <;> rw [h]
    · exact WnoV u hu
    · intro c hc
      have he : "yojana".toList = ['y', 'o', 'j', 'a', 'n', 'a'] := rfl
      rw [he] at hc
      intro hcv
      subst hcv
      simp at hc
  have W1chains : ∀ v ∈ ['a', 'i', 'u', 'e', 'o'], ∀ w ∈ ws1,
      List.Chain' (fun a b => ¬(a = v ∧ b = v)) w := by
    intro v hv w hw
    rw [hws1def] at hw
    obtain ⟨u, hu, rfl⟩ := List.mem_map.mp hw
    rcases yojanaWord_cases u with h | h <;> rw [h]
    · exact Wchain v hv u hu
    · have he : "yojana".toList = ['y', 'o', 'j', 'a', 'n', 'a'] := rfl
      rw [he]
      have hne6 : List.Chain' (fun a b : Char => a ≠ b)
          ['y', 'o', 'j', 'a', 'n', 'a'] := by
        refine List.chain'_cons.mpr ⟨by decide, ?_⟩
        refine List.chain'_cons.mpr ⟨by decide, ?_⟩
        refine List.chain'_cons.mpr ⟨by decide, ?_⟩
        refine List.chain'_cons.mpr ⟨by decide, ?_⟩
        refine List.chain'_cons.mpr ⟨by decide, ?_⟩
        exact List.chain'_singleton _
      exact hne6.imp (fun a b hab ⟨h1, h2⟩ => hab (h1.trans h2.symm))
  have W1fix : ws1.map yojanaWord = ws1 := by
    rw [hws1def, List.map_map]
    exact List.map_congr_left (fun u _ => yojanaWord_idem u)
  have hws1ne : ws1 ≠ [] := by
    rw [hws1def]
    have := List.splitOnP_ne_nil (fun c => c == ' ') X
    intro h
    rcases hsp : X.splitOn ' ' with _ | ⟨a, t⟩
    · exact this hsp
    · rw [hsp] at h
      simp at h
  have W1noWS : ∀ w ∈ ws1, ∀ c ∈ w, isWS c = false := fun w hw c hc =>
    goodRomanChar_ne_ws c (W1chars w hw c hc) (W1sep w hw c hc)
  have hq1Y : roman_normalize_for_index s = List.intercalate [' '] ws1 := by
    rw [hq1]
    have hyfix : yojanaFix X = List.intercalate [' '] ws1 := by
      rw [yojanaFix, ← hws1def]
    rw [hyfix, (clean_intercalate ws1 W1ne W1noWS).1,
      (clean_intercalate ws1 W1ne W1noWS).2]
  rw [hq1Y]
  exact roman_normalize_eq_self ws1 W1ne W1chars W1sep W1noV W1chains W1fix hws1ne

/-! ## Claim C9 — helper lemmas: Devanagari normalization stages -/

theorem removeZeroWidth_mem (l : Str) (c : Char) (hc : c ∈ removeZeroWidth l) :
    c ∈ l ∧ isZeroWidth c = false := by
  rw [removeZeroWidth] at hc
  have := List.mem_filter.mp hc
  exact ⟨this.1, by simpa using this.2⟩

theorem removeZeroWidth_id (l : Str) (h : ∀ c ∈ l, isZeroWidth c = false) :
    removeZeroWidth l = l := by
  rw [removeZeroWidth]
  refine List.filter_eq_self.mpr ?_
  intro c hc
  rw [h c hc]
  rfl

theorem normNewlines_mem : ∀ n (l : Str), l.length ≤ n →
    ∀ c ∈ normNewlines l, c ∈ l ∨ c = '\n' := by
  intro n
  induction n with
  | zero =>
    intro l hn c hc
    rcases l with _ | ⟨a, t⟩
    · simp [normNewlines] at hc
    · simp at hn
  | succ n ihn =>
    intro l hn c hc
    rcases l with _ | ⟨a, _ | ⟨b, t⟩⟩
    · simp [normNewlines] at hc
    · rw [normNewlines] at hc
      by_cases ha : a = '\r'
      · rw [if_pos ha] at hc
        exact Or.inr (by simpa using hc)
      · rw [if_neg ha] at hc
        exact Or.inl (by simpa using hc)
    · rw [normNewlines] at hc
      by_cases ha : a = '\r'
      · rw [if_pos ha] at hc
        by_cases hb : b = '\n'
        · rw [if_pos hb] at hc
          rcases List.mem_cons.mp hc with rfl | hc2
          · exact Or.inr rfl
          · rcases ihn t (by simp at hn ⊢; omega) c hc2 with h | h
            · exact Or.inl (List.mem_cons_of_mem a (List.mem_cons_of_mem b h))
            · exact Or.inr h
        · rw [if_neg hb] at hc
          rcases List.mem_cons.mp hc with rfl | hc2
          · exact Or.inr rfl
          · rcases ihn (b :: t) (by simp at hn ⊢; omega) c hc2 with h | h
            · exact Or.inl (List.mem_cons_of_mem a h)
            · exact Or.inr h
      · rw [if_neg ha] at hc
        rcases List.mem_cons.mp hc with rfl | hc2
        · exact Or.inl (List.mem_cons_self c _)
        · rcases ihn (b :: t) (by simp at hn ⊢; omega) c hc2 with h | h
          · exact Or.inl (List.mem_cons_of_mem a h)
          · exact Or.inr h

theorem normNewlines_no_cr : ∀ n (l : Str), l.length ≤ n →
    '\r' ∉ normNewlines l := by
  intro n
  induction n with
  | zero =>
    intro l hn
    rcases l with _ | ⟨a, t⟩
    · simp [normNewlines]
    · simp at hn
  | succ n ihn =>
    intro l hn
    rcases l with _ | ⟨a, _ | ⟨b, t⟩⟩
    · simp [normNewlines]
    · rw [normNewlines]
      by_cases ha : a = '\r'
      · rw [if_pos ha]; decide
      · rw [if_neg ha]
        intro hc
        rcases List.mem_cons.mp hc with h | h
        · exact ha h.symm
        · simp at h
    · rw [normNewlines]
      by_cases ha : a = '\r'
      · rw [if_pos ha]
        by_cases hb : b = '\n'
        · rw [if_pos hb]
          intro hc
          rcases List.mem_cons.mp hc with h | h
          · exact absurd h.symm (by decide)
          · exact ihn t (by simp at hn ⊢; omega) h
        · rw [if_neg hb]
          intro hc
          rcases List.mem_cons.mp hc with h | h
          · exact absurd h.symm (by decide)
          · exact ihn (b :: t) (by simp at hn ⊢; omega) h
      · rw [if_neg ha]
        intro hc
        rcases List.mem_cons.mp hc with h | h
        · exact ha h.symm
        · exact ihn (b :: t) (by simp at hn ⊢; omega) h

theorem normNewlines_id : ∀ n (l : Str), l.length ≤ n → '\r' ∉ l →
    normNewlines l = l := by
  intro n
  induction n with
  | zero =>
    intro l hn hcr
    rcases l with _ | ⟨a, t⟩
    · rfl
    · simp at hn
  | succ n ihn =>
    intro l hn hcr
    rcases l with _ | ⟨a, _ | ⟨b, t⟩⟩
    · rfl
    · rw [normNewlines, if_neg (fun h => hcr (by rw [← h]; exact List.mem_cons_self a []))]
    · rw [normNewlines,
        if_neg (fun h => hcr (by rw [← h]; exact List.mem_cons_self a (b :: t))),
        ihn (b :: t) (by simp at hn ⊢; omega)
          (fun h => hcr (List.mem_cons_of_mem a h))]

theorem collapseSpaceTabAux_mem (l : Str) :
    ∀ b c, c ∈ collapseSpaceTabAux b l →
      (c ∈ l ∧ isSpaceTab c = false) ∨ c = ' ' := by
  induction l with
  | nil => intro b c hc; simp [collapseSpaceTabAux] at hc
  | cons d rest ih =>
    intro b c hc
    rw [collapseSpaceTabAux] at hc
    by_cases hd : isSpaceTab d = true
    · rw [if_pos hd] at hc
      cases b with
      | true =>
        rcases ih true c hc with ⟨h1, h2⟩ | h
        · exact Or.inl ⟨List.mem_cons_of_mem d h1, h2⟩
        · exact Or.inr h
      | false =>
        simp only [Bool.false_eq_true, if_false] at hc
        rcases List.mem_cons.mp hc with rfl | hc2
        · exact Or.inr rfl
        · rcases ih true c hc2 with ⟨h1, h2⟩ | h
          · exact Or.inl ⟨List.mem_cons_of_mem d h1, h2⟩
          · exact Or.inr h
    · rw [if_neg hd] at hc
      rcases List.mem_cons.mp hc with rfl | hc2
      · exact Or.inl ⟨List.mem_cons_self c rest, Bool.not_eq_true _ ▸ hd⟩
      · rcases ih false c hc2 with ⟨h1, h2⟩ | h
        · exact Or.inl ⟨List.mem_cons_of_mem d h1, h2⟩
        · exact Or.inr h

theorem collapseSpaceTabAux_head_true (l : Str) :
    ∀ c, (collapseSpaceTabAux true l).head? = some c → isSpaceTab c = false := by
  induction l with
  | nil => intro c hc; simp [collapseSpaceTabAux] at hc
  | cons d rest ih =>
    intro c hc
    rw [collapseSpaceTabAux] at hc
    by_cases hd : isSpaceTab d = true
    · rw [if_pos hd, if_pos rfl] at hc
      exact ih c hc
    · rw [if_neg hd] at hc
      have : d = c := by simpa using hc
      subst this
      exact Bool.not_eq_true _ ▸ hd

theorem collapseSpaceTabAux_chain (l : Str) :
    ∀ b, List.Chain' (fun a b => ¬(isSpaceTab a = true ∧ isSpaceTab b = true))
      (collapseSpaceTabAux b l) := by
  induction l with
  | nil => intro b; rw [collapseSpaceTabAux]; exact List.chain'_nil
  | cons d rest ih =>
    intro b
    rw [collapseSpaceTabAux]
    by_cases hd : isSpaceTab d = true
    · rw [if_pos hd]
      cases b with
      | true => exact ih true
      | false =>
        simp only [Bool.false_eq_true, if_false]
        exact List.chain'_cons'.mpr
          ⟨fun y hy => fun ⟨_, hy2⟩ => by
              rw [collapseSpaceTabAux_head_true rest y hy] at hy2
              exact absurd hy2 (by simp),
           ih true⟩
    · rw [if_neg hd]
      exact List.chain'_cons'.mpr
        ⟨fun y _ => fun ⟨hd2, _⟩ => hd hd2, ih false⟩

theorem collapseSpaceTabAux_skip (l : Str)
    (h : ∀ c, l.head? = some c → isSpaceTab c = false) :
    collapseSpaceTabAux true l = collapseSpaceTabAux false l := by
  cases l with
  | nil => rfl
  | cons c rest =>
    have hc : isSpaceTab c = false := h c rfl
    rw [collapseSpaceTabAux, collapseSpaceTabAux, if_neg (by simp [hc]),
      if_neg (by simp [hc])]

theorem collapseSpaceTabAux_id (l : Str)
    (hsp : ∀ c ∈ l, isSpaceTab c = true → c = ' ')
    (hch : List.Chain' (fun a b => ¬(isSpaceTab a = true ∧ isSpaceTab b = true)) l) :
    collapseSpaceTabAux false l = l := by
  induction l with
  | nil => rfl
  | cons c rest ih =>
    by_cases hc : isSpaceTab c = true
    · have hcs : c = ' ' := hsp c (List.mem_cons_self c rest) hc
      rw [collapseSpaceTabAux, if_pos hc, if_neg (by decide)]
      have hrest : ∀ d, rest.head? = some d → isSpaceTab d = false := by
        intro d hd
        cases rest with
        | nil => simp at hd
        | cons e rest2 =>
          have he : e = d := by simpa using hd
          subst he
          have := (List.chain'_cons'.mp hch).1 e rfl
          by_contra hdd
          exact this ⟨hc, by simpa using hdd⟩
      rw [collapseSpaceTabAux_skip rest hrest,
        ih (fun d hd hdw => hsp d (List.mem_cons_of_mem c hd) hdw)
          (List.Chain'.tail hch), hcs]
    · rw [collapseSpaceTabAux, if_neg hc,
        ih (fun d hd hdw => hsp d (List.mem_cons_of_mem c hd) hdw)
          (List.Chain'.tail hch)]

theorem collapseNL3Aux_mem (l : Str) :
    ∀ r c, c ∈ collapseNL3Aux r l → c ∈ l := by
  induction l with
  | nil => intro r c hc; simp [collapseNL3Aux] at hc
  | cons d rest ih =>
    intro r c hc
    rw [collapseNL3Aux] at hc
    by_cases hd : d = '\n'
    · rw [if_pos hd] at hc
      by_cases hr : r ≥ 2
      · rw [if_pos hr] at hc
        exact List.mem_cons_of_mem d (ih (r + 1) c hc)
      · rw [if_neg hr] at hc
        rcases List.mem_cons.mp hc with rfl | hc2
        · rw [hd]; exact List.mem_cons_self _ rest
        · exact List.mem_cons_of_mem d (ih (r + 1) c hc2)
    · rw [if_neg hd] at hc
      rcases List.mem_cons.mp hc with rfl | hc2
      · exact List.mem_cons_self c rest
      · exact List.mem_cons_of_mem d (ih 0 c hc2)

theorem collapseNL3Aux_head (l : Str) :
    (collapseNL3Aux 0 l).head? = l.head? := by
  cases l with
  | nil => rfl
  | cons d rest =>
    rw [collapseNL3Aux]
    by_cases hd : d = '\n'
    · rw [if_pos hd, if_neg (by omega), hd]
      rfl
    · rw [if_neg hd]
      rfl

theorem collapseNL3Aux_chain_preserve {P : Char → Char → Prop}
    (hP : ∀ x, P '\n' x) (l : Str) (hch : List.Chain' P l) :
    ∀ r, List.Chain' P (collapseNL3Aux r l) := by
  induction l with
  | nil => intro r; rw [collapseNL3Aux]; exact List.chain'_nil
  | cons d rest ih =>
    intro r
    rw [collapseNL3Aux]
    by_cases hd : d = '\n'
    · rw [if_pos hd]
      by_cases hr : r ≥ 2
      · rw [if_pos hr]
        exact ih (List.Chain'.tail hch) (r + 1)
      · rw [if_neg hr]
        exact List.chain'_cons'.mpr
          ⟨fun y _ => hP y, ih (List.Chain'.tail hch) (r + 1)⟩
    · rw [if_neg hd]
      refine List.chain'_cons'.mpr ⟨?_, ih (List.Chain'.tail hch) 0⟩
      intro y hy
      rw [collapseNL3Aux_head rest] at hy
      exact (List.chain'_cons'.mp hch).1 y hy

/-! ## Claim C9 — helper lemmas: triple newlines -/

theorem hasTripleNL_cons2 (a b : Char) (l : Str) :
    hasTripleNL (a :: b :: l) =
      ((decide (a = '\n') && decide (b = '\n') && decide (l.head? = some '\n')) ||
        hasTripleNL (b :: l)) := by
  rcases l with _ | ⟨c, r⟩
  · simp [hasTripleNL]
  · rw [hasTripleNL]
    have : decide ((c :: r).head? = some '\n') = decide (c = '\n') := by
      simp
    rw [this]

theorem hasTripleNL_tail (a : Char) (l : Str)
    (h : hasTripleNL (a :: l) = false) : hasTripleNL l = false := by
  rcases l with _ | ⟨b, _ | ⟨c, r⟩⟩
  · rfl
  · rfl
  · rw [hasTripleNL] at h
    exact (Bool.or_eq_false_iff.mp h).2

theorem collapseNL3Aux_establish (l : Str) : ∀ r,
    hasTripleNL (collapseNL3Aux r l) = false ∧
    (2 ≤ r → ∀ c, (collapseNL3Aux r l).head? = some c → c ≠ '\n') ∧
    (1 ≤ r → ∀ t, collapseNL3Aux r l ≠ '\n' :: '\n' :: t) := by
  induction l with
  | nil =>
    intro r
    rw [collapseNL3Aux]
    refine ⟨rfl, fun _ c hc => by simp at hc, fun _ t h => by simp at h⟩
  | cons d rest ih =>
    intro r
    rw [collapseNL3Aux]
    by_cases hd : d = '\n'
    · rw [if_pos hd]
      by_cases hr : r ≥ 2
      · rw [if_pos hr]
        refine ⟨(ih (r + 1)).1, fun _ => (ih (r + 1)).2.1 (by omega), ?_⟩
        intro _ t h
        have hh : (collapseNL3Aux (r + 1) rest).head? = some '\n' := by
          rw [h]; rfl
        exact (ih (r + 1)).2.1 (by omega) '\n' hh rfl
      · rw [if_neg hr]
        have hX := ih (r + 1)
        constructor
        · rcases hXs : collapseNL3Aux (r + 1) rest with _ | ⟨x, _ | ⟨y, t⟩⟩
          · rfl
          · rfl
          · rw [hasTripleNL_cons2]
            refine Bool.or_eq_false_iff.mpr ⟨?_, hXs ▸ hX.1⟩
            by_cases hr1 : 1 ≤ r
            · -- r = 1 : aux 2 rest cannot start with '\n'
              have hx : x ≠ '\n' := hX.2.1 (by omega) x (by rw [hXs]; rfl)
              simp [hx]
            · -- r = 0 : aux 1 rest cannot start with two '\n'
              have hxy : ¬(x = '\n' ∧ y = '\n') := by
                intro ⟨hx, hy⟩
                exact hX.2.2 (by omega) t (by rw [hXs, hx, hy])
              by_cases hx : x = '\n'
              · have hy : y ≠ '\n' := fun hy => hxy ⟨hx, hy⟩
                have : (y :: t).head? = some y := rfl
                simp [hy]
              · simp [hx]
        constructor
        · intro h2
          omega
        · intro _ t h
          have h1 : (collapseNL3Aux (r + 1) rest) = '\n' :: t := by
            have := List.cons.injEq '\n' (collapseNL3Aux (r + 1) rest) '\n' ('\n' :: t) ▸ h
            simp only [List.cons.injEq] at h
            exact h.2
          by_cases hr1 : 1 ≤ r
          · exact hX.2.1 (by omega) '\n' (by rw [h1]; rfl) rfl
          · -- r = 0: output is '\n' :: aux 1 rest, need aux 1 rest ≠ '\n' :: t
            -- but conjunct 3 only applies at 1 ≤ r; here goal needed only for 1 ≤ r
            omega
    · rw [if_neg hd]
      refine ⟨?_, ?_, ?_⟩
      · rcases hXs : collapseNL3Aux 0 rest with _ | ⟨x, t⟩
        · rfl
        · rw [hasTripleNL_cons2]
          refine Bool.or_eq_false_iff.mpr ⟨?_, hXs ▸ (ih 0).1⟩
          simp [hd]
      · intro _ c hc
        have : d = c := by simpa using hc
        subst this
        exact hd
      · intro _ t h
        simp only [List.cons.injEq] at h
        exact hd h.1

theorem hasTripleNL_cons_true (a : Char) (l : Str) (h : hasTripleNL l = true) :
    hasTripleNL (a :: l) = true := by
  rcases l with _ | ⟨b, _ | ⟨c, t⟩⟩
  · simp [hasTripleNL] at h
  · simp [hasTripleNL] at h
  · rw [hasTripleNL]
    simp [h]

theorem hasTripleNL_append_right : ∀ n (y : Str), y.length ≤ n →
    hasTripleNL y = true → ∀ z, hasTripleNL (y ++ z) = true := by
  intro n
  induction n with
  | zero =>
    intro y hn h z
    rcases y with _ | ⟨a, t⟩
    · simp [hasTripleNL] at h
    · simp at hn
  | succ n ihn =>
    intro y hn h z
    rcases y with _ | ⟨a, _ | ⟨b, _ | ⟨c, t⟩⟩⟩
    · simp [hasTripleNL] at h
    · simp [hasTripleNL] at h
    · simp [hasTripleNL] at h
    · rw [hasTripleNL] at h
      rcases Bool.or_eq_true_iff.mp h with habc | hrec
      · have ha : a = '\n' := by simpa using (Bool.and_eq_true_iff.mp
          (Bool.and_eq_true_iff.mp habc).1).1
        have hb : b = '\n' := by simpa using (Bool.and_eq_true_iff.mp
          (Bool.and_eq_true_iff.mp habc).1).2
        have hc : c = '\n' := by simpa using (Bool.and_eq_true_iff.mp habc).2
        subst ha; subst hb; subst hc
        rw [List.cons_append, List.cons_append, List.cons_append, hasTripleNL]
        simp
      · have := ihn (b :: c :: t) (by simp at hn ⊢; omega) hrec z
        rw [List.cons_append]
        exact hasTripleNL_cons_true a _ (by simpa using this)

theorem hasTripleNL_append_left (x y : Str) (h : hasTripleNL y = true) :
    hasTripleNL (x ++ y) = true := by
  induction x with
  | nil => simpa using h
  | cons a t ih => exact hasTripleNL_cons_true a _ ih

theorem hasTripleNL_within (l l' : Str) (h : hasTripleNL l = false)
    (hinf : l' <:+: l) : hasTripleNL l' = false := by
  by_contra hc
  obtain ⟨s, t, rfl⟩ := hinf
  have h1 := hasTripleNL_append_right l'.length l' (le_refl _)
    (by simpa using hc) t
  have h2 := hasTripleNL_append_left s (l' ++ t) h1
  rw [← List.append_assoc] at h2
  rw [h2] at h
  exact absurd h (by simp)

/-! ## Claim C9 — helper lemmas: the punctuation class -/

theorem isPunctNorm_toNat (c : Char) (h : isPunctNorm c = true) :
    c.toNat = 0x440 ∨ c.toNat = 0x435 ∨ c.toNat = 0x434 ∨ c.toNat = 44 ∨
    c.toNat = 59 ∨ c.toNat = 58 ∨ c.toNat = 33 ∨ c.toNat = 63 := by
  simp only [isPunctNorm, Bool.or_eq_true, decide_eq_true_eq] at h
  rcases h with ((((((h | h) | h) | h) | h) | h) | h) | h <;> subst h <;> decide

theorem punct_not_ws (c : Char) (hp : isPunctNorm c = true) : isWS c = false := by
  by_contra h
  have h1 := isPunctNorm_toNat c hp
  have h2 := isWS_toNat c (by simpa using h)
  omega

theorem st_isWS (c : Char) (h : isSpaceTab c = true) : isWS c = true := by
  simp only [isSpaceTab, Bool.or_eq_true, decide_eq_true_eq] at h
  rcases h with rfl | rfl <;> decide

theorem punct_not_st (c : Char) (hp : isPunctNorm c = true) :
    isSpaceTab c = false := by
  by_contra h
  have h1 := st_isWS c (by simpa using h)
  rw [punct_not_ws c hp] at h1
  exact absurd h1 (by simp)

theorem punct_ne_nl (c : Char) (hp : isPunctNorm c = true) : c ≠ '\n' := by
  intro h
  subst h
  exact absurd hp (by decide)

/-! ## Claim C9 — helper lemmas: whitespace-before-punctuation removal -/

theorem Raux_mem : ∀ (l buf : Str) (c : Char),
    c ∈ punctRemoveBeforeAux buf l → c ∈ buf ∨ c ∈ l := by
  intro l
  induction l with
  | nil =>
    intro buf c hc
    rw [punctRemoveBeforeAux] at hc
    exact Or.inl hc
  | cons d rest ih =>
    intro buf c hc
    rw [punctRemoveBeforeAux] at hc
    by_cases hd : isWS d = true
    · rw [if_pos hd] at hc
      rcases ih (buf ++ [d]) c hc with h | h
      · rcases List.mem_append.mp h with h2 | h2
        · exact Or.inl h2
        · exact Or.inr (by simpa using List.mem_cons.mpr (Or.inl (by simpa using h2)))
      · exact Or.inr (List.mem_cons_of_mem d h)
    · rw [if_neg hd] at hc
      by_cases hp : isPunctNorm d = true
      · rw [if_pos hp] at hc
        rcases List.mem_cons.mp hc with rfl | h
        · exact Or.inr (List.mem_cons_self c rest)
        · rcases ih [] c h with h2 | h2
          · simp at h2
          · exact Or.inr (List.mem_cons_of_mem d h2)
      · rw [if_neg hp] at hc
        rcases List.mem_append.mp hc with h | h
        · exact Or.inl h
        · rcases List.mem_cons.mp h with rfl | h2
          · exact Or.inr (List.mem_cons_self c rest)
          · rcases ih [] c h2 with h3 | h3
            · simp at h3
            · exact Or.inr (List.mem_cons_of_mem d h3)

theorem punctLeads_cons_ws (c : Char) (l : Str) (h : isWS c = true) :
    punctLeads (c :: l) = punctLeads l := by
  rw [punctLeads, if_pos h]

theorem punctLeads_cons_not_ws (c : Char) (l : Str) (h : isWS c = false) :
    punctLeads (c :: l) = isPunctNorm c := by
  rw [punctLeads, if_neg (by simp [h])]

theorem Raux_split : ∀ (l buf : Str),
    punctRemoveBeforeAux buf l =
      (if punctLeads l = true then [] else buf) ++ punctRemoveBeforeAux [] l := by
  intro l
  induction l with
  | nil =>
    intro buf
    rw [punctRemoveBeforeAux, punctLeads, if_neg (by simp), punctRemoveBeforeAux,
      List.append_nil]
  | cons d rest ih =>
    intro buf
    by_cases hd : isWS d = true
    · rw [punctRemoveBeforeAux, if_pos hd, ih (buf ++ [d]),
        punctLeads_cons_ws d rest hd]
      conv_rhs => rw [punctRemoveBeforeAux, if_pos hd, List.nil_append, ih [d]]
      by_cases hpl : punctLeads rest = true
      · simp [hpl]
      · simp [hpl]
    · rw [punctRemoveBeforeAux, if_neg hd,
        punctLeads_cons_not_ws d rest (by simpa using hd)]
      by_cases hp : isPunctNorm d = true
      · rw [if_pos hp, if_pos hp]
        conv_rhs => rw [punctRemoveBeforeAux, if_neg hd, if_pos hp]
        rfl
      · rw [if_neg hp, if_neg (by simpa using hp : ¬isPunctNorm d = true)]
        conv_rhs => rw [punctRemoveBeforeAux, if_neg hd, if_neg hp]
        rfl

theorem R_cons (d : Char) (rest : Str) :
    punctRemoveBefore (d :: rest) =
      if isWS d = true ∧ punctLeads rest = true then punctRemoveBefore rest
      else d :: punctRemoveBefore rest := by
  rw [punctRemoveBefore, punctRemoveBeforeAux]
  by_cases hd : isWS d = true
  · rw [if_pos hd, List.nil_append, Raux_split rest [d]]
    by_cases hpl : punctLeads rest = true
    · rw [if_pos hpl, if_pos ⟨hd, hpl⟩, List.nil_append, punctRemoveBefore]
    · rw [if_neg hpl,
        if_neg (show ¬(isWS d = true ∧ punctLeads rest = true) from fun h => hpl h.2),
        punctRemoveBefore]
      rfl
  · rw [if_neg hd,
      if_neg (show ¬(isWS d = true ∧ punctLeads rest = true) from fun h => hd h.1)]
    by_cases hp : isPunctNorm d = true
    · rw [if_pos hp, punctRemoveBefore]
    · rw [if_neg hp, punctRemoveBefore]
      rfl

theorem R_ne_nil : ∀ l : Str, (∃ c ∈ l, isWS c = false) →
    punctRemoveBefore l ≠ [] := by
  intro l
  induction l with
  | nil =>
    intro ⟨c, hc, _⟩
    simp at hc
  | cons d rest ih =>
    intro ⟨c, hc, hcw⟩
    rw [R_cons]
    by_cases hcond : isWS d = true ∧ punctLeads rest = true
    · rw [if_pos hcond]
      refine ih ⟨c, ?_, hcw⟩
      rcases List.mem_cons.mp hc with rfl | h
      · rw [hcond.1] at hcw
        exact absurd hcw (by simp)
      · exact h
    · rw [if_neg hcond]
      simp

theorem R_head_punctLeads : ∀ l : Str, punctLeads l = true →
    ∀ c, (punctRemoveBefore l).head? = some c → isPunctNorm c = true := by
  intro l
  induction l with
  | nil =>
    intro h
    simp [punctLeads] at h
  | cons d rest ih =>
    intro h c hc
    by_cases hd : isWS d = true
    · rw [punctLeads_cons_ws d rest hd] at h
      rw [R_cons, if_pos ⟨hd, h⟩] at hc
      exact ih h c hc
    · rw [punctLeads_cons_not_ws d rest (by simpa using hd)] at h
      rw [R_cons, if_neg (fun h2 => hd h2.1)] at hc
      have : d = c := by simpa using hc
      subst this
      exact h

theorem R_head_not_punctLeads : ∀ l : Str, punctLeads l = false →
    (punctRemoveBefore l).head? = l.head? := by
  intro l
  cases l with
  | nil => intro _; rfl
  | cons d rest =>
    intro h
    by_cases hd : isWS d = true
    · rw [punctLeads_cons_ws d rest hd] at h
      rw [R_cons, if_neg (fun h2 => by rw [h2.2] at h; exact absurd h (by simp))]
      rfl
    · rw [R_cons, if_neg (fun h2 => hd h2.1)]
      rfl

theorem R_head_cases (l : Str) (c : Char)
    (hc : (punctRemoveBefore l).head? = some c) :
    isPunctNorm c = true ∨ l.head? = some c := by
  by_cases hpl : punctLeads l = true
  · exact Or.inl (R_head_punctLeads l hpl c hc)
  · rw [R_head_not_punctLeads l (by simpa using hpl)] at hc
    exact Or.inr hc

theorem R_NP : ∀ l : Str,
    List.Chain' (fun a b => ¬(isWS a = true ∧ isPunctNorm b = true))
      (punctRemoveBefore l) := by
  intro l
  induction l with
  | nil => exact List.chain'_nil
  | cons d rest ih =>
    rw [R_cons]
    by_cases hcond : isWS d = true ∧ punctLeads rest = true
    · rw [if_pos hcond]
      exact ih
    · rw [if_neg hcond]
      refine List.chain'_cons'.mpr ⟨?_, ih⟩
      intro y hy ⟨hdw, hyp⟩
      apply hcond
      refine ⟨hdw, ?_⟩
      by_cases hpl : punctLeads rest = true
      · exact hpl
      · rw [R_head_not_punctLeads rest (by simpa using hpl)] at hy
        cases rest with
        | nil => simp at hy
        | cons e r2 =>
          have : e = y := by simpa using hy
          subst this
          rw [punctLeads_cons_not_ws e r2 (punct_not_ws e hyp), hyp] at hpl
          exact absurd rfl hpl

theorem R_chain_ST (l : Str)
    (hch : List.Chain' (fun a b => ¬(isSpaceTab a = true ∧ isSpaceTab b = true)) l) :
    List.Chain' (fun a b => ¬(isSpaceTab a = true ∧ isSpaceTab b = true))
      (punctRemoveBefore l) := by
  induction l with
  | nil => exact List.chain'_nil
  | cons d rest ih =>
    rw [R_cons]
    by_cases hcond : isWS d = true ∧ punctLeads rest = true
    · rw [if_pos hcond]
      exact ih (List.Chain'.tail hch)
    · rw [if_neg hcond]
      refine List.chain'_cons'.mpr ⟨?_, ih (List.Chain'.tail hch)⟩
      intro y hy ⟨hdw, hyp⟩
      rcases R_head_cases rest y hy with h | h
      · rw [punct_not_st y h] at hyp
        exact absurd hyp (by simp)
      · exact (List.chain'_cons'.mp hch).1 y h ⟨hdw, hyp⟩

theorem R_hasTriple : ∀ l : Str, hasTripleNL l = false →
    hasTripleNL (punctRemoveBefore l) = false := by
  intro l
  induction l with
  | nil => intro _; rfl
  | cons d rest ih =>
    intro h
    rw [R_cons]
    by_cases hcond : isWS d = true ∧ punctLeads rest = true
    · rw [if_pos hcond]
      exact ih (hasTripleNL_tail d rest h)
    · rw [if_neg hcond]
      have hX := ih (hasTripleNL_tail d rest h)
      rcases hXs : punctRemoveBefore rest with _ | ⟨x, _ | ⟨y, t⟩⟩
      · rfl
      · rfl
      · rw [hasTripleNL_cons2]
        refine Bool.or_eq_false_iff.mpr ⟨?_, hXs ▸ hX⟩
        by_cases hd : d = '\n'
        · by_cases hx : x = '\n'
          · by_cases hy : y = '\n'
            · exfalso
              have hxh : (punctRemoveBefore rest).head? = some x := by rw [hXs]; rfl
              rcases R_head_cases rest x hxh with hpx | hhx
              · exact punct_ne_nl x hpx hx
              · cases rest with
                | nil => simp at hhx
                | cons e r2 =>
                  have he : e = x := by simpa using hhx
                  subst he
                  have hr2 : punctRemoveBefore (e :: r2) = e :: punctRemoveBefore r2 := by
                    rw [R_cons, if_neg]
                    intro ⟨_, hpl2⟩
                    have hXs2 : punctRemoveBefore r2 = e :: y :: t := by
                      rw [R_cons, if_pos ⟨by rw [hx]; decide, hpl2⟩] at hXs
                      exact hXs
                    have hxh2 : (punctRemoveBefore r2).head? = some e := by
                      rw [hXs2]
                      rfl
                    exact punct_ne_nl e (R_head_punctLeads r2 hpl2 e hxh2) hx
                  rw [hr2] at hXs
                  have hr2eq : punctRemoveBefore r2 = y :: t := by
                    simpa using hXs
                  have hyh : (punctRemoveBefore r2).head? = some y := by
                    rw [hr2eq]
                    rfl
                  rcases R_head_cases r2 y hyh with hpy | hhy
                  · exact punct_ne_nl y hpy hy
                  · cases r2 with
                    | nil => simp at hhy
                    | cons f r3 =>
                      have hf : f = y := by simpa using hhy
                      subst hf
                      rw [hd, hx, hy, hasTripleNL] at h
                      simp at h
            · simp [hy]
          · simp [hx]
        · simp [hd]

theorem R_last_nonws : ∀ l : Str,
    (∀ c, l.getLast? = some c → isWS c = false) →
    ∀ c, (punctRemoveBefore l).getLast? = some c → isWS c = false := by
  intro l
  induction l with
  | nil =>
    intro _ c hc
    simp [punctRemoveBefore, punctRemoveBeforeAux] at hc
  | cons d rest ih =>
    intro hlast c hc
    rw [R_cons] at hc
    by_cases hcond : isWS d = true ∧ punctLeads rest = true
    · rw [if_pos hcond] at hc
      cases rest with
      | nil => simp [punctLeads] at hcond
      | cons e r2 =>
        refine ih ?_ c hc
        intro c2 hc2
        refine hlast c2 ?_
        rw [List.getLast?_cons_cons]
        exact hc2
    · rw [if_neg hcond] at hc
      rcases hX : punctRemoveBefore rest with _ | ⟨e, X⟩
      · rw [hX] at hc
        have hdc : d = c := by simpa using hc
        subst hdc
        cases rest with
        | nil => exact hlast d (by rfl)
        | cons f r2 =>
          exfalso
          obtain ⟨c2, hc2⟩ : ∃ c2, (f :: r2).getLast? = some c2 := by
            rcases List.eq_nil_or_concat (f :: r2) with hcontra | ⟨ys, y, hys⟩
            · simp at hcontra
            · exact ⟨y, by rw [hys]; simp⟩
          have hc2w : isWS c2 = false := by
            refine hlast c2 ?_
            rw [List.getLast?_cons_cons]
            exact hc2
          have : punctRemoveBefore (f :: r2) ≠ [] :=
            R_ne_nil (f :: r2) ⟨c2, List.mem_of_getLast?_eq_some hc2, hc2w⟩
          exact this hX
      · rw [hX] at hc
        rw [List.getLast?_cons_cons] at hc
        have hc3 : (punctRemoveBefore rest).getLast? = some c := by
          rw [hX]
          exact hc
        cases rest with
        | nil =>
          exfalso
          have : punctRemoveBefore ([] : Str) = [] := rfl
          rw [this] at hX
          simp at hX
        | cons f r2 =>
          refine ih ?_ c hc3
          intro c2 hc2
          refine hlast c2 ?_
          rw [List.getLast?_cons_cons]
          exact hc2

/-! ## Claim C9 — helper lemmas: space insertion after punctuation -/

theorem I_head : ∀ l : Str, (punctInsertAfter l).head? = l.head? := by
  intro l
  rcases l with _ | ⟨c, _ | ⟨d, rest⟩⟩
  · rfl
  · rfl
  · rw [punctInsertAfter]
    by_cases h : isPunctNorm c ∧ !(isWS d)
    · rw [if_pos h]; rfl
    · rw [if_neg h]; rfl

theorem I_ne_nil (l : Str) (h : l ≠ []) : punctInsertAfter l ≠ [] := by
  intro hc
  have := I_head l
  rw [hc] at this
  rcases l with _ | ⟨c, t⟩
  · exact h rfl
  · simp at this

theorem I_mem : ∀ n (l : Str), l.length ≤ n →
    ∀ c ∈ punctInsertAfter l, c ∈ l ∨ c = ' ' := by
  intro n
  induction n with
  | zero =>
    intro l hn c hc
    rcases l with _ | ⟨a, t⟩
    · simp [punctInsertAfter] at hc
    · simp at hn
  | succ n ihn =>
    intro l hn c hc
    rcases l with _ | ⟨a, _ | ⟨b, t⟩⟩
    · simp [punctInsertAfter] at hc
    · rw [punctInsertAfter] at hc
      exact Or.inl hc
    · rw [punctInsertAfter] at hc
      by_cases h : isPunctNorm a ∧ !(isWS b)
      · rw [if_pos h] at hc
        rcases List.mem_cons.mp hc with rfl | hc
        · exact Or.inl (List.mem_cons_self c _)
        rcases List.mem_cons.mp hc with rfl | hc
        · exact Or.inr rfl
        rcases List.mem_cons.mp hc with rfl | hc
        · exact Or.inl (List.mem_cons_of_mem a (List.mem_cons_self c _))
        rcases ihn t (by simp at hn ⊢; omega) c hc with h2 | h2
        · exact Or.inl (List.mem_cons_of_mem a (List.mem_cons_of_mem b h2))
        · exact Or.inr h2
      · rw [if_neg h] at hc
        rcases List.mem_cons.mp hc with rfl | hc
        · exact Or.inl (List.mem_cons_self c _)
        rcases ihn (b :: t) (by simp at hn ⊢; omega) c hc with h2 | h2
        · exact Or.inl (List.mem_cons_of_mem a h2)
        · exact Or.inr h2

theorem I_cons_nonpunct (c : Char) (X : Str) (h : isPunctNorm c = false) :
    punctInsertAfter (c :: X) = c :: punctInsertAfter X := by
  rcases X with _ | ⟨e, X'⟩
  · rfl
  · rw [punctInsertAfter, if_neg]
    intro ⟨h1, _⟩
    rw [h] at h1
    exact absurd h1 (by simp)

theorem I_cons_wsnext (c e : Char) (X : Str) (hh : X.head? = some e)
    (hws : isWS e = true) :
    punctInsertAfter (c :: X) = c :: punctInsertAfter X := by
  rcases X with _ | ⟨f, X'⟩
  · simp at hh
  · have hf : f = e := by simpa using hh
    subst hf
    rw [punctInsertAfter, if_neg]
    intro ⟨_, h2⟩
    rw [hws] at h2
    exact absurd h2 (by simp)

theorem I_last_nonws : ∀ n (l : Str), l.length ≤ n →
    (∀ c, l.getLast? = some c → isWS c = false) →
    ∀ c, (punctInsertAfter l).getLast? = some c → isWS c = false := by
  intro n
  induction n with
  | zero =>
    intro l hn hlast c hc
    rcases l with _ | ⟨a, t⟩
    · simp [punctInsertAfter] at hc
    · simp at hn
  | succ n ihn =>
    intro l hn hlast c hc
    rcases l with _ | ⟨a, _ | ⟨b, t⟩⟩
    · simp [punctInsertAfter] at hc
    · rw [punctInsertAfter] at hc
      exact hlast c hc
    · rw [punctInsertAfter] at hc
      by_cases h : isPunctNorm a ∧ !(isWS b)
      · rw [if_pos h] at hc
        rcases ht : punctInsertAfter t with _ | ⟨e, X⟩
        · rw [ht] at hc
          have hbc : b = c := by simpa using hc
          subst hbc
          cases t with
          | nil => exact hlast b (by simp)
          | cons f r =>
            exact absurd ht (I_ne_nil (f :: r) (by simp))
        · rw [ht] at hc
          rw [List.getLast?_cons_cons, List.getLast?_cons_cons,
            List.getLast?_cons_cons] at hc
          refine ihn t (by simp at hn ⊢; omega) ?_ c (by rw [ht]; exact hc)
          intro c2 hc2
          refine hlast c2 ?_
          cases t with
          | nil => simp at hc2
          | cons f r =>
            rw [List.getLast?_cons_cons, List.getLast?_cons_cons]
            exact hc2
      · rw [if_neg h] at hc
        rcases hbt : punctInsertAfter (b :: t) with _ | ⟨e, X⟩
        · exact absurd hbt (I_ne_nil (b :: t) (by simp))
        · rw [hbt, List.getLast?_cons_cons] at hc
          refine ihn (b :: t) (by simp at hn ⊢; omega) ?_ c (by rw [hbt]; exact hc)
          intro c2 hc2
          refine hlast c2 ?_
          rw [List.getLast?_cons_cons]
          exact hc2

theorem pL_I : ∀ n (l : Str), l.length ≤ n →
    punctLeads (punctInsertAfter l) = punctLeads l := by
  intro n
  induction n with
  | zero =>
    intro l hn
    rcases l with _ | ⟨a, t⟩
    · rfl
    · simp at hn
  | succ n ihn =>
    intro l hn
    rcases l with _ | ⟨a, _ | ⟨b, t⟩⟩
    · rfl
    · rfl
    · rw [punctInsertAfter]
      by_cases h : isPunctNorm a ∧ !(isWS b)
      · rw [if_pos h]
        have ha : isWS a = false := punct_not_ws a h.1
        rw [punctLeads_cons_not_ws a _ ha, punctLeads_cons_not_ws a _ ha]
      · rw [if_neg h]
        by_cases ha : isWS a = true
        · rw [punctLeads_cons_ws a _ ha, punctLeads_cons_ws a _ ha]
          exact ihn (b :: t) (by simp at hn ⊢; omega)
        · rw [punctLeads_cons_not_ws a _ (by simpa using ha),
            punctLeads_cons_not_ws a _ (by simpa using ha)]

theorem I_chain_ST : ∀ n (l : Str), l.length ≤ n →
    List.Chain' (fun a b => ¬(isSpaceTab a = true ∧ isSpaceTab b = true)) l →
    List.Chain' (fun a b => ¬(isSpaceTab a = true ∧ isSpaceTab b = true))
      (punctInsertAfter l) := by
  intro n
  induction n with
  | zero =>
    intro l hn hch
    rcases l with _ | ⟨a, t⟩
    · exact List.chain'_nil
    · simp at hn
  | succ n ihn =>
    intro l hn hch
    rcases l with _ | ⟨a, _ | ⟨b, t⟩⟩
    · exact List.chain'_nil
    · exact List.chain'_singleton a
    · rw [punctInsertAfter]
      by_cases h : isPunctNorm a ∧ !(isWS b)
      · rw [if_pos h]
        refine List.chain'_cons'.mpr ⟨?_, List.chain'_cons'.mpr ⟨?_, List.chain'_cons'.mpr ⟨?_, ?_⟩⟩⟩
        · intro y hy ⟨h1, _⟩
          rw [punct_not_st a h.1] at h1
          exact absurd h1 (by simp)
        · intro y hy ⟨_, h2⟩
          have hyb : b = y := by simpa using hy
          subst hyb
          have hbw : isWS b = false := by
            have := h.2
            simpa using this
          rw [st_isWS b h2] at hbw
          exact absurd hbw (by simp)
        · intro y hy
          rw [I_head t] at hy
          exact (List.chain'_cons'.mp (List.Chain'.tail hch)).1 y hy
        · exact ihn t (by simp at hn ⊢; omega)
            (List.Chain'.tail (List.Chain'.tail hch))
      · rw [if_neg h]
        refine List.chain'_cons'.mpr ⟨?_, ?_⟩
        · intro y hy
          rw [I_head (b :: t)] at hy
          exact (List.chain'_cons'.mp hch).1 y hy
        · exact ihn (b :: t) (by simp at hn ⊢; omega) (List.Chain'.tail hch)

theorem I_second (l : Str) :
    ((punctInsertAfter l).drop 1).head? = some ' ' ∨
    ((punctInsertAfter l).drop 1).head? = (l.drop 1).head? := by
  rcases l with _ | ⟨a, _ | ⟨b, t⟩⟩
  · right; rfl
  · right; rfl
  · rw [punctInsertAfter]
    by_cases h : isPunctNorm a ∧ !(isWS b)
    · rw [if_pos h]
      left
      rfl
    · rw [if_neg h]
      right
      have hdr : (a :: punctInsertAfter (b :: t)).drop 1 = punctInsertAfter (b :: t) := rfl
      rw [hdr, I_head (b :: t)]
      rfl

theorem I_hasTriple : ∀ n (l : Str), l.length ≤ n → hasTripleNL l = false →
    hasTripleNL (punctInsertAfter l) = false := by
  intro n
  induction n with
  | zero =>
    intro l hn h
    rcases l with _ | ⟨a, t⟩
    · rfl
    · simp at hn
  | succ n ihn =>
    intro l hn h
    rcases l with _ | ⟨a, _ | ⟨b, t⟩⟩
    · rfl
    · rfl
    · rw [punctInsertAfter]
      by_cases hcond : isPunctNorm a ∧ !(isWS b)
      · rw [if_pos hcond]
        have h1 : hasTripleNL (b :: punctInsertAfter t) = false := by
          rcases hIt : punctInsertAfter t with _ | ⟨x, t'⟩
          · rfl
          · rw [hasTripleNL_cons2]
            refine Bool.or_eq_false_iff.mpr ⟨?_, hIt ▸ ihn t (by simp at hn ⊢; omega)
              (hasTripleNL_tail b t (hasTripleNL_tail a (b :: t) h))⟩
            by_cases hb : b = '\n'
            · by_cases hx : x = '\n'
              · by_cases hz : t'.head? = some '\n'
                · exfalso
                  have hxh : t.head? = some x := by
                    rw [← I_head t, hIt]
                    rfl
                  cases t with
                  | nil => simp at hxh
                  | cons x2 t2 =>
                    have hx2 : x2 = x := by simpa using hxh
                    rcases I_second (x2 :: t2) with hsp | hseq
                    · rw [hIt] at hsp
                      have hdr : ((x :: t') : Str).drop 1 = t' := rfl
                      rw [hdr, hz] at hsp
                      simp at hsp
                    · rw [hIt] at hseq
                      have hdr : ((x :: t') : Str).drop 1 = t' := rfl
                      rw [hdr] at hseq
                      rw [hseq] at hz
                      have hdr2 : ((x2 :: t2) : Str).drop 1 = t2 := rfl
                      rw [hdr2] at hz
                      cases t2 with
                      | nil => simp at hz
                      | cons z t3 =>
                        have hzz : z = '\n' := by simpa using hz
                        have ht : hasTripleNL (b :: x2 :: z :: t3) = false :=
                          hasTripleNL_tail a _ h
                        rw [hb, hx2, hx, hzz, hasTripleNL] at ht
                        simp at ht
                · simp [hz]
              · simp [hx]
            · simp [hb]
        rw [hasTripleNL_cons2]
        refine Bool.or_eq_false_iff.mpr ⟨by simp, ?_⟩
        rw [hasTripleNL_cons2]
        exact Bool.or_eq_false_iff.mpr ⟨by simp, h1⟩
      · rw [if_neg hcond]
        rcases hIt : punctInsertAfter (b :: t) with _ | ⟨x, t'⟩
        · exact absurd hIt (I_ne_nil (b :: t) (by simp))
        · rw [hasTripleNL_cons2]
          refine Bool.or_eq_false_iff.mpr ⟨?_, hIt ▸ ihn (b :: t) (by simp at hn ⊢; omega)
            (hasTripleNL_tail a (b :: t) h)⟩
          have hxb : x = b := by
            have := I_head (b :: t)
            rw [hIt] at this
            simpa using this
          by_cases ha : a = '\n'
          · by_cases hb : x = '\n'
            · by_cases hz : t'.head? = some '\n'
              · exfalso
                rcases I_second (b :: t) with hsp | hseq
                · rw [hIt] at hsp
                  have hdr : ((x :: t') : Str).drop 1 = t' := rfl
                  rw [hdr, hz] at hsp
                  simp at hsp
                · rw [hIt] at hseq
                  have hdr : ((x :: t') : Str).drop 1 = t' := rfl
                  rw [hdr] at hseq
                  rw [hseq] at hz
                  have hdr2 : ((b :: t) : Str).drop 1 = t := rfl
                  rw [hdr2] at hz
                  cases t with
                  | nil => simp at hz
                  | cons z t3 =>
                    have hzz : z = '\n' := by simpa using hz
                    rw [ha, ← hxb, hb, hzz, hasTripleNL] at h
                    simp at h
              · simp [hz]
            · simp [hb]
          · simp [ha]

theorem ws_not_punct (c : Char) (h : isWS c = true) : isPunctNorm c = false := by
  by_contra hc
  rw [punct_not_ws c (by simpa using hc)] at h
  exact absurd h (by simp)

theorem NP_pL : ∀ l : Str, ∀ c : Char,
    List.Chain' (fun a b => ¬(isWS a = true ∧ isPunctNorm b = true)) (c :: l) →
    isWS c = true → punctLeads l = false := by
  intro l
  induction l with
  | nil => intro c _ _; rfl
  | cons d r ih =>
    intro c hch hcw
    have hnp := (List.chain'_cons'.mp hch).1 d rfl
    have hdnp : isPunctNorm d = false := by
      by_contra hdp
      exact hnp ⟨hcw, by simpa using hdp⟩
    by_cases hdw : isWS d = true
    · rw [punctLeads_cons_ws d r hdw]
      exact ih d (List.Chain'.tail hch) hdw
    · rw [punctLeads_cons_not_ws d r (by simpa using hdw)]
      exact hdnp

/-- On strings with no whitespace-before-punctuation adjacency (as produced
by `punctRemoveBefore`), re-running removal after insertion is the
identity: inserting, removing and re-inserting equals inserting once. -/
theorem lemIR : ∀ n (t : Str), t.length ≤ n →
    List.Chain' (fun a b => ¬(isWS a = true ∧ isPunctNorm b = true)) t →
    punctInsertAfter (punctRemoveBefore (punctInsertAfter t)) =
      punctInsertAfter t := by
  intro n
  induction n with
  | zero =>
    intro t hn hch
    rcases t with _ | ⟨a, r⟩
    · rfl
    · simp at hn
  | succ n ihn =>
    intro t hn hch
    rcases t with _ | ⟨c, _ | ⟨d, rest⟩⟩
    · rfl
    · have hI : punctInsertAfter [c] = [c] := rfl
      rw [hI, R_cons,
        if_neg (show ¬(isWS c = true ∧ punctLeads ([] : Str) = true) from
          fun hcontra => by rw [punctLeads] at hcontra; exact absurd hcontra.2 (by simp)),
        show punctRemoveBefore ([] : Str) = [] from rfl]
      exact hI
    · by_cases hcond : isPunctNorm c ∧ !(isWS d)
      · have hIt : punctInsertAfter (c :: d :: rest) =
            c :: ' ' :: d :: punctInsertAfter rest := by
          rw [punctInsertAfter, if_pos hcond]
        have hcp : isPunctNorm c = true := hcond.1
        have hdw : isWS d = false := by simpa using hcond.2
        have hcw : isWS c = false := punct_not_ws c hcp
        rw [hIt]
        have hR1 : punctRemoveBefore (c :: ' ' :: d :: punctInsertAfter rest) =
            c :: punctRemoveBefore (' ' :: d :: punctInsertAfter rest) := by
          rw [R_cons, if_neg (fun hcontra => by
            rw [hcw] at hcontra; exact absurd hcontra.1 (by simp))]
        have hR3 : punctRemoveBefore (d :: punctInsertAfter rest) =
            d :: punctRemoveBefore (punctInsertAfter rest) := by
          rw [R_cons, if_neg (fun hcontra => by
            rw [hdw] at hcontra; exact absurd hcontra.1 (by simp))]
        have hIH := ihn rest (by simp at hn ⊢; omega)
          (List.Chain'.tail (List.Chain'.tail hch))
        by_cases hdp : isPunctNorm d = true
        · have hpl : punctLeads (d :: punctInsertAfter rest) = true := by
            rw [punctLeads_cons_not_ws d _ hdw, hdp]
          have hR2 : punctRemoveBefore (' ' :: d :: punctInsertAfter rest) =
              punctRemoveBefore (d :: punctInsertAfter rest) := by
            rw [R_cons, if_pos ⟨by decide, hpl⟩]
          rw [hR1, hR2, hR3, punctInsertAfter, if_pos hcond, hIH]
        · have hpl : punctLeads (d :: punctInsertAfter rest) = false := by
            rw [punctLeads_cons_not_ws d _ hdw]
            simpa using hdp
          have hR2 : punctRemoveBefore (' ' :: d :: punctInsertAfter rest) =
              ' ' :: punctRemoveBefore (d :: punctInsertAfter rest) := by
            rw [R_cons, if_neg (fun hcontra => by
              rw [hpl] at hcontra; exact absurd hcontra.2 (by simp))]
          rw [hR1, hR2, hR3,
            punctInsertAfter,
            if_neg (show ¬(isPunctNorm c ∧ !(isWS ' ')) from
              fun hcontra => absurd hcontra.2 (by decide)),
            I_cons_nonpunct ' ' _ (by decide),
            I_cons_nonpunct d _ (by simpa using hdp), hIH]
      · have hIt : punctInsertAfter (c :: d :: rest) =
            c :: punctInsertAfter (d :: rest) := by
          rw [punctInsertAfter, if_neg hcond]
        rw [hIt]
        have hch2 : List.Chain'
            (fun a b => ¬(isWS a = true ∧ isPunctNorm b = true)) (d :: rest) :=
          List.Chain'.tail hch
        have hIH := ihn (d :: rest) (by simp at hn ⊢; omega) hch2
        by_cases hcw : isWS c = true
        · have hpl0 : punctLeads (d :: rest) = false := NP_pL (d :: rest) c hch hcw
          have hpl : punctLeads (punctInsertAfter (d :: rest)) = false := by
            rw [pL_I (d :: rest).length (d :: rest) (le_refl _), hpl0]
          have hR : punctRemoveBefore (c :: punctInsertAfter (d :: rest)) =
              c :: punctRemoveBefore (punctInsertAfter (d :: rest)) := by
            rw [R_cons, if_neg (fun hcontra => by
              rw [hpl] at hcontra; exact absurd hcontra.2 (by simp))]
          rw [hR, I_cons_nonpunct c _ (ws_not_punct c hcw), hIH]
        · have hR : punctRemoveBefore (c :: punctInsertAfter (d :: rest)) =
              c :: punctRemoveBefore (punctInsertAfter (d :: rest)) := by
            rw [R_cons, if_neg (fun hcontra => hcw hcontra.1)]
          rw [hR]
          by_cases hcp : isPunctNorm c = true
          · have hdw : isWS d = true := by
              by_contra hdw
              exact hcond ⟨hcp, by simpa using hdw⟩
            have hpl0 : punctLeads rest = false := NP_pL rest d hch2 hdw
            have hpl1 : punctLeads (d :: rest) = false := by
              rw [punctLeads_cons_ws d rest hdw, hpl0]
            have hplI : punctLeads (punctInsertAfter (d :: rest)) = false := by
              rw [pL_I (d :: rest).length (d :: rest) (le_refl _), hpl1]
            have hhead : (punctRemoveBefore
                (punctInsertAfter (d :: rest))).head? = some d := by
              rw [R_head_not_punctLeads _ hplI, I_head]
              rfl
            rw [I_cons_wsnext c d _ hhead hdw, hIH]
          · rw [I_cons_nonpunct c _ (by simpa using hcp), hIH]

theorem collapseNL3Aux_id (l : Str) :
    (hasTripleNL l = false → collapseNL3Aux 0 l = l) ∧
    (hasTripleNL ('\n' :: l) = false → collapseNL3Aux 1 l = l) ∧
    (hasTripleNL ('\n' :: '\n' :: l) = false → collapseNL3Aux 2 l = l) := by
  induction l with
  | nil => exact ⟨fun _ => rfl, fun _ => rfl, fun _ => rfl⟩
  | cons d rest ih =>
    by_cases hd : d = '\n'
    · subst hd
      refine ⟨?_, ?_, ?_⟩
      · intro h
        rw [collapseNL3Aux, if_pos rfl, if_neg (by omega), ih.2.1 h]
      · intro h
        rw [collapseNL3Aux, if_pos rfl, if_neg (by omega), ih.2.2 h]
      · intro h
        exfalso
        rw [hasTripleNL] at h
        simp at h
    · refine ⟨?_, ?_, ?_⟩
      · intro h
        rw [collapseNL3Aux, if_neg hd, ih.1 (hasTripleNL_tail d rest h)]
      · intro h
        rw [collapseNL3Aux, if_neg hd,
          ih.1 (hasTripleNL_tail d rest (hasTripleNL_tail '\n' (d :: rest) h))]
      · intro h
        rw [collapseNL3Aux, if_neg hd,
          ih.1 (hasTripleNL_tail d rest (hasTripleNL_tail '\n' (d :: rest)
            (hasTripleNL_tail '\n' ('\n' :: d :: rest) h)))]

/-- A non-empty output of `normalize_devanagari_text` is a fixed point of it. -/
theorem dev_normalize_idem (s s1 : Str)
    (h : normalize_devanagari_text s = some s1) (hs1 : s1 ≠ []) :
    normalize_devanagari_text s1 = some s1 := by
  rw [normalize_devanagari_text] at h
  by_cases hs : is_nullish s = true
  · rw [if_pos hs] at h
    simp at h
  rw [if_neg hs] at h
  obtain ⟨w, hw⟩ : ∃ w, w = pyStrip (collapseNL3 (collapseSpaceTab
      (normNewlines (removeZeroWidth (fix_text_nfkc s))))) := ⟨_, rfl⟩
  have hs1eq : s1 = punctInsertAfter (punctRemoveBefore w) := by
    have h2 := h
    simp only [Option.some.injEq] at h2
    rw [hw]
    exact h2.symm
  have htne : punctRemoveBefore w ≠ [] := by
    intro hnil
    rw [hnil] at hs1eq
    exact hs1 hs1eq
  have hwne : w ≠ [] := by
    intro hwn
    rw [hwn] at htne
    exact htne rfl
  -- (a) no zero-width characters in s1
  have hmem_t : ∀ c ∈ punctRemoveBefore w, c ∈ w := by
    intro c hc
    rcases Raux_mem w [] c hc with h2 | h2
    · simp at h2
    · exact h2
  have hmem_w : ∀ c ∈ w, c ∈ collapseSpaceTab (normNewlines (removeZeroWidth
      (fix_text_nfkc s))) := by
    intro c hc
    rw [hw] at hc
    exact collapseNL3Aux_mem _ 0 c (pyStrip_mem _ c hc)
  have hmem_s1 : ∀ c ∈ s1, c = ' ' ∨ c ∈ collapseSpaceTab (normNewlines
      (removeZeroWidth (fix_text_nfkc s))) := by
    intro c hc
    rw [hs1eq] at hc
    rcases I_mem (punctRemoveBefore w).length _ (le_refl _) c hc with h2 | h2
    · exact Or.inr (hmem_w c (hmem_t c h2))
    · exact Or.inl h2
  have hzw : ∀ c ∈ s1, isZeroWidth c = false := by
    intro c hc
    rcases hmem_s1 c hc with rfl | h2
    · decide
    rw [collapseSpaceTab] at h2
    rcases collapseSpaceTabAux_mem _ false c h2 with ⟨h3, _⟩ | rfl
    · rcases normNewlines_mem _ _ (le_refl _) c h3 with h4 | rfl
      · exact (removeZeroWidth_mem _ c h4).2
      · decide
    · decide
  have hcr : ∀ c ∈ s1, c ≠ '\r' := by
    intro c hc
    rcases hmem_s1 c hc with rfl | h2
    · decide
    rw [collapseSpaceTab] at h2
    rcases collapseSpaceTabAux_mem _ false c h2 with ⟨h3, _⟩ | rfl
    · intro hcc
      subst hcc
      exact normNewlines_no_cr _ _ (le_refl _) h3
    · decide
  have hst : ∀ c ∈ s1, isSpaceTab c = true → c = ' ' := by
    intro c hc hcs
    rcases hmem_s1 c hc with rfl | h2
    · rfl
    rw [collapseSpaceTab] at h2
    rcases collapseSpaceTabAux_mem _ false c h2 with ⟨_, h3⟩ | rfl
    · rw [hcs] at h3
      exact absurd h3 (by simp)
    · rfl
  -- (d) the space-tab chain on s1
  have hchST : List.Chain' (fun a b => ¬(isSpaceTab a = true ∧ isSpaceTab b = true)) s1 := by
    rw [hs1eq]
    refine I_chain_ST (punctRemoveBefore w).length _ (le_refl _) ?_
    refine R_chain_ST w ?_
    rw [hw]
    refine List.Chain'.infix ?_ (pyStrip_within _)
    refine collapseNL3Aux_chain_preserve (fun x => fun ⟨h1, _⟩ => by
      exact absurd h1 (by decide)) _ ?_ 0
    rw [collapseSpaceTab]
    exact collapseSpaceTabAux_chain _ false
  -- (e) no triple newline in s1
  have htriple : hasTripleNL s1 = false := by
    rw [hs1eq]
    refine I_hasTriple (punctRemoveBefore w).length _ (le_refl _) ?_
    refine R_hasTriple w ?_
    refine hasTripleNL_within _ _ ?_ (hw ▸ pyStrip_within _)
    exact (collapseNL3Aux_establish _ 0).1
  -- (f) s1 is stripped
  have hwhead : ∀ c, w.head? = some c → isWS c = false := by
    intro c hc
    rw [hw] at hc
    exact pyStrip_head _ c hc
  have hwlast : ∀ c, w.getLast? = some c → isWS c = false := by
    intro c hc
    rw [hw] at hc
    exact pyStrip_last _ c hc
  have hthead : ∀ c, (punctRemoveBefore w).head? = some c → isWS c = false := by
    intro c hc
    rcases R_head_cases w c hc with hp | hh
    · exact punct_not_ws c hp
    · exact hwhead c hh
  have hs1head : ∀ c, s1.head? = some c → isWS c = false := by
    intro c hc
    rw [hs1eq, I_head] at hc
    exact hthead c hc
  have hs1last : ∀ c, s1.getLast? = some c → isWS c = false := by
    intro c hc
    rw [hs1eq] at hc
    exact I_last_nonws (punctRemoveBefore w).length _ (le_refl _)
      (R_last_nonws w hwlast) c hc
  have hstrip : pyStrip s1 = s1 := pyStrip_eq_self s1 hs1head hs1last
  -- compute the second normalization
  have hnull1 : is_nullish s1 = false := by
    rw [is_nullish]
    simp only [hstrip]
    simpa using hs1
  rw [normalize_devanagari_text, if_neg (by simp [hnull1])]
  have hfix : fix_text_nfkc s1 = s1 := rfl
  rw [hfix, removeZeroWidth_id s1 hzw,
    normNewlines_id s1.length s1 (le_refl _) (fun hm => hcr '\r' hm rfl)]
  rw [show collapseSpaceTab s1 = s1 from by
    rw [collapseSpaceTab]; exact collapseSpaceTabAux_id s1 hst hchST]
  rw [show collapseNL3 s1 = s1 from by
    rw [collapseNL3]; exact (collapseNL3Aux_id s1).1 htriple]
  rw [hstrip, hs1eq]
  rw [lemIR (punctRemoveBefore w).length _ (le_refl _) (R_NP w)]

/-! ## Claim C9 — helper lemmas: canonicalization routing -/

theorem canonicalize_roman (rq : Str)
    (h : is_query_devanagari (if is_nullish rq then [] else rq) = false) :
    canonicalize_query_for_search rq =
      ⟨if is_nullish rq then [] else rq, Mode.roman,
        roman_normalize_for_index (if is_nullish rq then [] else rq),
        roman_normalize_for_index (if is_nullish rq then [] else rq)⟩ := by
  rw [canonicalize_query_for_search]
  simp only [h, Bool.false_eq_true, if_false]

theorem canonicalize_dev (rq : Str)
    (h : is_query_devanagari (if is_nullish rq then [] else rq) = true) :
    canonicalize_query_for_search rq =
      ⟨if is_nullish rq then [] else rq, Mode.dev,
        (match normalize_devanagari_text (if is_nullish rq then [] else rq) with
         | none => if is_nullish rq then [] else rq
         | some s => if s = [] then (if is_nullish rq then [] else rq) else s),
        []⟩ := by
  rw [canonicalize_query_for_search]
  simp only [h, if_true]

theorem no_dev_not_devanagari (q : Str) (h : ∀ c ∈ q, c.toNat < 0x900) :
    is_query_devanagari q = false := by
  have hd : devCount q = 0 := by
    rw [devCount, List.length_eq_zero, List.filter_eq_nil_iff]
    intro a ha
    simp only [Bool.and_eq_true, decide_eq_true_eq, not_and]
    intro h1
    have := h a ha
    omega
  rw [is_query_devanagari, hd]
  simp

theorem roman_normalize_no_dev (s : Str) :
    ∀ c ∈ roman_normalize_for_index s, c.toNat < 0x900 := by
  intro c hc
  rw [roman_normalize_for_index] at hc
  by_cases h : is_nullish s = true
  · rw [if_pos h] at hc
    simp at hc
  rw [if_neg h] at hc
  have hc2 := pyStrip_mem _ c hc
  rw [collapseWS] at hc2
  rcases collapseWSAux_mem _ false c hc2 with ⟨hc3, _⟩ | rfl
  · rw [yojanaFix] at hc3
    rcases mem_intercalate_space _ c hc3 with rfl | ⟨w, hw, hcw⟩
    · decide
    obtain ⟨u, hu, rfl⟩ := List.mem_map.mp hw
    have hbase : ∀ d ∈ vToW (collapseCharRun 'o' (collapseCharRun 'e'
        (collapseCharRun 'u' (collapseCharRun 'i' (collapseCharRun 'a'
          (pyStrip (collapseWS (nonAlnumToSpace (pyStrip (s.map lowerChar)))))))))),
        d.toNat < 0x900 := by
      intro d hd
      rw [vToW] at hd
      obtain ⟨e, he, rfl⟩ := List.mem_map.mp hd
      have he2 : e ∈ pyStrip (collapseWS (nonAlnumToSpace (pyStrip (s.map lowerChar)))) := by
        rw [collapseCharRun] at he
        have he3 := collapseCharRunAux_mem 'o' _ false e he
        rw [collapseCharRun] at he3
        have he4 := collapseCharRunAux_mem 'e' _ false e he3
        rw [collapseCharRun] at he4
        have he5 := collapseCharRunAux_mem 'u' _ false e he4
        rw [collapseCharRun] at he5
        have he6 := collapseCharRunAux_mem 'i' _ false e he5
        rw [collapseCharRun] at he6
        exact collapseCharRunAux_mem 'a' _ false e he6
      have he7 := pyStrip_mem _ e he2
      rw [collapseWS] at he7
      have hclass : (isRomanAlnum e = true ∧ isWS e = false) ∨ e = ' ' := by
        rcases collapseWSAux_mem _ false e he7 with ⟨he8, hnw⟩ | rfl
        · rw [nonAlnumToSpace] at he8
          rcases nonAlnumToSpaceAux_mem _ false e he8 with ⟨_, hcls⟩ | rfl
          · rcases (by simpa using hcls : isRomanAlnum e = true ∨ isWS e = true) with h2 | h2
            · exact Or.inl ⟨h2, hnw⟩
            · rw [h2] at hnw
              exact absurd hnw (by simp)
          · exact Or.inr rfl
        · exact Or.inr rfl
      by_cases hev : e = 'v'
      · rw [if_pos hev]
        decide
      · rw [if_neg hev]
        rcases hclass with ⟨ha, _⟩ | rfl
        · simp only [isRomanAlnum, Bool.or_eq_true, Bool.and_eq_true,
            decide_eq_true_eq] at ha
          omega
        · decide
    rcases yojanaWord_cases u with hcase | hcase
    · rw [hcase] at hcw
      have hinf := (splitOnP_struct (fun d => d == ' ') _).1 u hu
      exact hbase c (hinf.subset hcw)
    · rw [hcase] at hcw
      have he : "yojana".toList = ['y', 'o', 'j', 'a', 'n', 'a'] := rfl
      rw [he] at hcw
      rcases List.mem_cons.mp hcw with rfl | hcw
      · decide
      rcases List.mem_cons.mp hcw with rfl | hcw
      · decide
      rcases List.mem_cons.mp hcw with rfl | hcw
      · decide
      rcases List.mem_cons.mp hcw with rfl | hcw
      · decide
      rcases List.mem_cons.mp hcw with rfl | hcw
      · decide
      rcases List.mem_cons.mp hcw with rfl | hcw
      · decide
      simp at hcw
  · decide

theorem roman_normalize_pyStrip (s : Str) :
    pyStrip (roman_normalize_for_index s) = roman_normalize_for_index s := by
  rw [roman_normalize_for_index]
  by_cases h : is_nullish s = true
  · rw [if_pos h]
    rfl
  · rw [if_neg h]
    exact pyStrip_idem _

theorem roman_normalize_of_nullish (s : Str)
    (h : is_nullish (roman_normalize_for_index s) = true) :
    roman_normalize_for_index s = [] := by
  rw [is_nullish] at h
  have h2 : pyStrip (roman_normalize_for_index s) = [] := by simpa using h
  rw [roman_normalize_pyStrip] at h2
  exact h2

/-- C9 (amended): canonicalization is idempotent whenever re-canonicalizing
the produced query preserves the detected mode, and in roman mode the mode
is always preserved (so roman canonicalization is idempotent outright). -/
theorem canonicalize_idempotent_modes (raw : Str) :
    ((canonicalize_query_for_search ((canonicalize_query_for_search raw).q)).mode =
        (canonicalize_query_for_search raw).mode →
      (canonicalize_query_for_search ((canonicalize_query_for_search raw).q)).q =
        (canonicalize_query_for_search raw).q) ∧
    ((canonicalize_query_for_search raw).mode = Mode.roman →
      (canonicalize_query_for_search ((canonicalize_query_for_search raw).q)).mode =
        Mode.roman) := by
  by_cases hdev : is_query_devanagari (if is_nullish raw then [] else raw) = true
  · have hA := canonicalize_dev raw hdev
    have hAmode : (canonicalize_query_for_search raw).mode = Mode.dev := by rw [hA]
    rcases hnorm : normalize_devanagari_text (if is_nullish raw then [] else raw)
      with _ | s
    · exfalso
      by_cases hnul : is_nullish raw = true
      · rw [if_pos hnul] at hdev
        exact absurd hdev (by decide)
      · rw [if_neg hnul] at hnorm
        rw [normalize_devanagari_text, if_neg hnul] at hnorm
        simp at hnorm
    · have hAq : (canonicalize_query_for_search raw).q =
          (if s = [] then (if is_nullish raw then [] else raw) else s) := by
        rw [hA, hnorm]
      have hnul1 : is_nullish (if is_nullish raw then [] else raw) = false := by
        by_contra hc
        rw [normalize_devanagari_text, if_pos (by simpa using hc)] at hnorm
        simp at hnorm
      by_cases hse : s = []
      · rw [if_pos hse] at hAq
        have hinner : (if is_nullish (if is_nullish raw then [] else raw) then []
            else (if is_nullish raw then [] else raw)) =
            (if is_nullish raw then [] else raw) := by
          simp [hnul1]
        have hB := canonicalize_dev (if is_nullish raw then [] else raw)
          (by rw [hinner]; exact hdev)
        have hBq : (canonicalize_query_for_search
            ((canonicalize_query_for_search raw).q)).q =
            (if is_nullish raw then [] else raw) := by
          rw [hAq, hB, hinner, hnorm]
          simp [hse]
        have hBmode : (canonicalize_query_for_search
            ((canonicalize_query_for_search raw).q)).mode = Mode.dev := by
          rw [hAq, hB]
        constructor
        · intro _
          rw [hBq, hAq]
        · intro hmode
          rw [hAmode] at hmode
          exact absurd hmode (by decide)
      · rw [if_neg hse] at hAq
        have hidem := dev_normalize_idem (if is_nullish raw then [] else raw) s
          hnorm hse
        have hnuls : is_nullish s = false := by
          by_contra hc
          rw [normalize_devanagari_text, if_pos (by simpa using hc)] at hidem
          simp at hidem
        have hinner : (if is_nullish s then [] else s) = s := by simp [hnuls]
        constructor
        · intro hmode
          rw [hAmode] at hmode
          by_cases hsdev : is_query_devanagari s = true
          · have hB := canonicalize_dev s (by rw [hinner]; exact hsdev)
            rw [hAq, hB]
            show (match normalize_devanagari_text (if is_nullish s then [] else s) with
              | none => if is_nullish s then [] else s
              | some s2 => if s2 = [] then (if is_nullish s then [] else s) else s2) = s
            rw [hinner, hidem]
            simp [hse]
          · have hB := canonicalize_roman s
              (by rw [hinner]; simpa using hsdev)
            rw [hAq] at hmode
            rw [hB] at hmode
            have hmode2 : Mode.roman = Mode.dev := hmode
            exact absurd hmode2 (by decide)
        · intro hmode
          rw [hAmode] at hmode
          exact absurd hmode (by decide)
  · have hdevf : is_query_devanagari (if is_nullish raw then [] else raw) = false := by
      simpa using hdev
    have hA := canonicalize_roman raw hdevf
    have hAq : (canonicalize_query_for_search raw).q =
        roman_normalize_for_index (if is_nullish raw then [] else raw) := by rw [hA]
    have hAmode : (canonicalize_query_for_search raw).mode = Mode.roman := by rw [hA]
    have hnd : ∀ c ∈ (if is_nullish (roman_normalize_for_index
        (if is_nullish raw then [] else raw)) then []
        else roman_normalize_for_index (if is_nullish raw then [] else raw)),
        c.toNat < 0x900 := by
      intro c hc
      by_cases h2 : is_nullish (roman_normalize_for_index
          (if is_nullish raw then [] else raw)) = true
      · rw [if_pos h2] at hc
        simp at hc
      · rw [if_neg h2] at hc
        exact roman_normalize_no_dev _ c hc
    have hB := canonicalize_roman
      (roman_normalize_for_index (if is_nullish raw then [] else raw))
      (no_dev_not_devanagari _ hnd)
    have hBq : (canonicalize_query_for_search (roman_normalize_for_index
        (if is_nullish raw then [] else raw))).q =
        roman_normalize_for_index (if is_nullish (roman_normalize_for_index
          (if is_nullish raw then [] else raw)) then []
          else roman_normalize_for_index (if is_nullish raw then [] else raw)) := by
      rw [hB]
    have hBmode : (canonicalize_query_for_search (roman_normalize_for_index
        (if is_nullish raw then [] else raw))).mode = Mode.roman := by
      rw [hB]
    have hfix : roman_normalize_for_index (if is_nullish (roman_normalize_for_index
        (if is_nullish raw then [] else raw)) then []
        else roman_normalize_for_index (if is_nullish raw then [] else raw)) =
        roman_normalize_for_index (if is_nullish raw then [] else raw) := by
      by_cases h2 : is_nullish (roman_normalize_for_index
          (if is_nullish raw then [] else raw)) = true
      · rw [if_pos h2, roman_normalize_of_nullish _ h2]
        decide
      · rw [if_neg h2]
        exact roman_normalize_idem _
    constructor
    · intro _
      rw [hAq, hBq, hfix]
    · intro _
      rw [hAq, hBmode]

/-- C9 witness: the amended theorem applied to a concrete roman query with
casing, runs and punctuation, and to a concrete Devanagari query. -/
theorem canonicalize_idempotent_modes_witness :
    (canonicalize_query_for_search
        ((canonicalize_query_for_search "Vikas  Yojnaa!".toList).q)).q =
      (canonicalize_query_for_search "Vikas  Yojnaa!".toList).q :=
  (canonicalize_idempotent_modes "Vikas  Yojnaa!".toList).1 (by decide)
